import Mathlib

/-!
# Verification of the PDF → Markdown reflow engine

Shallow embedding of `src/utils/pdf-converter.ts` (the `cleanText`
normalizer, the per-page renderer with link-annotation matching, and the
Markdown assembler), together with proofs settling the frozen claims.

Strings are modelled as `List Char` (JavaScript strings are sequences of
UTF-16 code units; every character appearing in the source's patterns and
in the inputs considered here is a single BMP code unit, so the
char-per-code-unit model is faithful).  Each JavaScript
`String.prototype.replace` call with a global regex is embedded as a
structural left-to-right scanner equivalent to the backtracking regex
engine on that pattern; the equivalences are commented at each definition.
-/

namespace PdfConverter

/-- JavaScript regex `\s` (whitespace class, as used with no `u` flag on
BMP code units): space, `\t`, `\n`, `\r`, `\v`, `\f`, NBSP, Ogham space,
the U+2000–U+200A range, LS, PS, NNBSP, MMSP, ideographic space, BOM. -/
def isWS (c : Char) : Bool :=
  c = ' ' || c = '\t' || c = '\n' || c = '\x0d' || c = '\x0b' || c = '\x0c' ||
  c = '\u00a0' || c = '\u1680' ||
  (('\u2000' : Char) ≤ c && c ≤ ('\u200a' : Char)) ||
  c = '\u2028' || c = '\u2029' || c = '\u202f' || c = '\u205f' ||
  c = '\u3000' || c = '\ufeff'

/-- JavaScript regex `\w` (word character, no `u` flag): ASCII letters,
digits, underscore.  Used for `\b` word-boundary tests. -/
def isWordChar (c : Char) : Bool :=
  ('a' ≤ c && c ≤ 'z') || ('A' ≤ c && c ≤ 'Z') || ('0' ≤ c && c ≤ '9') || c = '_'

/-- Word-ness of the character left of the current position (`none` at the
start of the string counts as non-word). -/
def prevWord : Option Char → Bool
  | none => false
  | some c => isWordChar c

/-- The class `[A-ZĂÂÎȘȚ]` from steps 5–7 of `cleanText`. -/
def isUC (c : Char) : Bool :=
  ('A' ≤ c && c ≤ 'Z') || c = 'Ă' || c = 'Â' || c = 'Î' || c = 'Ș' || c = 'Ț'

/-- The class `[a-zăâîșț]` from step 6 of `cleanText`. -/
def isLC (c : Char) : Bool :=
  ('a' ≤ c && c ≤ 'z') || c = 'ă' || c = 'â' || c = 'î' || c = 'ș' || c = 'ț'

/-- The class `[.!?]` from step 5 of `cleanText`. -/
def isPunct5 (c : Char) : Bool := c = '.' || c = '!' || c = '?'

/-- The class `[,!?;:]` from step 10 of `cleanText`. -/
def isPunct10 (c : Char) : Bool := c = ',' || c = '!' || c = '?' || c = ';' || c = ':'

/-- The class `[a-zA-ZăâîșțĂÂÎȘȚ]` from step 10 of `cleanText`. -/
def isLetter10 (c : Char) : Bool :=
  ('a' ≤ c && c ≤ 'z') || ('A' ≤ c && c ≤ 'Z') ||
  c = 'ă' || c = 'â' || c = 'î' || c = 'ș' || c = 'ț' ||
  c = 'Ă' || c = 'Â' || c = 'Î' || c = 'Ș' || c = 'Ț'

/-- ASCII decimal digit. -/
def isDigitC (c : Char) : Bool := '0' ≤ c && c ≤ '9'


/-! ## The `cleanText` normalizer, step by step

`cleanText` (pdf-converter.ts lines 8–60) is a fixed sequence of
`String.replace` calls.  Each global-regex replace is embedded below as a
left-to-right scanner; the scanner is equivalent to the JS backtracking
engine on that pattern (matches are found leftmost, non-overlapping, and
scanning resumes immediately after each match). -/

/-- The paragraph placeholder `<<<__PARA__>>>` from step 3. -/
def paraPH : List Char := "<<<__PARA__>>>".data

/-- Index of the last occurrence of `c` in `l`, if any. -/
def lastIdxOf (c : Char) : List Char → Option Nat
  | [] => none
  | a :: t =>
    match lastIdxOf c t with
    | some i => some (i + 1)
    | none => if a = c then some 0 else none

/-- Step 2: `text.replace` with the global regex `-\s*\n` and replacement `''`.

At a `-`, the greedy `\s*\n` consumes the following whitespace up to (and
including) the **last** `\n` inside the maximal whitespace run; if the run
contains no `\n` there is no match.  Because the skipped-over whitespace
characters are themselves copied verbatim by the scanner (none is `-`),
resuming after the match is the same as dropping the consumed prefix from
the recursive result. -/
def step2Hyphen : List Char → List Char
  | [] => []
  | c :: t =>
    if c = '-' then
      match lastIdxOf '\n' (t.takeWhile isWS) with
      | some j => (step2Hyphen t).drop (j + 1)
      | none => '-' :: step2Hyphen t
    else c :: step2Hyphen t

/-- `\n{2,}` flush: a maximal run of `p` newlines becomes nothing, a single
newline, or the paragraph placeholder. -/
def nlFlush : Nat → List Char
  | 0 => []
  | 1 => ['\n']
  | _ => paraPH

/-- Step 3 worker: `p` counts the pending run of consecutive `\n`s. -/
def step3ParaGo : Nat → List Char → List Char
  | p, [] => nlFlush p
  | p, c :: t => if c = '\n' then step3ParaGo (p + 1) t else nlFlush p ++ c :: step3ParaGo 0 t

/-- Step 3: `text.replace(/\n{2,}/g, PARA)` — maximal runs of two or more
newlines become one placeholder. -/
def step3Para (l : List Char) : List Char := step3ParaGo 0 l

/-- Step 4: `text.replace(/\n/g, ' ')`. -/
def step4Newline : List Char → List Char
  | [] => []
  | c :: t => (if c = '\n' then ' ' else c) :: step4Newline t

/-- Step 5: `text.replace(/([.!?])([A-ZĂÂÎȘȚ])/g, '$1 $2')`. -/
def step5PunctCap : List Char → List Char
  | a :: b :: t =>
    if isPunct5 a && isUC b then a :: ' ' :: b :: step5PunctCap t
    else a :: step5PunctCap (b :: t)
  | l => l

/-- Step 6: `text.replace(/([a-zăâîșț])([A-ZĂÂÎȘȚ])/g, '$1 $2')`. -/
def step6LowerUpper : List Char → List Char
  | a :: b :: t =>
    if isLC a && isUC b then a :: ' ' :: b :: step6LowerUpper t
    else a :: step6LowerUpper (b :: t)
  | l => l

/-- Step 7, first replace: `text.replace(/\bul([A-ZĂÂÎȘȚ])/g, 'ul $1')`.
`prev` is the character before the current position (for the `\b` test:
`u` is a word character, so the boundary holds iff `prev` is not). -/
def step7aUl (prev : Option Char) : List Char → List Char
  | 'u' :: 'l' :: c :: t =>
    if !prevWord prev && isUC c then 'u' :: 'l' :: ' ' :: c :: step7aUl (some c) t
    else 'u' :: step7aUl (some 'u') ('l' :: c :: t)
  | c :: t => c :: step7aUl (some c) t
  | [] => []

/-- Step 7, second replace: `text.replace(/\bsă([îi])/g, 'să $1')`.
`s` is a word character, so `\b` holds iff `prev` is not. -/
def step7bSa (prev : Option Char) : List Char → List Char
  | 's' :: 'ă' :: c :: t =>
    if !prevWord prev && (c = 'î' || c = 'i') then 's' :: 'ă' :: ' ' :: c :: step7bSa (some c) t
    else 's' :: step7bSa (some 's') ('ă' :: c :: t)
  | c :: t => c :: step7bSa (some c) t
  | [] => []

/-- Step 8: `text.replace(new RegExp(PARA, 'g'), '\n\n')` — the placeholder
contains no regex metacharacters, so this is a global literal replace. -/
def step8RestorePara : List Char → List Char
  | c1 :: c2 :: c3 :: c4 :: c5 :: c6 :: c7 :: c8 :: c9 :: c10 :: c11 :: c12 :: c13 :: c14 :: t =>
    if c1 = '<' && c2 = '<' && c3 = '<' && c4 = '_' && c5 = '_' && c6 = 'P' && c7 = 'A' &&
        c8 = 'R' && c9 = 'A' && c10 = '_' && c11 = '_' && c12 = '>' && c13 = '>' && c14 = '>' then
      '\n' :: '\n' :: step8RestorePara t
    else
      c1 :: step8RestorePara
        (c2 :: c3 :: c4 :: c5 :: c6 :: c7 :: c8 :: c9 :: c10 :: c11 :: c12 :: c13 :: c14 :: t)
  | c :: t => c :: step8RestorePara t
  | [] => []

/-- `[ \t]+` flush. -/
def spFlush : Bool → List Char
  | true => [' ']
  | false => []

/-- Step 9, first replace worker: `p` records a pending run of spaces/tabs. -/
def step9aSpacesGo : Bool → List Char → List Char
  | p, [] => spFlush p
  | p, c :: t =>
    if c = ' ' || c = '\t' then step9aSpacesGo true t
    else spFlush p ++ c :: step9aSpacesGo false t

/-- Step 9, first replace: `text.replace(/[ \t]+/g, ' ')`. -/
def step9aSpaces (l : List Char) : List Char := step9aSpacesGo false l

/-- The suffix of `l` after the last occurrence of `c`. -/
def afterLast (c : Char) (l : List Char) : List Char :=
  (l.reverse.takeWhile (· ≠ c)).reverse

/-- Effect of `/\n\s+\n/g → '\n\n'` on one maximal whitespace run: the
leftmost match starts at the run's first `\n` and (greedily) ends at its
last `\n`, and exists iff the run contains two `\n`s that are not the same
character; in every case with at least two `\n`s the result is the prefix
before the first `\n`, then `\n\n`, then the suffix after the last `\n`. -/
def wsRunFlush (run : List Char) : List Char :=
  if 2 ≤ run.count '\n' then
    run.takeWhile (· ≠ '\n') ++ '\n' :: '\n' :: afterLast '\n' run
  else run

/-- Step 9, second replace worker: `run` accumulates the current maximal
whitespace run. -/
def step9bBlankGo : List Char → List Char → List Char
  | run, [] => wsRunFlush run
  | run, c :: t =>
    if isWS c then step9bBlankGo (run ++ [c]) t
    else wsRunFlush run ++ c :: step9bBlankGo [] t

/-- Step 9, second replace: `text.replace(/\n\s+\n/g, '\n\n')`. -/
def step9bBlank (l : List Char) : List Char := step9bBlankGo [] l

/-- Step 10, first replace worker: `acc` accumulates the pending
whitespace run; a following `[,!?;:]` discards it. -/
def step10aGo : List Char → List Char → List Char
  | acc, [] => acc
  | acc, c :: t =>
    if isWS c then step10aGo (acc ++ [c]) t
    else if isPunct10 c then c :: step10aGo [] t
    else acc ++ c :: step10aGo [] t

/-- Step 10, first replace: `text.replace(/\s+([,!?;:])/g, '$1')`. -/
def step10aPunct (l : List Char) : List Char := step10aGo [] l

/-- Step 10, second replace worker: the state holds a pending punctuation
character together with the whitespace run collected after it. -/
def step10bGo : Option (Char × List Char) → List Char → List Char
  | none, [] => []
  | none, c :: t => if isPunct10 c then step10bGo (some (c, [])) t else c :: step10bGo none t
  | some (p, acc), [] => p :: acc
  | some (p, acc), c :: t =>
    if isWS c then step10bGo (some (p, acc ++ [c])) t
    else if isLetter10 c then p :: ' ' :: c :: step10bGo none t
    else if isPunct10 c then p :: acc ++ step10bGo (some (c, [])) t
    else p :: acc ++ c :: step10bGo none t

/-- Step 10, second replace:
`text.replace(/([,!?;:])\s*([a-zA-ZăâîșțĂÂÎȘȚ])/g, '$1 $2')`. -/
def step10bPunct (l : List Char) : List Char := step10bGo none l

/-- JavaScript `String.prototype.trim` (strips the same `\s` class). -/
def trimJS (l : List Char) : List Char :=
  ((l.dropWhile isWS).reverse.dropWhile isWS).reverse

/-! ## Step 1 (protect URLs/e-mails) and step 11 (restore) -/

/-- Characters allowed in the URL body `[^\s\]]+`. -/
def isURLBody (c : Char) : Bool := !isWS c && c ≠ ']'

/-- The local-part class `[a-zA-Z0-9._%+-]` of the e-mail alternative. -/
def isLocalC (c : Char) : Bool :=
  ('a' ≤ c && c ≤ 'z') || ('A' ≤ c && c ≤ 'Z') || ('0' ≤ c && c ≤ '9') ||
  c = '.' || c = '_' || c = '%' || c = '+' || c = '-'

/-- The domain class `[a-zA-Z0-9.-]` of the e-mail alternative. -/
def isDomainC (c : Char) : Bool :=
  ('a' ≤ c && c ≤ 'z') || ('A' ≤ c && c ≤ 'Z') || ('0' ≤ c && c ≤ '9') || c = '.' || c = '-'

/-- ASCII letter (`[a-zA-Z]`, the TLD class). -/
def isAsciiLetter (c : Char) : Bool := ('a' ≤ c && c ≤ 'z') || ('A' ≤ c && c ≤ 'Z')

/-- The `n`-th URL/e-mail placeholder `<<<URL_n>>>`. -/
def urlPH (k : Nat) : List Char := "<<<URL_".data ++ Nat.toDigits 10 k ++ ">>>".data

/-- Attempt of the first alternative `https?:\/\/[^\s\]]+` at the current
position: the literal scheme (greedy `s?` first, which is decided by the
next character), then a maximal nonempty run of URL-body characters. -/
def matchURL (l : List Char) : Option (List Char × List Char) :=
  if "https://".data.isPrefixOf l then
    let body := (l.drop 8).takeWhile isURLBody
    if body = [] then none
    else some ("https://".data ++ body, (l.drop 8).dropWhile isURLBody)
  else if "http://".data.isPrefixOf l then
    let body := (l.drop 7).takeWhile isURLBody
    if body = [] then none
    else some ("http://".data ++ body, (l.drop 7).dropWhile isURLBody)
  else none

/-- All splits `l = pre ++ post`, in order of increasing `pre`. -/
def allSplits : List Char → List (List Char × List Char)
  | [] => [([], [])]
  | c :: t => ([], c :: t) :: (allSplits t).map (fun p => (c :: p.1, p.2))

/-- Backtracking search for `[a-zA-Z0-9.-]+\.[a-zA-Z]{2,}\b` inside the
maximal domain-class run `D` (with `afterD` the character following the
run, if any): the engine tries the longest domain part first, so the
splits of `D` at a `.` are tried with the longest prefix first.  For a
fixed split the TLD `[a-zA-Z]{2,}` is the maximal letter run after the
dot; shrinking it cannot help, because a shorter run ends right before a
letter, which is a word character, so the final `\b` would still fail.
Returns the number of characters of `D` consumed by the domain. -/
def findDomain (D : List Char) (afterD : Option Char) : Option Nat :=
  ((allSplits D).reverse.filterMap fun p =>
    match p.2 with
    | '.' :: s =>
      if p.1 = [] then none
      else
        let L := s.takeWhile isAsciiLetter
        let nxt : Option Char := match s.drop L.length with
          | c :: _ => some c
          | [] => afterD
        if 2 ≤ L.length && (match nxt with | some c => !isWordChar c | none => true) then
          some (p.1.length + 1 + L.length)
        else none
    | _ => none).head?

/-- Attempt of the second alternative
`\b[a-zA-Z0-9._%+-]+@[a-zA-Z0-9.-]+\.[a-zA-Z]{2,}\b` at the current
position (`prev` is the previous character, for the leading `\b`).  The
local part is the maximal local-class run — no backtracking is possible
there since `@` is not in the class. -/
def matchEmail (prev : Option Char) (l : List Char) : Option (List Char × List Char) :=
  match l.takeWhile isLocalC with
  | [] => none
  | f :: _ =>
    if prevWord prev = isWordChar f then none
    else
      match l.drop (l.takeWhile isLocalC).length with
      | '@' :: rest =>
        let D := rest.takeWhile isDomainC
        let afterD := (rest.drop D.length).head?
        match findDomain D afterD with
        | some consumed =>
          let n := (l.takeWhile isLocalC).length + 1 + consumed
          some (l.take n, l.drop n)
        | none => none
      | _ => none

/-- Step 1 scanner: at each position try the URL alternative, then the
e-mail alternative; on a match emit the next placeholder, record the
matched text, and resume after it (the `\b` context of later attempts is
taken from the original text, as the JS engine scans the source string).
`fuel` only funds the recursion; every step consumes at least one
character, so `fuel = l.length` suffices. -/
def s1Go : Nat → Nat → Option Char → List Char → List Char × List (List Char)
  | 0, _, _, l => (l, [])
  | _ + 1, _, _, [] => ([], [])
  | fuel + 1, cnt, prev, ch :: t =>
    match matchURL (ch :: t) with
    | some (m, rest) =>
      let r := s1Go fuel (cnt + 1) m.getLast? rest
      (urlPH cnt ++ r.1, m :: r.2)
    | none =>
      match matchEmail prev (ch :: t) with
      | some (m, rest) =>
        let r := s1Go fuel (cnt + 1) m.getLast? rest
        (urlPH cnt ++ r.1, m :: r.2)
      | none =>
        let r := s1Go fuel cnt (some ch) t
        (ch :: r.1, r.2)

/-- Step 1: protect URLs and e-mail addresses, returning the text with
placeholders and the list of protected substrings in placeholder order. -/
def step1Protect (l : List Char) : List Char × List (List Char) := s1Go l.length 0 none l

/-- ECMA-262 `GetSubstitution` for a string replacement with a string
pattern (no capture groups): `$$`, `$&`, dollar-backquote and
dollar-apostrophe are special; everything else is literal.  The backquote
and apostrophe cases compare code points 96 and 39. -/
def getSubst (matched pre post : List Char) : List Char → List Char
  | [] => []
  | c :: t =>
    if c = '$' then
      match t with
      | [] => ['$']
      | d :: t' =>
        if d = '$' then '$' :: getSubst matched pre post t'
        else if d = '&' then matched ++ getSubst matched pre post t'
        else if d.toNat = 96 then pre ++ getSubst matched pre post t'
        else if d.toNat = 39 then post ++ getSubst matched pre post t'
        else '$' :: d :: getSubst matched pre post t'
    else c :: getSubst matched pre post t

/-- `String.prototype.replace` with a (nonempty) string pattern and string
replacement: only the first occurrence is replaced, and the replacement
goes through `GetSubstitution`. -/
def replaceFirstGo (pat repl : List Char) (pre : List Char) : List Char → List Char
  | [] => if pat.isPrefixOf [] then pre ++ getSubst pat pre [] repl else pre
  | c :: t =>
    if pat.isPrefixOf (c :: t) then
      pre ++ getSubst pat pre ((c :: t).drop pat.length) repl ++ (c :: t).drop pat.length
    else replaceFirstGo pat repl (pre ++ [c]) t

/-- `text.replace(pat, repl)` with string arguments. -/
def replaceFirstJS (pat repl l : List Char) : List Char := replaceFirstGo pat repl [] l

/-- Step 11: `for (const [placeholder, originalUrl] of urlMap) {
text = text.replace(placeholder, originalUrl); }` — one first-occurrence
replace per recorded URL, in insertion order. -/
def step11Restore : Nat → List (List Char) → List Char → List Char
  | _, [], t => t
  | k, u :: us, t => step11Restore (k + 1) us (replaceFirstJS (urlPH k) u t)

/-- Steps 2–10 of `cleanText` in order: hyphenation repair, paragraph
marking, newline collapapse, the three re-spacing replaces, paragraph
restoration, whitespace collapse, punctuation spacing. -/
def midSteps (l : List Char) : List Char :=
  step10bPunct (step10aPunct (step9bBlank (step9aSpaces (step8RestorePara
    (step7bSa none (step7aUl none (step6LowerUpper (step5PunctCap (step4Newline
      (step3Para (step2Hyphen l)))))))))))

/-- `cleanText` (pdf-converter.ts lines 8–60): the full normalizer. -/
def cleanText (text : List Char) : List Char :=
  let s1 := step1Protect text
  trimJS (step11Restore 0 s1.2 (midSteps s1.1))

/-! ## The per-page renderer (`renderPage`, lines 75–156) -/

/-- A positioned text fragment, as stored in `textItems` (lines 98–104):
`str`, `x`/`y` from `transform[4]`/`transform[5]`, `width`, `height`.
Coordinates are modelled as integers; the claims below concern the
comparison logic, not floating-point rounding. -/
structure TextItem where
  str : List Char
  x : Int
  y : Int
  width : Int
  height : Int

/-- A PDF annotation: `subtype`, `url` (empty list models a missing/empty,
hence falsy, `url`), and `rect = [x1, y1, x2, y2]`. -/
structure Annotation where
  subtype : List Char
  url : List Char
  rect : Int × Int × Int × Int

/-- Text reconstruction (lines 87–112): items sharing the previous item's
`y` (or the first item) are appended directly; a change of `y` inserts one
line break. -/
def buildTextGo : Option Int → List TextItem → List Char
  | _, [] => []
  | lastY, it :: rest =>
    (if lastY = some it.y || lastY = none then it.str else '\n' :: it.str) ++
      buildTextGo (some it.y) rest

/-- The page's reconstructed text. -/
def buildText (items : List TextItem) : List Char := buildTextGo none items

/-- The "more lenient overlap detection" (lines 126–133): the item's box
against the annotation rectangle expanded by 10 units on all sides. -/
def overlapsAnn (rect : Int × Int × Int × Int) (it : TextItem) : Bool :=
  let x1 := rect.1
  let y1 := rect.2.1
  let x2 := rect.2.2.1
  let y2 := rect.2.2.2
  let itemRight := it.x + it.width
  let itemTop := it.y + it.height
  !(it.x > x2 + 10 || itemRight < x1 - 10 || it.y > y2 + 10 || itemTop < y1 - 10)

/-- Processing of one annotation (lines 119–151): for a `Link` with a
truthy `url`, either rewrite the first occurrence of the concatenated,
trimmed overlapping text as an inline Markdown link, or — when no item
overlaps — append an orphan `[Link](url)` line.  When the overlapping
items' trimmed concatenation is empty, nothing happens. -/
def applyAnnotation (items : List TextItem) (text : List Char) (ann : Annotation) : List Char :=
  if ann.subtype = "Link".data && ann.url ≠ [] then
    let overlapping := items.filter (overlapsAnn ann.rect)
    if overlapping.isEmpty then text ++ "\n\n[Link](".data ++ ann.url ++ ")".data
    else
      let linkText := trimJS (overlapping.map (fun it => it.str)).flatten
      if linkText ≠ [] then
        replaceFirstJS linkText
          ("[".data ++ linkText ++ "](".data ++ ann.url ++ ")".data) text
      else text
  else text

/-- One page's rendering (lines 153–154): annotations processed in order
over the reconstructed text, prefixed by the page marker. -/
def renderPageText (items : List TextItem) (anns : List Annotation) (n : Nat) : List Char :=
  "\n\n## Page ".data ++ Nat.toDigits 10 n ++ "\n\n".data ++
    anns.foldl ( applyAnnotation items) (buildText items) ++ "\n".data

/-- One page of extraction output: positioned items plus link annotations. -/
structure Page where
  items : List TextItem
  annotations : List Annotation

/-- `data.text`: the concatenation of the page renderings, with
`pageCounter` running 1, 2, … in call order. -/
def pdfTextFrom : Nat → List Page → List Char
  | _, [] => []
  | n, p :: ps => renderPageText p.items p.annotations n ++ pdfTextFrom (n + 1) ps

/-- `data.text` for a whole document. -/
def pdfTextAll (pages : List Page) : List Char := pdfTextFrom 1 pages

/-! ## The Markdown assembler (lines 179–209) -/

/-- `cleaned.split(/\n{2,}/)`: maximal runs of two or more newlines act as
separators (`cur` is the element being built, `p` the pending newline
run). -/
def splitParaGo (cur : List Char) (p : Nat) : List Char → List (List Char)
  | [] => if 2 ≤ p then [cur, []] else [cur ++ List.replicate p '\n']
  | c :: t =>
    if c = '\n' then splitParaGo cur (p + 1) t
    else if 2 ≤ p then cur :: splitParaGo [c] 0 t
    else splitParaGo (cur ++ List.replicate p '\n' ++ [c]) 0 t

/-- `split(/\n{2,}/)`. -/
def splitParas (l : List Char) : List (List Char) := splitParaGo [] 0 l

/-- The skip test `para.match(/^## Page \d+$/)` (line 200). -/
def isPageHeaderPara (l : List Char) : Bool :=
  "## Page ".data.isPrefixOf l && (l.drop 8 ≠ [] && (l.drop 8).all isDigitC)

/-- POSIX `path.basename` (no extension argument). -/
def basenameJS (p : List Char) : List Char := afterLast '/' p

/-- `path.extname`. -/
def extnameJS (p : List Char) : List Char :=
  let b := basenameJS p
  match lastIdxOf '.' b with
  | some i => if i = 0 then [] else b.drop i
  | none => []

/-- `path.basename(p, ext)`. -/
def basenameExt (p ext : List Char) : List Char :=
  let b := basenameJS p
  if ext ≠ [] && ext.isSuffixOf b && b ≠ ext then b.take (b.length - ext.length) else b

/-- The body paragraphs pushed by the loop in lines 195–204: each split
piece is trimmed; empty pieces and page-header pieces are skipped. -/
def mdBodyParas (fullText : List Char) : List (List Char) :=
  ((splitParas (cleanText fullText)).map trimJS).filter
    (fun p => p ≠ [] && !isPageHeaderPara p)

/-- `pdfToMarkdown`'s assembly (lines 179–209): title line from the file
name, provenance caption, then the body paragraphs each followed by a
blank line, joined with `\n`. -/
def assembleMarkdown (filename : List Char) (fullText : List Char) : List Char :=
  let base := basenameExt filename (extnameJS filename)
  let header : List (List Char) :=
    ["# ".data ++ base, [], "*Converted from PDF: ".data ++ basenameJS filename ++ "*".data, []]
  let body := ((mdBodyParas fullText).map (fun p => [p, ([] : List Char)])).flatten
  List.intercalate ['\n'] (header ++ body)

/-- `pdfToMarkdown` (lines 65–210): the extraction collaborator either
fails — in which case the whole conversion aborts with a single error
carrying the underlying message (lines 165–173) — or yields the pages,
whose concatenated renderings are cleaned and assembled. -/
def pdfToMarkdown (filename : List Char) (extraction : Except (List Char) (List Page)) :
    Except (List Char) (List Char) :=
  match extraction with
  | .error e => .error ("Error processing PDF: ".data ++ e)
  | .ok pages => .ok (assembleMarkdown filename (pdfTextAll pages))

/-! ## Concrete fixtures used by the claim theorems -/

/-- A one-page document whose single item carries the given text. -/
def onePageDoc (s : List Char) : List Page := [⟨[⟨s, 0, 0, 10, 10⟩], []⟩]

/-- A three-page document ("Hello" / "World" / "Foo"). -/
def threePageDoc : List Page :=
  [⟨[⟨"Hello".data, 0, 0, 10, 10⟩], []⟩,
   ⟨[⟨"World".data, 0, 0, 10, 10⟩], []⟩,
   ⟨[⟨"Foo".data, 0, 0, 10, 10⟩], []⟩]

/-- Two glyph runs on different baselines: the reconstructor joins them
with a line break, while the link matcher concatenates them with no
separator. -/
def twoLineItems : List TextItem :=
  [⟨"Contact".data, 0, 100, 50, 10⟩, ⟨"us".data, 0, 80, 20, 10⟩]

/-- A link annotation whose rectangle covers both items of
`twoLineItems`. -/
def spanningLink : Annotation := ⟨"Link".data, "http://e.x".data, (0, 0, 200, 200)⟩

/-- Two glyph runs on one baseline; the visible text "Contact us" occurs
twice in the reconstructed line. -/
def linkedItems : List TextItem :=
  [⟨"Contact us".data, 0, 100, 50, 10⟩, ⟨" for details. Contact us".data, 70, 100, 50, 10⟩]

/-- An annotation overlapping only the first item of `linkedItems`. -/
def contactLink : Annotation := ⟨"Link".data, "https://example.com".data, (0, 95, 50, 110)⟩

/-- Like `contactLink`, but with a URL containing the `$&` replacement
escape. -/
def dollarLink : Annotation := ⟨"Link".data, "http://x/$&".data, (0, 95, 50, 110)⟩

/-- An annotation whose rectangle is far away from every item. -/
def offPageLink : Annotation :=
  ⟨"Link".data, "https://img.example".data, (1000, 1000, 1100, 1100)⟩

/-! ## The non-placeholder core of the normalizer (for the idempotence
claim): steps 2, 4, 5, 6, 7, 9 and 10, excluding the one-shot
placeholder stages 1, 3, 8 and 11. -/

/-- `cleanText` restricted to its non-placeholder stages, in their
original order: hyphenation repair (2), newline collapsing (4),
re-spacing (5–7), whitespace collapsing (9), punctuation spacing (10). -/
def normCore (l : List Char) : List Char :=
  step10bPunct (step10aPunct (step9bBlank (step9aSpaces
    (step7bSa none (step7aUl none (step6LowerUpper (step5PunctCap
      (step4Newline (step2Hyphen l)))))))))

/-- No adjacent pair `(a, b)` with `p a` and `q b` occurs in the list. -/
def pairFree (p q : Char → Bool) : List Char → Bool
  | a :: b :: t => !(p a && q b) && pairFree p q (b :: t)
  | _ => true

/-- Space or tab (the `[ \t]` class of step 9). -/
def isSpTab (c : Char) : Bool := c = ' ' || c = '\t'

/-- No position matches `\bsă[îi]` (the step-7 pattern), scanning with
the character before the current position. -/
def saOK (prev : Option Char) : List Char → Bool
  | 's' :: 'ă' :: c :: t =>
    if !prevWord prev && (c = 'î' || c = 'i') then false
    else saOK (some 's') ('ă' :: c :: t)
  | c :: t => saOK (some c) t
  | [] => true

/-- Mirror of `step10bGo` deciding whether it acts as the identity: every
punctuation character followed (after a whitespace run) by a letter must
carry exactly the single-space run. -/
def q10bGoOK : Option (Char × List Char) → List Char → Bool
  | _, [] => true
  | none, c :: t => if isPunct10 c then q10bGoOK (some (c, [])) t else q10bGoOK none t
  | some (p, acc), c :: t =>
    if isWS c then q10bGoOK (some (p, acc ++ [c])) t
    else if isLetter10 c then acc = [' '] && q10bGoOK none t
    else if isPunct10 c then q10bGoOK (some (c, [])) t
    else q10bGoOK none t

/-- The pending output of a `step10bGo` state. -/
def stPrefix : Option (Char × List Char) → List Char
  | none => []
  | some (p, acc) => p :: acc

/-- The last character of `x`, or `p` if `x` is empty: the
previous-character context after scanning `x`. -/
def lastOr (p : Option Char) (x : List Char) : Option Char :=
  match x.getLast? with
  | some c => some c
  | none => p

/-- A placeholder token: the paragraph placeholder or a numbered URL
placeholder. -/
def mtok : Option Nat → List Char
  | none => paraPH
  | some n => urlPH n

/-- An interleaving `s0 ++ mtok o1 ++ s1 ++ mtok o2 ++ s2 ++ …` of
placeholder tokens and segments: the shape of the text between steps 1
and 11. -/
def mweave : List Char → List (Option Nat × List Char) → List Char
  | s0, [] => s0
  | s0, (o, s) :: ps => s0 ++ mtok o ++ mweave s ps

/-- Stage invariant between steps 1 and 8: the text is an interleaving of
placeholder tokens and `<`-free segments, and the URL placeholder numbers
read left to right are `ns`. -/
def goodW (t : List Char) (ns : List Nat) : Prop :=
  ∃ s0 ps, t = mweave s0 ps ∧ '<' ∉ s0 ∧ (∀ p ∈ ps, '<' ∉ p.2) ∧
    ps.filterMap Prod.fst = ns

/-- Stage invariant between step 8 and step 11: as `goodW`, but every
token is a URL placeholder, numbered `ns` in order. -/
def goodU (t : List Char) (ns : List Nat) : Prop :=
  ∃ s0 ps, t = mweave s0 ps ∧ '<' ∉ s0 ∧ (∀ p ∈ ps, '<' ∉ p.2) ∧
    ps.map Prod.fst = ns.map some

/-- An interleaving `s0 ++ u1 ++ s1 ++ u2 ++ s2 ++ …` of restored
protected spans and normalized segments: the shape of the final output. -/
def spanWeave : List Char → List (List Char × List Char) → List Char
  | s0, [] => s0
  | s0, (u, s) :: ps => s0 ++ u ++ spanWeave s ps

/-! ## Helper lemmas -/

/-- `step2Hyphen` copies any hyphen-free prefix verbatim. -/
theorem step2Hyphen_append_of_no_hyphen (xs ys : List Char) (h : ∀ c ∈ xs, c ≠ '-') :
    step2Hyphen (xs ++ ys) = xs ++ step2Hyphen ys := by
  induction xs with
  | nil => rfl
  | cons c t ih =>
    have hc : c ≠ '-' := h c (by simp)
    simp only [List.cons_append, step2Hyphen, if_neg hc]
    exact congrArg (c :: ·) (ih fun d hd => h d (by simp [hd]))

/-- `step2Hyphen` is the identity on hyphen-free text. -/
theorem step2Hyphen_eq_self_of_no_hyphen (l : List Char) (h : ∀ c ∈ l, c ≠ '-') :
    step2Hyphen l = l := by
  simpa [step2Hyphen] using step2Hyphen_append_of_no_hyphen l [] h

/-! ## Claim theorems (first batch) -/

/-- C8: if the extraction collaborator raises an error, the whole
conversion aborts with a single error carrying the underlying cause, and
no Markdown document is returned for any page. -/
theorem extraction_failure_aborts (filename e : List Char) :
    pdfToMarkdown filename (.error e) = .error ("Error processing PDF: ".data ++ e) ∧
    ∀ md, pdfToMarkdown filename (.error e) ≠ .ok md :=
  ⟨rfl, fun _ h => Except.noConfusion h⟩

/-- C5: a `Link` annotation (with a truthy URL) whose expanded rectangle
overlaps no glyph run is not dropped: the orphan line `[Link](url)` is
appended at the end of the page's text. -/
theorem orphan_link_appended (items : List TextItem) (text : List Char) (ann : Annotation)
    (hsub : ann.subtype = "Link".data) (hurl : ann.url ≠ [])
    (hov : ∀ it ∈ items, overlapsAnn ann.rect it = false) :
    applyAnnotation items text ann = text ++ "\n\n[Link](".data ++ ann.url ++ ")".data := by
  have hfil : items.filter (overlapsAnn ann.rect) = [] := by
    rw [List.filter_eq_nil_iff]
    intro it hit
    simp [hov it hit]
  unfold applyAnnotation
  rw [hsub]
  simp [hurl, hfil]

/-- Witness for `orphan_link_appended` at a concrete page. -/
theorem orphan_link_appended_witness :
    applyAnnotation linkedItems "Contact us for details. Contact us".data offPageLink =
      "Contact us for details. Contact us".data ++ "\n\n[Link](".data ++
        "https://img.example".data ++ ")".data :=
  orphan_link_appended linkedItems _ offPageLink rfl (by decide) (by decide)

/-- C6: normalization removes a hyphen immediately followed by a line
break together with that line break, rejoining the split word; in
particular `cleanText "exam-\nple" = "example"`. -/
theorem hyphen_linebreak_rejoined :
    (∀ w1 w2 : List Char, (∀ c ∈ w1, c ≠ '-') → (∀ c ∈ w2, c ≠ '-') →
        w2.takeWhile isWS = [] →
        step2Hyphen (w1 ++ '-' :: '\n' :: w2) = w1 ++ w2) ∧
    cleanText "exam-\nple".data = "example".data := by
  refine ⟨fun w1 w2 h1 h2 hws => ?_, by decide⟩
  have key : step2Hyphen ('-' :: '\n' :: w2) = w2 := by
    simp [step2Hyphen, lastIdxOf, isWS, List.takeWhile_cons, hws,
      step2Hyphen_eq_self_of_no_hyphen w2 h2]
  rw [step2Hyphen_append_of_no_hyphen w1 _ h1, key]

/-- Witness for `hyphen_linebreak_rejoined` at the spec's example. -/
theorem hyphen_linebreak_rejoined_witness :
    step2Hyphen ("exam".data ++ '-' :: '\n' :: "ple".data) = "exam".data ++ "ple".data :=
  hyphen_linebreak_rejoined.1 "exam".data "ple".data (by decide) (by decide) (by decide)

/-- The `"A\n\nB"` instance: its double line break is turned into the
paragraph placeholder before single line breaks are collapsed, is restored
as a paragraph boundary, and the assembled output shows two separate
blocks. -/
theorem paragraph_breaks_preserved :
    step3Para "A\n\nB".data = "A".data ++ paraPH ++ "B".data ∧
    step4Newline (step3Para "A\n\nB".data) = "A".data ++ paraPH ++ "B".data ∧
    cleanText "A\n\nB".data = "A\n\nB".data ∧
    mdBodyParas (pdfTextAll (onePageDoc "A\n\nB".data)) = ["A".data, "B".data] ∧
    pdfToMarkdown "doc.pdf".data (.ok (onePageDoc "A\n\nB".data)) =
      .ok "# doc\n\n*Converted from PDF: doc.pdf*\n\nA\n\nB\n".data :=
  ⟨by decide, by decide, by decide, by decide, rfl⟩

/-- C10: a link annotation whose rectangle does overlap glyph runs can
still vanish: here the link text spans two lines, the reconstructor joins
the runs with a line break while the matcher concatenates them with no
separator, so the matcher's text is not a substring of the page text, the
substitution is a no-op, and the URL is absent from the final output
(no inline link and no orphan `[Link]` line). -/
theorem two_line_link_text_silently_dropped :
    buildText twoLineItems = "Contact\nus".data ∧
    (twoLineItems.filter (overlapsAnn spanningLink.rect)).isEmpty = false ∧
    trimJS ((twoLineItems.filter (overlapsAnn spanningLink.rect)).map
      (fun it => it.str)).flatten = "Contactus".data ∧
    ¬ ("Contactus".data <:+: "Contact\nus".data) ∧
    applyAnnotation twoLineItems (buildText twoLineItems) spanningLink = "Contact\nus".data ∧
    pdfToMarkdown "doc.pdf".data (.ok [⟨twoLineItems, [spanningLink]⟩]) =
      .ok "# doc\n\n*Converted from PDF: doc.pdf*\n\nContact us\n".data ∧
    ¬ ("http://e.x".data <:+: "# doc\n\n*Converted from PDF: doc.pdf*\n\nContact us\n".data) ∧
    ¬ ("[Link]".data <:+: "# doc\n\n*Converted from PDF: doc.pdf*\n\nContact us\n".data) :=
  ⟨by decide, by decide, by decide, by decide, by decide, rfl, by decide, by decide⟩

/-- C1, counterexample: a three-page source does **not** produce three
page markers — the assembler's skip rule (line 200) removes every
page-marker paragraph, so the final output contains none at all. -/
theorem pageMarkers_absent_in_threePage_output :
    pdfToMarkdown "doc.pdf".data (.ok threePageDoc) =
      .ok "# doc\n\n*Converted from PDF: doc.pdf*\n\nHello\n\nWorld\n\nFoo\n".data ∧
    ¬ ("## Page".data <:+: "# doc\n\n*Converted from PDF: doc.pdf*\n\nHello\n\nWorld\n\nFoo\n".data) :=
  ⟨rfl, by decide⟩

/-- C1, amended: the per-page renderer prefixes every page (including the
only page of a single-page document) with a `## Page n` marker, but the
assembler skips every paragraph that is exactly a page marker, so the
final output contains no page-marker paragraph for any document and no
page marker at all for these documents. -/
theorem assembler_strips_page_marker_paragraphs :
    (∀ (fullText p : List Char), p ∈ mdBodyParas fullText → isPageHeaderPara p = false) ∧
    ("## Page 1".data <:+: pdfTextAll threePageDoc) ∧
    ("## Page 2".data <:+: pdfTextAll threePageDoc) ∧
    ("## Page 3".data <:+: pdfTextAll threePageDoc) ∧
    ("## Page 1".data <:+: pdfTextAll (onePageDoc "Hello".data)) ∧
    pdfToMarkdown "doc.pdf".data (.ok threePageDoc) =
      .ok "# doc\n\n*Converted from PDF: doc.pdf*\n\nHello\n\nWorld\n\nFoo\n".data ∧
    ¬ ("## Page".data <:+: "# doc\n\n*Converted from PDF: doc.pdf*\n\nHello\n\nWorld\n\nFoo\n".data) ∧
    pdfToMarkdown "doc.pdf".data (.ok (onePageDoc "Hello".data)) =
      .ok "# doc\n\n*Converted from PDF: doc.pdf*\n\nHello\n".data ∧
    ¬ ("## Page".data <:+: "# doc\n\n*Converted from PDF: doc.pdf*\n\nHello\n".data) := by
  refine ⟨?_, by decide, by decide, by decide, by decide, rfl, by decide, rfl, by decide⟩
  intro fullText p hp
  have h2 := (List.mem_filter.mp hp).2
  simp only [Bool.and_eq_true, Bool.not_eq_true'] at h2
  exact h2.2

/-- Witness for `assembler_strips_page_marker_paragraphs` at a concrete
document and paragraph. -/
theorem assembler_strips_page_marker_paragraphs_witness :
    isPageHeaderPara "Hello".data = false :=
  assembler_strips_page_marker_paragraphs.1 (pdfTextAll threePageDoc) "Hello".data (by decide)

/-- A replacement string with no `$` goes through `GetSubstitution`
unchanged. -/
theorem getSubst_of_noDollar (m p q r : List Char) (h : r.all (· ≠ '$') = true) :
    getSubst m p q r = r := by
  induction r with
  | nil => rfl
  | cons c t ih =>
    simp only [List.all_cons, Bool.and_eq_true, decide_eq_true_eq] at h
    rw [getSubst.eq_def]
    simp [h.1, ih h.2]

/-- `replaceFirstGo` on a text split at its earliest occurrence of the
pattern: the pattern is replaced there (literally, for a dollar-free
replacement) and everything after it is kept verbatim. -/
theorem replaceFirstGo_spec (pat repl post : List Char) (hrd : repl.all (· ≠ '$') = true) :
    ∀ pre acc, (∀ p₂ s₂ : List Char, pre ++ pat ++ post = p₂ ++ pat ++ s₂ →
        pre.length ≤ p₂.length) →
      replaceFirstGo pat repl acc (pre ++ pat ++ post) = acc ++ pre ++ repl ++ post := by
  intro pre
  induction pre with
  | nil =>
    intro acc _
    have hgoal : ([] : List Char) ++ pat ++ post = pat ++ post := rfl
    rw [hgoal]
    cases hl : pat ++ post with
    | nil =>
      rcases List.append_eq_nil.mp hl with ⟨hp, hq⟩
      subst hp; subst hq
      simp [replaceFirstGo, getSubst_of_noDollar _ _ _ _ hrd]
    | cons c t =>
      have hpref : pat.isPrefixOf (c :: t) = true := by
        rw [List.isPrefixOf_iff_prefix, ← hl]
        exact List.prefix_append pat post
      rw [replaceFirstGo, if_pos hpref, ← hl, List.drop_left,
        getSubst_of_noDollar _ _ _ _ hrd]
      simp
  | cons c pre' ih =>
    intro acc hfirst
    have hnp : ¬ pat.isPrefixOf (c :: (pre' ++ pat ++ post)) = true := by
      intro hp
      rcases List.isPrefixOf_iff_prefix.mp hp with ⟨s₂, hs⟩
      have h0 := hfirst [] s₂ (by simpa using hs.symm)
      simp at h0
    have hX : (c :: pre') ++ pat ++ post = c :: (pre' ++ pat ++ post) := by simp
    rw [hX, replaceFirstGo, if_neg hnp]
    have hfirst' : ∀ p₂ s₂ : List Char, pre' ++ pat ++ post = p₂ ++ pat ++ s₂ →
        pre'.length ≤ p₂.length := by
      intro p₂ s₂ h
      have := hfirst (c :: p₂) s₂ (by
        simp only [List.cons_append]
        exact congrArg (c :: ·) (by simpa using h))
      simpa using this
    rw [ih (acc ++ [c]) hfirst']
    simp

/-- `replaceFirstJS` at the earliest occurrence. -/
theorem replaceFirstJS_spec (pat repl pre post : List Char)
    (hrd : repl.all (· ≠ '$') = true)
    (hfirst : ∀ p₂ s₂ : List Char, pre ++ pat ++ post = p₂ ++ pat ++ s₂ →
      pre.length ≤ p₂.length) :
    replaceFirstJS pat repl (pre ++ pat ++ post) = pre ++ repl ++ post := by
  have := replaceFirstGo_spec pat repl post hrd pre [] hfirst
  simpa [replaceFirstJS] using this

/-- C4, counterexample: with a URL containing the `$&` replacement escape
the inserted text is not the inline link `[text](url)` — JavaScript's
`String.replace` expands `$&` to the matched text inside the
replacement. -/
theorem link_replacement_dollar_escape_differs :
    applyAnnotation linkedItems (buildText linkedItems) dollarLink =
      "[Contact us](http://x/Contact us) for details. Contact us".data ∧
    applyAnnotation linkedItems (buildText linkedItems) dollarLink ≠
      "[Contact us](http://x/$&) for details. Contact us".data :=
  ⟨by decide, by decide⟩

/-- C4, amended: for a `Link` annotation whose expanded rectangle overlaps
glyph runs with nonempty trimmed concatenated text `lt`, and whose `lt`
and URL are free of the dollar escape character, exactly the earliest
occurrence of `lt` in the page text is rewritten to `[lt](url)`, and the
whole text after that occurrence — including any later identical
occurrence of `lt` — is kept verbatim. -/
theorem link_first_occurrence_only (items : List TextItem) (text : List Char) (ann : Annotation)
    (lt pre post : List Char)
    (hsub : ann.subtype = "Link".data) (hurl : ann.url ≠ [])
    (hne : (items.filter (overlapsAnn ann.rect)).isEmpty = false)
    (hlt : trimJS ((items.filter (overlapsAnn ann.rect)).map (fun it => it.str)).flatten = lt)
    (hltne : lt ≠ [])
    (htext : text = pre ++ lt ++ post)
    (hfirst : ∀ p₂ s₂ : List Char, text = p₂ ++ lt ++ s₂ → pre.length ≤ p₂.length)
    (hd1 : lt.all (· ≠ '$') = true) (hd2 : ann.url.all (· ≠ '$') = true) :
    applyAnnotation items text ann =
      pre ++ "[".data ++ lt ++ "](".data ++ ann.url ++ ")".data ++ post := by
  have hrepl : ("[".data ++ lt ++ "](".data ++ ann.url ++ ")".data).all (· ≠ '$') = true := by
    simp only [List.all_append, Bool.and_eq_true]
    refine ⟨⟨⟨⟨by decide, hd1⟩, by decide⟩, hd2⟩, by decide⟩
  have happ : applyAnnotation items text ann =
      replaceFirstJS lt ("[".data ++ lt ++ "](".data ++ ann.url ++ ")".data) text := by
    unfold applyAnnotation
    rw [hsub]
    simp [hurl, hne, hlt, hltne]
  subst htext
  rw [happ, replaceFirstJS_spec lt _ pre post hrepl hfirst]
  simp

/-- Witness for `link_first_occurrence_only`: the earliest "Contact us" is
linked, the later identical "Contact us" stays unlinked. -/
theorem link_first_occurrence_only_witness :
    applyAnnotation linkedItems (buildText linkedItems) contactLink =
      [] ++ "[".data ++ "Contact us".data ++ "](".data ++ "https://example.com".data ++
        ")".data ++ " for details. Contact us".data :=
  link_first_occurrence_only linkedItems (buildText linkedItems) contactLink
    "Contact us".data [] " for details. Contact us".data
    rfl (by decide) (by decide) (by decide) (by decide) (by decide)
    (fun _ _ _ => Nat.zero_le _) (by decide) (by decide)

/-- If the pattern does not occur before position `n`, every
occurrence-split puts it at position `n` or later. -/
theorem firstOcc_ge (X pat : List Char) (n : Nat)
    (hn : ∀ k < n, ¬ pat.isPrefixOf (X.drop k) = true) :
    ∀ p₂ s₂ : List Char, X = p₂ ++ pat ++ s₂ → n ≤ p₂.length := by
  intro p₂ s₂ h
  by_contra hlt
  push_neg at hlt
  refine hn p₂.length hlt ?_
  rw [h, List.append_assoc, List.drop_left]
  exact List.isPrefixOf_iff_prefix.mpr (List.prefix_append pat s₂)

/-- `takeWhile` over a run it accepts, stopped by a rejected head. -/
theorem takeWhile_append_of_all (p : Char → Bool) (xs : List Char) (y : Char) (ys : List Char)
    (hxs : ∀ c ∈ xs, p c = true) (hy : p y = false) :
    (xs ++ y :: ys).takeWhile p = xs := by
  induction xs with
  | nil => simp [List.takeWhile_cons, hy]
  | cons c t ih =>
    simp only [List.cons_append, List.takeWhile_cons, hxs c (by simp)]
    simp [ih fun d hd => hxs d (by simp [hd])]

/-- `dropWhile` over a run it accepts, stopped by a rejected head. -/
theorem dropWhile_append_of_all (p : Char → Bool) (xs : List Char) (y : Char) (ys : List Char)
    (hxs : ∀ c ∈ xs, p c = true) (hy : p y = false) :
    (xs ++ y :: ys).dropWhile p = y :: ys := by
  induction xs with
  | nil => simp [List.dropWhile_cons, hy]
  | cons c t ih =>
    simp only [List.cons_append, List.dropWhile_cons, hxs c (by simp)]
    simp [ih fun d hd => hxs d (by simp [hd])]

/-- C3, counterexample: a URL containing the `$$` replacement escape is
not byte-identical after normalization — restoration collapses `$$` to
`$`. -/
theorem url_with_dollar_escape_corrupted :
    cleanText "see http://x.com/a$$b now".data = "see http://x.com/a$b now".data ∧
    ¬ ("http://x.com/a$$b".data <:+: cleanText "see http://x.com/a$$b now".data) :=
  ⟨by decide, by decide⟩

/-- A single-URL instance: an `https` URL whose body contains no
whitespace, no `]` and no `$` is byte-identical after normalization in the
frame `Visit … today`: stage 1 protects exactly the URL, no intermediate
stage touches the placeholder, and the restoration stage reinserts it
verbatim. -/
theorem safe_url_byte_identical (rest : List Char) (hne : rest ≠ [])
    (hsafe : rest.all (fun c => !isWS c && c ≠ ']' && c ≠ '$') = true) :
    cleanText ("Visit https://".data ++ rest ++ " today".data) =
      "Visit https://".data ++ rest ++ " today".data := by
  have hsafe' : ∀ c ∈ rest, isWS c = false ∧ c ≠ ']' ∧ c ≠ '$' := by
    intro c hc
    have := List.all_eq_true.mp hsafe c hc
    simp only [Bool.and_eq_true, Bool.not_eq_true', decide_eq_true_eq] at this
    exact ⟨this.1.1, this.1.2, this.2⟩
  -- the protected span
  set u : List Char := "https://".data ++ rest with hu
  -- step 1 produces "Visit <<<URL_0>>> today" and records u
  have hbody : ∀ c ∈ rest, isURLBody c = true := by
    intro c hc
    rcases hsafe' c hc with ⟨h1, h2, _⟩
    simp [isURLBody, h1, h2]
  have htw : (rest ++ " today".data).takeWhile isURLBody = rest := by
    have : rest ++ " today".data = rest ++ ' ' :: "today".data := rfl
    rw [this]
    exact takeWhile_append_of_all _ _ _ _ hbody (by decide)
  have hdw : (rest ++ " today".data).dropWhile isURLBody = " today".data := by
    have : rest ++ " today".data = rest ++ ' ' :: "today".data := rfl
    rw [this]
    exact dropWhile_append_of_all _ _ _ _ hbody (by decide)
  have hmu : matchURL ('h':: 't':: 't':: 'p':: 's':: ':':: '/':: '/':: (rest ++ " today".data)) =
      some (u, " today".data) := by
    unfold matchURL
    rw [if_pos (by
      have : ('h':: 't':: 't':: 'p':: 's':: ':':: '/':: '/':: (rest ++ " today".data)) =
          "https://".data ++ (rest ++ " today".data) := rfl
      rw [this]
      exact List.isPrefixOf_iff_prefix.mpr (List.prefix_append _ _))]
    have hdrop : ('h':: 't':: 't':: 'p':: 's':: ':':: '/':: '/':: (rest ++ " today".data)).drop 8 =
        rest ++ " today".data := rfl
    rw [hdrop, htw, hdw, if_neg (by simpa using hne)]
  have hlen : ("Visit https://".data ++ rest ++ " today".data).length = rest.length + 20 := by
    rw [List.length_append, List.length_append,
      show "Visit https://".data.length = 14 from rfl,
      show " today".data.length = 6 from rfl]
    omega
  have hscan : step1Protect ("Visit https://".data ++ rest ++ " today".data) =
      ("Visit ".data ++ (urlPH 0 ++ " today".data), [u]) := by
    unfold step1Protect
    rw [hlen]
    have c6 : s1Go (rest.length + 20) 0 none ("Visit https://".data ++ rest ++ " today".data) =
        ('V':: 'i':: 's':: 'i':: 't':: ' ':: (s1Go (rest.length + 14) 0 (some ' ')
          ('h':: 't':: 't':: 'p':: 's':: ':':: '/':: '/':: (rest ++ " today".data))).1,
         (s1Go (rest.length + 14) 0 (some ' ')
          ('h':: 't':: 't':: 'p':: 's':: ':':: '/':: '/':: (rest ++ " today".data))).2) := rfl
    rw [c6]
    have hstep : s1Go (rest.length + 14) 0 (some ' ')
        ('h':: 't':: 't':: 'p':: 's':: ':':: '/':: '/':: (rest ++ " today".data)) =
        (urlPH 0 ++ (s1Go (rest.length + 13) 1 u.getLast? " today".data).1,
         u :: (s1Go (rest.length + 13) 1 u.getLast? " today".data).2) := by
      rw [show rest.length + 14 = (rest.length + 13) + 1 from rfl, s1Go, hmu]
    rw [hstep, show (∀ prev : Option Char, s1Go (rest.length + 13) 1 prev " today".data =
      (" today".data, [])) from fun _ => rfl]
    rfl
  have hmid : midSteps ("Visit ".data ++ (urlPH 0 ++ " today".data)) =
      "Visit ".data ++ (urlPH 0 ++ " today".data) := by decide
  have hrd : u.all (fun c => c ≠ '$') = true := by
    rw [hu, List.all_append, Bool.and_eq_true]
    refine ⟨by decide, ?_⟩
    rw [List.all_eq_true]
    intro c hc
    simpa using (hsafe' c hc).2.2
  have hfirst := firstOcc_ge ("Visit ".data ++ (urlPH 0 ++ " today".data)) (urlPH 0) 6
    (by decide)
  have hrestore : step11Restore 0 [u] ("Visit ".data ++ (urlPH 0 ++ " today".data)) =
      "Visit ".data ++ u ++ " today".data := by
    show replaceFirstJS (urlPH 0) u ("Visit ".data ++ (urlPH 0 ++ " today".data)) = _
    rw [show ("Visit ".data ++ (urlPH 0 ++ " today".data) : List Char) =
      "Visit ".data ++ urlPH 0 ++ " today".data from by simp [List.append_assoc]]
    rw [replaceFirstJS_spec (urlPH 0) u "Visit ".data " today".data hrd (by
      intro p q h
      exact hfirst p q (by simpa [List.append_assoc] using h))]
  have htrim : trimJS ("Visit ".data ++ u ++ " today".data) =
      "Visit ".data ++ u ++ " today".data := by
    unfold trimJS
    rw [show ("Visit ".data ++ u ++ " today".data).dropWhile isWS =
      "Visit ".data ++ u ++ " today".data from rfl]
    rw [List.reverse_append, List.reverse_append]
    rw [show (" today".data.reverse ++ (u.reverse ++ "Visit ".data.reverse)).dropWhile isWS =
      " today".data.reverse ++ (u.reverse ++ "Visit ".data.reverse) from rfl]
    rw [List.reverse_append, List.reverse_append, List.reverse_reverse,
      List.reverse_reverse, List.reverse_reverse]
  show trimJS (step11Restore 0
      (step1Protect ("Visit https://".data ++ rest ++ " today".data)).2
      (midSteps (step1Protect ("Visit https://".data ++ rest ++ " today".data)).1)) = _
  simp only [hscan]
  rw [hmid, hrestore, htrim, hu]
  rw [show ("Visit ".data ++ ("https://".data ++ rest) : List Char) =
    "Visit https://".data ++ rest from by
      rw [← List.append_assoc]
      rfl]

/-- Witness for `safe_url_byte_identical` at the spec's example URL. -/
theorem safe_url_byte_identical_witness :
    cleanText ("Visit https://".data ++ "Example.COM/Path".data ++ " today".data) =
      "Visit https://".data ++ "Example.COM/Path".data ++ " today".data :=
  safe_url_byte_identical "Example.COM/Path".data (by decide) (by decide)

/-! ## Idempotence of the non-placeholder core: infrastructure -/

theorem pairFree_tail (p q : Char → Bool) (a : Char) (t : List Char)
    (h : pairFree p q (a :: t) = true) : pairFree p q t = true := by
  cases t with
  | nil => rfl
  | cons b r =>
    simp only [pairFree, Bool.and_eq_true] at h
    exact h.2

theorem pairFree_pair (p q : Char → Bool) (a b : Char) (t : List Char)
    (h : pairFree p q (a :: b :: t) = true) : (p a && q b) = false := by
  simp only [pairFree, Bool.and_eq_true, Bool.not_eq_true'] at h
  exact h.1

theorem pairFree_cons_of (p q : Char → Bool) (a : Char) (t : List Char)
    (h : ∀ b, t.head? = some b → (p a && q b) = false)
    (ht : pairFree p q t = true) : pairFree p q (a :: t) = true := by
  cases t with
  | nil => rfl
  | cons b r =>
    simp only [pairFree, Bool.and_eq_true]
    exact ⟨by simp [h b rfl], ht⟩

theorem pairFree_cons_p (p q : Char → Bool) (a : Char) (t : List Char)
    (hp : p a = false) (ht : pairFree p q t = true) : pairFree p q (a :: t) = true :=
  pairFree_cons_of p q a t (fun _ _ => by simp [hp]) ht

theorem pairFree_append_right (p q : Char → Bool) (xs ys : List Char)
    (h : pairFree p q (xs ++ ys) = true) : pairFree p q ys = true := by
  induction xs with
  | nil => simpa using h
  | cons a t ih => exact ih (pairFree_tail p q a (t ++ ys) (by simpa using h))

theorem pairFree_append_left (p q : Char → Bool) (xs ys : List Char)
    (h : pairFree p q (xs ++ ys) = true) : pairFree p q xs = true := by
  induction xs with
  | nil => rfl
  | cons a t ih =>
    cases t with
    | nil => rfl
    | cons b r =>
      simp only [pairFree, Bool.and_eq_true]
      refine ⟨?_, ih (pairFree_tail p q a ((b :: r) ++ ys) (by simpa using h))⟩
      have := pairFree_pair p q a b (r ++ ys) (by simpa using h)
      simp [this]

theorem pairFree_last_pair (p q : Char → Bool) (xs : List Char) (y : Char) (ys : List Char)
    (h : pairFree p q (xs ++ y :: ys) = true) :
    ∀ x, xs.getLast? = some x → (p x && q y) = false := by
  induction xs with
  | nil => intro x hx; cases hx
  | cons a t ih =>
    intro x hx
    cases t with
    | nil =>
      simp at hx
      subst hx
      exact pairFree_pair p q a y ys (by simpa using h)
    | cons b r =>
      rw [List.getLast?_cons_cons] at hx
      exact ih (pairFree_tail p q a ((b :: r) ++ y :: ys) (by simpa using h)) x hx

theorem pairFree_glue (p q : Char → Bool) (xs ys : List Char)
    (h1 : pairFree p q xs = true) (h2 : pairFree p q ys = true)
    (h3 : ∀ a b, xs.getLast? = some a → ys.head? = some b → (p a && q b) = false) :
    pairFree p q (xs ++ ys) = true := by
  induction xs with
  | nil => simpa using h2
  | cons a t ih =>
    cases t with
    | nil =>
      simp only [List.singleton_append]
      exact pairFree_cons_of p q a ys (fun b hb => h3 a b rfl hb) h2
    | cons b r =>
      simp only [List.cons_append]
      refine pairFree_cons_of p q a ((b :: r) ++ ys) ?_ ?_
      · intro b' hb'
        simp only [List.cons_append, List.head?_cons] at hb'
        have := pairFree_pair p q a b r h1
        simp_all
      · exact ih (pairFree_tail p q a (b :: r) h1)
          (fun a' b' ha' hb' => h3 a' b' (by rw [List.getLast?_cons_cons]; exact ha') hb')

theorem pairFree_of_all_q (p q : Char → Bool) (l : List Char)
    (h : ∀ y ∈ l, q y = false) : pairFree p q l = true := by
  induction l with
  | nil => rfl
  | cons a t ih =>
    refine pairFree_cons_of p q a t ?_ (ih fun y hy => h y (by simp [hy]))
    intro b hb
    have : b ∈ t := by cases t with
      | nil => cases hb
      | cons c r => simp at hb; simp [hb]
    simp [h b (by simp [this])]

theorem pairFree_of_all_p (p q : Char → Bool) (l : List Char)
    (h : ∀ y ∈ l, p y = false) : pairFree p q l = true := by
  induction l with
  | nil => rfl
  | cons a t ih =>
    exact pairFree_cons_p p q a t (h a (by simp)) (ih fun y hy => h y (by simp [hy]))

/-! Character-class disjointness facts used below. -/

theorem isUC_not_punct5 (c : Char) (h : isUC c = true) : isPunct5 c = false := by
  cases hp : isPunct5 c
  · rfl
  · exfalso
    simp only [isPunct5, Bool.or_eq_true, decide_eq_true_eq] at hp
    rcases hp with (rfl | rfl) | rfl <;> exact absurd h (by decide)

theorem isUC_not_lc (c : Char) (h : isUC c = true) : isLC c = false := by
  cases hp : isLC c
  · rfl
  · exfalso
    simp only [isUC, Bool.or_eq_true, Bool.and_eq_true, decide_eq_true_eq] at h
    simp only [isLC, Bool.or_eq_true, Bool.and_eq_true, decide_eq_true_eq] at hp
    have hA : 65 ≤ c.val.toNat ∧ c.val.toNat ≤ 90 ∨ c.val.toNat = 258 ∨ c.val.toNat = 194 ∨
        c.val.toNat = 206 ∨ c.val.toNat = 536 ∨ c.val.toNat = 538 := by
      rcases h with ((((⟨h1, h2⟩ | he) | he) | he) | he) | he
      · exact Or.inl ⟨h1, h2⟩
      · exact Or.inr (Or.inl (by subst he; decide))
      · exact Or.inr (Or.inr (Or.inl (by subst he; decide)))
      · exact Or.inr (Or.inr (Or.inr (Or.inl (by subst he; decide))))
      · exact Or.inr (Or.inr (Or.inr (Or.inr (Or.inl (by subst he; decide)))))
      · exact Or.inr (Or.inr (Or.inr (Or.inr (Or.inr (by subst he; decide)))))
    have hB : 97 ≤ c.val.toNat ∧ c.val.toNat ≤ 122 ∨ c.val.toNat = 259 ∨ c.val.toNat = 226 ∨
        c.val.toNat = 238 ∨ c.val.toNat = 537 ∨ c.val.toNat = 539 := by
      rcases hp with ((((⟨h1, h2⟩ | he) | he) | he) | he) | he
      · exact Or.inl ⟨h1, h2⟩
      · exact Or.inr (Or.inl (by subst he; decide))
      · exact Or.inr (Or.inr (Or.inl (by subst he; decide)))
      · exact Or.inr (Or.inr (Or.inr (Or.inl (by subst he; decide))))
      · exact Or.inr (Or.inr (Or.inr (Or.inr (Or.inl (by subst he; decide)))))
      · exact Or.inr (Or.inr (Or.inr (Or.inr (Or.inr (by subst he; decide)))))
    omega

theorem isPunct10_not_ws (c : Char) (h : isPunct10 c = true) : isWS c = false := by
  simp only [isPunct10, Bool.or_eq_true, decide_eq_true_eq] at h
  rcases h with (((rfl | rfl) | rfl) | rfl) | rfl <;> decide

theorem isPunct10_not_uc (c : Char) (h : isPunct10 c = true) : isUC c = false := by
  simp only [isPunct10, Bool.or_eq_true, decide_eq_true_eq] at h
  rcases h with (((rfl | rfl) | rfl) | rfl) | rfl <;> decide

theorem isPunct10_not_sptab (c : Char) (h : isPunct10 c = true) : isSpTab c = false := by
  simp only [isPunct10, Bool.or_eq_true, decide_eq_true_eq] at h
  rcases h with (((rfl | rfl) | rfl) | rfl) | rfl <;> decide

theorem isWS_not_punct10 (c : Char) (h : isWS c = true) : isPunct10 c = false := by
  cases hp : isPunct10 c
  · rfl
  · rw [isPunct10_not_ws c hp] at h
    cases h

theorem isLetter10_not_punct10 (c : Char) (h : isLetter10 c = true) : isPunct10 c = false := by
  cases hp : isPunct10 c
  · rfl
  · exfalso
    simp only [isPunct10, Bool.or_eq_true, decide_eq_true_eq] at hp
    rcases hp with (((rfl | rfl) | rfl) | rfl) | rfl <;> exact absurd h (by decide)

theorem isLetter10_not_sptab (c : Char) (h : isLetter10 c = true) : isSpTab c = false := by
  cases hp : isSpTab c
  · rfl
  · exfalso
    simp only [isSpTab, Bool.or_eq_true, decide_eq_true_eq] at hp
    rcases hp with rfl | rfl <;> exact absurd h (by decide)

theorem isLetter10_not_ws (c : Char) (h : isLetter10 c = true) : isWS c = false := by
  cases hp : isWS c
  · rfl
  · exfalso
    simp only [isLetter10, Bool.or_eq_true, Bool.and_eq_true, decide_eq_true_eq] at h
    have hA : 97 ≤ c.val.toNat ∧ c.val.toNat ≤ 122 ∨ 65 ≤ c.val.toNat ∧ c.val.toNat ≤ 90 ∨
        c.val.toNat = 259 ∨ c.val.toNat = 226 ∨ c.val.toNat = 238 ∨ c.val.toNat = 537 ∨
        c.val.toNat = 539 ∨ c.val.toNat = 258 ∨ c.val.toNat = 194 ∨ c.val.toNat = 206 ∨
        c.val.toNat = 536 ∨ c.val.toNat = 538 := by
      rcases h with ((((((((((⟨h1, h2⟩ | ⟨h1, h2⟩) | he) | he) | he) | he) | he) | he) | he) | he) | he) | he
      · exact Or.inl ⟨h1, h2⟩
      · exact Or.inr (Or.inl ⟨h1, h2⟩)
      · exact Or.inr (Or.inr (Or.inl (by subst he; decide)))
      · exact Or.inr (Or.inr (Or.inr (Or.inl (by subst he; decide))))
      · exact Or.inr (Or.inr (Or.inr (Or.inr (Or.inl (by subst he; decide)))))
      · exact Or.inr (Or.inr (Or.inr (Or.inr (Or.inr (Or.inl (by subst he; decide))))))
      · exact Or.inr (Or.inr (Or.inr (Or.inr (Or.inr (Or.inr (Or.inl (by subst he; decide)))))))
      · exact Or.inr (Or.inr (Or.inr (Or.inr (Or.inr (Or.inr (Or.inr (Or.inl (by subst he; decide))))))))
      · exact Or.inr (Or.inr (Or.inr (Or.inr (Or.inr (Or.inr (Or.inr (Or.inr (Or.inl
          (by subst he; decide)))))))))
      · exact Or.inr (Or.inr (Or.inr (Or.inr (Or.inr (Or.inr (Or.inr (Or.inr (Or.inr (Or.inl
          (by subst he; decide))))))))))
      · exact Or.inr (Or.inr (Or.inr (Or.inr (Or.inr (Or.inr (Or.inr (Or.inr (Or.inr (Or.inr
          (Or.inl (by subst he; decide)))))))))))
      · exact Or.inr (Or.inr (Or.inr (Or.inr (Or.inr (Or.inr (Or.inr (Or.inr (Or.inr (Or.inr
          (Or.inr (by subst he; decide)))))))))))
    simp only [isWS, Bool.or_eq_true, Bool.and_eq_true, decide_eq_true_eq] at hp
    have hB : c.val.toNat = 32 ∨ c.val.toNat = 9 ∨ c.val.toNat = 10 ∨ c.val.toNat = 13 ∨
        c.val.toNat = 11 ∨ c.val.toNat = 12 ∨ c.val.toNat = 160 ∨ c.val.toNat = 5760 ∨
        8192 ≤ c.val.toNat ∧ c.val.toNat ≤ 8202 ∨ c.val.toNat = 8232 ∨ c.val.toNat = 8233 ∨
        c.val.toNat = 8239 ∨ c.val.toNat = 8287 ∨ c.val.toNat = 12288 ∨ c.val.toNat = 65279 := by
      rcases hp with (((((((((((((he | he) | he) | he) | he) | he) | he) | he) | ⟨h1, h2⟩) | he) | he) | he) | he) | he) | he
      · exact Or.inl (by subst he; decide)
      · exact Or.inr (Or.inl (by subst he; decide))
      · exact Or.inr (Or.inr (Or.inl (by subst he; decide)))
      · exact Or.inr (Or.inr (Or.inr (Or.inl (by subst he; decide))))
      · exact Or.inr (Or.inr (Or.inr (Or.inr (Or.inl (by subst he; decide)))))
      · exact Or.inr (Or.inr (Or.inr (Or.inr (Or.inr (Or.inl (by subst he; decide))))))
      · exact Or.inr (Or.inr (Or.inr (Or.inr (Or.inr (Or.inr (Or.inl (by subst he; decide)))))))
      · exact Or.inr (Or.inr (Or.inr (Or.inr (Or.inr (Or.inr (Or.inr (Or.inl (by subst he; decide))))))))
      · exact Or.inr (Or.inr (Or.inr (Or.inr (Or.inr (Or.inr (Or.inr (Or.inr (Or.inl
          ⟨h1, h2⟩))))))))
      · exact Or.inr (Or.inr (Or.inr (Or.inr (Or.inr (Or.inr (Or.inr (Or.inr (Or.inr (Or.inl
          (by subst he; decide))))))))))
      · exact Or.inr (Or.inr (Or.inr (Or.inr (Or.inr (Or.inr (Or.inr (Or.inr (Or.inr (Or.inr
          (Or.inl (by subst he; decide)))))))))))
      · exact Or.inr (Or.inr (Or.inr (Or.inr (Or.inr (Or.inr (Or.inr (Or.inr (Or.inr (Or.inr
          (Or.inr (Or.inl (by subst he; decide))))))))))))
      · exact Or.inr (Or.inr (Or.inr (Or.inr (Or.inr (Or.inr (Or.inr (Or.inr (Or.inr (Or.inr
          (Or.inr (Or.inr (Or.inl (by subst he; decide)))))))))))))
      · exact Or.inr (Or.inr (Or.inr (Or.inr (Or.inr (Or.inr (Or.inr (Or.inr (Or.inr (Or.inr
          (Or.inr (Or.inr (Or.inr (Or.inl (by subst he; decide))))))))))))))
      · exact Or.inr (Or.inr (Or.inr (Or.inr (Or.inr (Or.inr (Or.inr (Or.inr (Or.inr (Or.inr
          (Or.inr (Or.inr (Or.inr (Or.inr (by subst he; decide))))))))))))))
    omega

/-! Heads are preserved by the re-spacing scanners. -/

theorem head?_step5 (l : List Char) : (step5PunctCap l).head? = l.head? := by
  rw [step5PunctCap.eq_def]
  split <;> first | rfl | (split <;> rfl)

theorem head?_step6 (l : List Char) : (step6LowerUpper l).head? = l.head? := by
  rw [step6LowerUpper.eq_def]
  split <;> first | rfl | (split <;> rfl)

theorem head?_step7a (prev : Option Char) (l : List Char) :
    (step7aUl prev l).head? = l.head? := by
  rw [step7aUl.eq_def]
  split <;> first | rfl | (split <;> rfl)

theorem head?_step7b (prev : Option Char) (l : List Char) :
    (step7bSa prev l).head? = l.head? := by
  rw [step7bSa.eq_def]
  split <;> first | rfl | (split <;> rfl)

/-! Second-pass identity lemmas: each core step is the identity on text in
its normal form. -/

theorem lastIdxOf_eq_none (c : Char) (l : List Char) (h : c ∉ l) : lastIdxOf c l = none := by
  induction l with
  | nil => rfl
  | cons a t ih =>
    rw [lastIdxOf, ih (fun hm => h (by simp [hm])), if_neg (fun he => h (by simp [he]))]

theorem step2_id_of_nonl (l : List Char) (h : '\n' ∉ l) : step2Hyphen l = l := by
  induction l with
  | nil => rfl
  | cons c t ih =>
    have ht : '\n' ∉ t := fun hm => h (by simp [hm])
    by_cases hc : c = '-'
    · subst hc
      have hnone : lastIdxOf '\n' (t.takeWhile isWS) = none :=
        lastIdxOf_eq_none _ _ (fun hm => ht ((List.takeWhile_sublist _).subset hm))
      simp [step2Hyphen, hnone, ih ht]
    · simp [step2Hyphen, hc, ih ht]

theorem step4_id_of_nonl (l : List Char) (h : '\n' ∉ l) : step4Newline l = l := by
  induction l with
  | nil => rfl
  | cons c t ih =>
    have hc : c ≠ '\n' := fun he => h (by simp [he])
    simp [step4Newline, hc, ih (fun hm => h (by simp [hm]))]

theorem s9bGo_id_of_nonl (l : List Char) : ∀ run, '\n' ∉ run → '\n' ∉ l →
    step9bBlankGo run l = run ++ l := by
  induction l with
  | nil =>
    intro run hr _
    have : run.count '\n' = 0 := List.count_eq_zero.mpr hr
    simp [step9bBlankGo, wsRunFlush, this]
  | cons c t ih =>
    intro run hr h
    have hc : c ≠ '\n' := fun he => h (by simp [he])
    have ht : '\n' ∉ t := fun hm => h (by simp [hm])
    by_cases hw : isWS c = true
    · rw [step9bBlankGo, if_pos hw, ih (run ++ [c]) (by
        intro hm
        rcases List.mem_append.mp hm with hm | hm
        · exact hr hm
        · simp at hm; exact hc hm.symm) ht]
      simp
    · have : run.count '\n' = 0 := List.count_eq_zero.mpr hr
      rw [step9bBlankGo, if_neg hw]
      simp [wsRunFlush, this, ih [] (by simp) ht]

theorem step9b_id_of_nonl (l : List Char) (h : '\n' ∉ l) : step9bBlank l = l := by
  simpa [step9bBlank] using s9bGo_id_of_nonl l [] (by simp) h

theorem step5_id_of_pairFree (l : List Char) (h : pairFree isPunct5 isUC l = true) :
    step5PunctCap l = l := by
  induction l using step5PunctCap.induct with
  | case1 a b t hc _ =>
    exact absurd hc (by simp [pairFree_pair _ _ _ _ _ h])
  | case2 a b t hc ih =>
    simp [step5PunctCap, hc, ih (pairFree_tail _ _ _ _ h)]
  | case3 l hl =>
    cases l with
    | nil => rfl
    | cons a t =>
      cases t with
      | nil => rfl
      | cons b r => exact (hl a b r rfl).elim

theorem step6_id_of_pairFree (l : List Char) (h : pairFree isLC isUC l = true) :
    step6LowerUpper l = l := by
  induction l using step6LowerUpper.induct with
  | case1 a b t hc _ =>
    exact absurd hc (by simp [pairFree_pair _ _ _ _ _ h])
  | case2 a b t hc ih =>
    simp [step6LowerUpper, hc, ih (pairFree_tail _ _ _ _ h)]
  | case3 l hl =>
    cases l with
    | nil => rfl
    | cons a t =>
      cases t with
      | nil => rfl
      | cons b r => exact (hl a b r rfl).elim

theorem step7a_id_of_pairFree (prev : Option Char) (l : List Char)
    (h : pairFree isLC isUC l = true) : step7aUl prev l = l := by
  induction prev, l using step7aUl.induct with
  | case1 prev c t hc _ =>
    have hpair := pairFree_pair _ _ _ _ _ (pairFree_tail _ _ _ _ h)
    have huc : isUC c = true := by
      simp only [Bool.and_eq_true] at hc
      exact hc.2
    simp only [huc, Bool.and_true] at hpair
    exact absurd hpair (by decide)
  | case2 prev c t hc ih =>
    show (if (!prevWord prev && isUC c) = true then 'u' :: 'l' :: ' ' :: c :: step7aUl (some c) t
      else 'u' :: step7aUl (some 'u') ('l' :: c :: t)) = 'u' :: 'l' :: c :: t
    rw [if_neg hc, ih (pairFree_tail _ _ _ _ h)]
  | case3 prev c t hcond ih =>
    rw [step7aUl.eq_def]
    split
    · rename_i c1 t1 heq
      injection heq with h1 h2
      subst h1
      exact ((by
        cases t with
        | nil => cases h2
        | cons x r =>
          injection h2 with hx hr
          subst hx
          cases r with
          | nil => cases hr
          | cons y s =>
            injection hr with hy hs
            exact hcond y s rfl (by rw [hy, hs])) : False).elim
    · rename_i c1 t1 heq
      injection heq with h1 h2
      subst h1; subst h2
      rw [ih (pairFree_tail _ _ _ _ h)]
    · rename_i heq
      cases heq
  | case4 prev => rfl

theorem step7b_id_of_saOK (prev : Option Char) (l : List Char)
    (h : saOK prev l = true) : step7bSa prev l = l := by
  induction prev, l using step7bSa.induct with
  | case1 prev c t hc _ =>
    have h' : saOK prev ('s' :: 'ă' :: c :: t) =
        (if (!prevWord prev && (decide (c = 'î') || decide (c = 'i'))) = true then false
         else saOK (some 's') ('ă' :: c :: t)) := rfl
    rw [h', if_pos hc] at h
    cases h
  | case2 prev c t hc ih =>
    have h' : saOK prev ('s' :: 'ă' :: c :: t) =
        (if (!prevWord prev && (decide (c = 'î') || decide (c = 'i'))) = true then false
         else saOK (some 's') ('ă' :: c :: t)) := rfl
    rw [h', if_neg hc] at h
    show (if (!prevWord prev && (decide (c = 'î') || decide (c = 'i'))) = true then
        's' :: 'ă' :: ' ' :: c :: step7bSa (some c) t
      else 's' :: step7bSa (some 's') ('ă' :: c :: t)) = 's' :: 'ă' :: c :: t
    rw [if_neg hc, ih h]
  | case3 prev c t hcond ih =>
    have hsa : saOK (some c) t = true := by
      rw [saOK.eq_def] at h
      revert h
      split
      · rename_i c1 t1 heq
        injection heq with h1 h2
        subst h1
        exact ((by
          cases t with
          | nil => cases h2
          | cons x r =>
            injection h2 with hx hr
            subst hx
            cases r with
            | nil => cases hr
            | cons y s =>
              injection hr with hy hs
              exact hcond y s rfl (by rw [hy, hs])) : False).elim
      · rename_i c1 t1 heq
        injection heq with h1 h2
        subst h1; subst h2
        exact id
      · rename_i heq
        cases heq
    rw [step7bSa.eq_def]
    split
    · rename_i c1 t1 heq
      injection heq with h1 h2
      subst h1
      exact ((by
        cases t with
        | nil => cases h2
        | cons x r =>
          injection h2 with hx hr
          subst hx
          cases r with
          | nil => cases hr
          | cons y s =>
            injection hr with hy hs
            exact hcond y s rfl (by rw [hy, hs])) : False).elim
    · rename_i c1 t1 heq
      injection heq with h1 h2
      subst h1; subst h2
      rw [ih hsa]
    · rename_i heq
      cases heq
  | case4 prev => rfl

theorem s9aGo_id (l : List Char) (ht : '\t' ∉ l)
    (h : pairFree isSpTab isSpTab l = true) :
    step9aSpacesGo false l = l ∧
      ((∀ c, l.head? = some c → isSpTab c = false) → step9aSpacesGo true l = ' ' :: l) := by
  induction l with
  | nil => exact ⟨rfl, fun _ => rfl⟩
  | cons c t ih =>
    have ht' : '\t' ∉ t := fun hm => ht (by simp [hm])
    have ih' := ih ht' (pairFree_tail _ _ _ _ h)
    constructor
    · by_cases hw : isSpTab c = true
      · have hcs : c = ' ' := by
          rcases (by simpa [isSpTab] using hw : c = ' ' ∨ c = '\t') with rfl | rfl
          · rfl
          · exact absurd (by simp) ht
        subst hcs
        have hhead : ∀ d, t.head? = some d → isSpTab d = false := by
          intro d hd
          cases t with
          | nil => cases hd
          | cons e r =>
            simp at hd
            subst hd
            have := pairFree_pair _ _ _ _ _ h
            simpa [isSpTab] using this
        rw [show step9aSpacesGo false (' ' :: t) = step9aSpacesGo true t from by
          simp [step9aSpacesGo]]
        exact ih'.2 hhead
      · rw [show step9aSpacesGo false (c :: t) = c :: step9aSpacesGo false t from by
          simp [isSpTab] at hw
          simp [step9aSpacesGo, spFlush, hw.1, hw.2]]
        rw [ih'.1]
    · intro hhead
      have hw : isSpTab c = false := hhead c rfl
      rw [show step9aSpacesGo true (c :: t) = ' ' :: c :: step9aSpacesGo false t from by
        simp [isSpTab] at hw
        simp [step9aSpacesGo, spFlush, hw.1, hw.2]]
      rw [ih'.1]

theorem step9a_id (l : List Char) (ht : '\t' ∉ l)
    (h : pairFree isSpTab isSpTab l = true) : step9aSpaces l = l :=
  (s9aGo_id l ht h).1

theorem s10aGo_id (l : List Char) : ∀ acc, pairFree isWS isPunct10 (acc ++ l) = true →
    (∀ a ∈ acc, isWS a = true) → step10aGo acc l = acc ++ l := by
  induction l with
  | nil => intro acc _ _; simp [step10aGo]
  | cons c t ih =>
    intro acc h hacc
    by_cases hw : isWS c = true
    · rw [step10aGo, if_pos hw, ih (acc ++ [c]) (by simpa using h) (by
        intro a ha
        rcases List.mem_append.mp ha with ha | ha
        · exact hacc a ha
        · simp at ha; subst ha; exact hw)]
      simp
    · by_cases hp : isPunct10 c = true
      · have hacc_nil : acc = [] := by
          rcases List.eq_nil_or_concat acc with rfl | ⟨xs, x, rfl⟩
          · rfl
          · exfalso
            have hlast := pairFree_last_pair _ _ (xs ++ [x]) c t (by simpa using h) x (by simp)
            rw [hacc x (by simp), hp] at hlast
            cases hlast
        subst hacc_nil
        rw [step10aGo, if_neg hw, if_pos hp, ih [] (pairFree_tail _ _ _ _ (by simpa using h))
          (by simp)]
        simp
      · rw [step10aGo, if_neg hw, if_neg hp, ih [] (pairFree_tail _ _ _ _
          (pairFree_append_right _ _ acc _ h)) (by simp)]
        simp

theorem step10a_id (l : List Char) (h : pairFree isWS isPunct10 l = true) :
    step10aPunct l = l := by
  simpa [step10aPunct] using s10aGo_id l [] (by simpa using h) (by simp)

theorem s10bGo_id (l : List Char) : ∀ st, q10bGoOK st l = true →
    step10bGo st l = stPrefix st ++ l := by
  induction l with
  | nil =>
    intro st _
    cases st with
    | none => rfl
    | some pa => cases pa with | mk p acc => simp [step10bGo, stPrefix]
  | cons c t ih =>
    intro st h
    cases st with
    | none =>
      by_cases hp : isPunct10 c = true
      · rw [step10bGo, if_pos hp, ih (some (c, [])) (by
          rw [q10bGoOK, if_pos hp] at h
          exact h)]
        simp [stPrefix]
      · rw [step10bGo, if_neg hp, ih none (by
          rw [q10bGoOK, if_neg hp] at h
          exact h)]
        simp [stPrefix]
    | some pa =>
      cases pa with
      | mk p acc =>
        by_cases hw : isWS c = true
        · rw [step10bGo, if_pos hw, ih (some (p, acc ++ [c])) (by
            rw [q10bGoOK, if_pos hw] at h
            exact h)]
          simp [stPrefix]
        · by_cases hl : isLetter10 c = true
          · have h' : (decide (acc = [' ']) && q10bGoOK none t) = true := by
              rw [q10bGoOK, if_neg hw, if_pos hl] at h
              exact h
            simp only [Bool.and_eq_true, decide_eq_true_eq] at h'
            rw [step10bGo, if_neg hw, if_pos hl, ih none h'.2, h'.1]
            simp [stPrefix]
          · by_cases hp : isPunct10 c = true
            · rw [step10bGo, if_neg hw, if_neg hl, if_pos hp, ih (some (c, [])) (by
                rw [q10bGoOK, if_neg hw, if_neg hl, if_pos hp] at h
                exact h)]
              simp [stPrefix]
            · rw [step10bGo, if_neg hw, if_neg hl, if_neg hp, ih none (by
                rw [q10bGoOK, if_neg hw, if_neg hl, if_neg hp] at h
                exact h)]
              simp [stPrefix]

theorem step10b_id (l : List Char) (h : q10bGoOK none l = true) : step10bPunct l = l := by
  simpa [step10bPunct, stPrefix] using s10bGo_id l none h

/-! Establishment lemmas: each step's output is in its normal form. -/

theorem isPunct10_not_letter10 (c : Char) (h : isPunct10 c = true) : isLetter10 c = false := by
  simp only [isPunct10, Bool.or_eq_true, decide_eq_true_eq] at h
  rcases h with (((rfl | rfl) | rfl) | rfl) | rfl <;> decide

theorem step5_estab (l : List Char) : pairFree isPunct5 isUC (step5PunctCap l) = true := by
  induction l using step5PunctCap.induct with
  | case1 a b t hc ih =>
    have hb : isUC b = true := by
      simp only [Bool.and_eq_true] at hc
      exact hc.2
    rw [show step5PunctCap (a :: b :: t) = a :: ' ' :: b :: step5PunctCap t from by
      simp [step5PunctCap, hc]]
    refine pairFree_cons_of _ _ _ _ (fun b' hb' => by simp at hb'; simp [← hb', isUC]) ?_
    refine pairFree_cons_of _ _ _ _ (fun b' hb' => by simp at hb'; simp [← hb', isPunct5]) ?_
    exact pairFree_cons_p _ _ _ _ (isUC_not_punct5 b hb) ih
  | case2 a b t hc ih =>
    rw [show step5PunctCap (a :: b :: t) = a :: step5PunctCap (b :: t) from by
      simp [step5PunctCap, hc]]
    refine pairFree_cons_of _ _ _ _ ?_ ih
    intro b' hb'
    rw [head?_step5] at hb'
    simp at hb'
    subst hb'
    simpa using eq_false_of_ne_true hc
  | case3 l hl =>
    cases l with
    | nil => rfl
    | cons a t =>
      cases t with
      | nil => rfl
      | cons b r => exact (hl a b r rfl).elim

theorem step6_estab (l : List Char) : pairFree isLC isUC (step6LowerUpper l) = true := by
  induction l using step6LowerUpper.induct with
  | case1 a b t hc ih =>
    have hb : isUC b = true := by
      simp only [Bool.and_eq_true] at hc
      exact hc.2
    rw [show step6LowerUpper (a :: b :: t) = a :: ' ' :: b :: step6LowerUpper t from by
      simp [step6LowerUpper, hc]]
    refine pairFree_cons_of _ _ _ _ (fun b' hb' => by simp at hb'; simp [← hb', isUC]) ?_
    refine pairFree_cons_of _ _ _ _ (fun b' hb' => by simp at hb'; simp [← hb', isLC]) ?_
    exact pairFree_cons_p _ _ _ _ (isUC_not_lc b hb) ih
  | case2 a b t hc ih =>
    rw [show step6LowerUpper (a :: b :: t) = a :: step6LowerUpper (b :: t) from by
      simp [step6LowerUpper, hc]]
    refine pairFree_cons_of _ _ _ _ ?_ ih
    intro b' hb'
    rw [head?_step6] at hb'
    simp at hb'
    subst hb'
    simpa using eq_false_of_ne_true hc
  | case3 l hl =>
    cases l with
    | nil => rfl
    | cons a t =>
      cases t with
      | nil => rfl
      | cons b r => exact (hl a b r rfl).elim

/-- Prepending a character cannot break `saOK` unless it completes a
`\bsă[îi]` pattern, which the side condition rules out. -/
theorem saOK_cons_any (prev : Option Char) (x : Char) (Y : List Char)
    (h : saOK (some x) Y = true)
    (hno : x = 's' → ∀ e W, Y = 'ă' :: e :: W →
      (!prevWord prev && (decide (e = 'î') || decide (e = 'i'))) = false) :
    saOK prev (x :: Y) = true := by
  rw [saOK.eq_def]
  split
  · rename_i c1 t1 heq
    injection heq with h1 h2
    have hcond := hno h1 c1 t1 h2
    rw [if_neg (by simp [hcond])]
    rw [h1, h2] at h
    exact h
  · rename_i c1 t1 heq
    injection heq with h1 h2
    subst h1; subst h2
    exact h
  · rename_i heq
    cases heq

theorem step7b_estab (prev : Option Char) (l : List Char) :
    saOK prev (step7bSa prev l) = true := by
  induction prev, l using step7bSa.induct with
  | case1 prev c t hc ih =>
    have hstep : step7bSa prev ('s' :: 'ă' :: c :: t) =
        's' :: 'ă' :: ' ' :: c :: step7bSa (some c) t := by
      show (if (!prevWord prev && (decide (c = 'î') || decide (c = 'i'))) = true then
          's' :: 'ă' :: ' ' :: c :: step7bSa (some c) t
        else 's' :: step7bSa (some 's') ('ă' :: c :: t)) = _
      rw [if_pos hc]
    rw [hstep]
    have hci : c = 'î' ∨ c = 'i' := by
      simp only [Bool.and_eq_true, Bool.or_eq_true, decide_eq_true_eq] at hc
      exact hc.2
    rcases hci with rfl | rfl
    · refine saOK_cons_any prev 's' _ ?_ ?_
      · exact ih
      · intro _ e W hYW
        injection hYW with _ h2
        injection h2 with he _
        rw [← he]
        simp
    · refine saOK_cons_any prev 's' _ ?_ ?_
      · exact ih
      · intro _ e W hYW
        injection hYW with _ h2
        injection h2 with he _
        rw [← he]
        simp
  | case2 prev c t hc ih =>
    have hstep : step7bSa prev ('s' :: 'ă' :: c :: t) =
        's' :: step7bSa (some 's') ('ă' :: c :: t) := by
      show (if (!prevWord prev && (decide (c = 'î') || decide (c = 'i'))) = true then
          's' :: 'ă' :: ' ' :: c :: step7bSa (some c) t
        else 's' :: step7bSa (some 's') ('ă' :: c :: t)) = _
      rw [if_neg hc]
    rw [hstep]
    refine saOK_cons_any prev 's' _ ih ?_
    intro _ e W hYW
    have hY : step7bSa (some 's') ('ă' :: c :: t) =
        'ă' :: step7bSa (some 'ă') (c :: t) := rfl
    rw [hY] at hYW
    injection hYW with _ h2
    have hhead : (step7bSa (some 'ă') (c :: t)).head? = some c := by
      rw [head?_step7b]; rfl
    rw [h2] at hhead
    simp at hhead
    rw [hhead]
    exact eq_false_of_ne_true hc
  | case3 prev c t hcond ih =>
    have hstep : step7bSa prev (c :: t) = c :: step7bSa (some c) t := by
      rw [step7bSa.eq_def]
      split
      · rename_i c1 t1 heq
        injection heq with h1 h2
        subst h1
        exact ((by
          cases t with
          | nil => cases h2
          | cons x r =>
            injection h2 with hx hr
            subst hx
            cases r with
            | nil => cases hr
            | cons y s =>
              injection hr with hy hs
              exact hcond y s rfl (by rw [hy, hs])) : False).elim
      · rename_i c1 t1 heq
        injection heq with h1 h2
        subst h1; subst h2
        rfl
      · rename_i heq
        cases heq
    rw [hstep]
    refine saOK_cons_any prev c _ ih ?_
    intro hcs e W hZ
    subst hcs
    cases t with
    | nil => cases hZ
    | cons d t2 =>
      have hhead : (step7bSa (some 's') (d :: t2)).head? = some d := by
        rw [head?_step7b]; rfl
      rw [hZ] at hhead
      simp at hhead
      subst hhead
      cases t2 with
      | nil =>
        have he : step7bSa (some 's') ['ă'] = ['ă'] := rfl
        rw [he] at hZ
        injection hZ with _ htl
        exact List.noConfusion htl
      | cons c1 t1 => exact (hcond c1 t1 rfl rfl).elim
  | case4 prev => rfl

theorem step9a_no_tab (l : List Char) (pend : Bool) : '\t' ∉ step9aSpacesGo pend l := by
  induction l generalizing pend with
  | nil => cases pend <;> simp [step9aSpacesGo, spFlush]
  | cons c t ih =>
    by_cases hw : (c = ' ' || c = '\t') = true
    · rw [step9aSpacesGo, if_pos hw]
      exact ih true
    · rw [step9aSpacesGo, if_neg hw]
      intro hm
      rcases List.mem_append.mp hm with hm | hm
      · cases pend with
        | false => cases hm
        | true => simp [spFlush] at hm
      · simp only [List.mem_cons] at hm
        rcases hm with rfl | hm
        · simp at hw
        · exact ih false hm

theorem step9a_estab (l : List Char) (pend : Bool) :
    pairFree isSpTab isSpTab (step9aSpacesGo pend l) = true := by
  induction l generalizing pend with
  | nil => cases pend <;> simp [step9aSpacesGo, spFlush, pairFree]
  | cons c t ih =>
    by_cases hw : (c = ' ' || c = '\t') = true
    · rw [step9aSpacesGo, if_pos hw]
      exact ih true
    · rw [step9aSpacesGo, if_neg hw]
      have hcs : isSpTab c = false := by
        simp only [Bool.or_eq_true, decide_eq_true_eq] at hw
        push_neg at hw
        simp [isSpTab, hw.1, hw.2]
      cases pend with
      | false => exact pairFree_cons_p _ _ _ _ hcs (ih false)
      | true =>
        refine pairFree_cons_of _ _ ' ' _ ?_ (pairFree_cons_p _ _ _ _ hcs (ih false))
        intro b hb
        simp at hb
        subst hb
        simp [hcs]
  
theorem step10a_estab (l : List Char) : ∀ acc, (∀ a ∈ acc, isWS a = true) →
    pairFree isWS isPunct10 (step10aGo acc l) = true := by
  induction l with
  | nil =>
    intro acc hacc
    rw [step10aGo]
    exact pairFree_of_all_q _ _ acc (fun y hy => isWS_not_punct10 y (hacc y hy))
  | cons c t ih =>
    intro acc hacc
    by_cases hw : isWS c = true
    · rw [step10aGo, if_pos hw]
      exact ih (acc ++ [c]) (by
        intro a ha
        rcases List.mem_append.mp ha with ha | ha
        · exact hacc a ha
        · simp at ha; subst ha; exact hw)
    · by_cases hp : isPunct10 c = true
      · rw [step10aGo, if_neg hw, if_pos hp]
        exact pairFree_cons_p _ _ _ _ (by simp [hw]) (ih [] (by simp))
      · rw [step10aGo, if_neg hw, if_neg hp]
        refine pairFree_glue _ _ acc (c :: step10aGo [] t) ?_ ?_ ?_
        · exact pairFree_of_all_q _ _ acc (fun y hy => isWS_not_punct10 y (hacc y hy))
        · exact pairFree_cons_p _ _ _ _ (by simp [hw]) (ih [] (by simp))
        · intro a b _ hb
          simp at hb
          subst hb
          simp [hp]

theorem q10bGoOK_none_cons (c : Char) (t : List Char) :
    q10bGoOK none (c :: t) =
      if isPunct10 c then q10bGoOK (some (c, [])) t else q10bGoOK none t := rfl

theorem q10bGoOK_some_cons (p : Char) (acc : List Char) (c : Char) (t : List Char) :
    q10bGoOK (some (p, acc)) (c :: t) =
      if isWS c then q10bGoOK (some (p, acc ++ [c])) t
      else if isLetter10 c then (decide (acc = [' ']) && q10bGoOK none t)
      else if isPunct10 c then q10bGoOK (some (c, [])) t
      else q10bGoOK none t := rfl

/-- The `step10bGo` checker accumulates a whitespace run into its state. -/
theorem q10bGoOK_ws_run (w : List Char) : ∀ (rest : List Char) (p : Char) (acc : List Char),
    (∀ a ∈ w, isWS a = true) →
    q10bGoOK (some (p, acc)) (w ++ rest) = q10bGoOK (some (p, acc ++ w)) rest := by
  induction w with
  | nil => intro rest p acc _; simp
  | cons a w' ih =>
    intro rest p acc hws
    have ha : isWS a = true := hws a (by simp)
    rw [List.cons_append, q10bGoOK_some_cons, if_pos ha, ih rest p (acc ++ [a])
      (fun b hb => hws b (by simp [hb]))]
    simp

theorem step10b_estab_main (l : List Char) : ∀ (st : Option (Char × List Char)),
    (∀ p acc, st = some (p, acc) → isPunct10 p = true ∧ ∀ a ∈ acc, isWS a = true) →
    (q10bGoOK none (step10bGo st l) = true ∧
      (∀ c2 acc2, st = some (c2, acc2) → ∀ p acc, isPunct10 p = true →
        (∀ a ∈ acc, isWS a = true) → q10bGoOK (some (p, acc)) (step10bGo st l) = true)) := by
  induction l with
  | nil =>
    intro st hst
    cases st with
    | none => exact ⟨rfl, fun c2 acc2 h => nomatch h⟩
    | some pa =>
      cases pa with
      | mk q accq =>
        obtain ⟨hq, haccq⟩ := hst q accq rfl
        constructor
        · rw [show step10bGo (some (q, accq)) [] = q :: accq from rfl]
          rw [q10bGoOK_none_cons, if_pos hq]
          rw [show (accq : List Char) = accq ++ [] from by simp,
            q10bGoOK_ws_run accq [] q [] haccq]
          rfl
        · intro c2 acc2 _ p acc hp hacc
          rw [show step10bGo (some (q, accq)) [] = q :: accq from rfl]
          rw [q10bGoOK_some_cons, if_neg (by simp [isPunct10_not_ws q hq]),
            if_neg (by simp [isPunct10_not_letter10 q hq]), if_pos hq]
          rw [show (accq : List Char) = accq ++ [] from by simp,
            q10bGoOK_ws_run accq [] q [] haccq]
          rfl
  | cons c t ih =>
    intro st hst
    cases st with
    | none =>
      refine ⟨?_, fun c2 acc2 h => nomatch h⟩
      by_cases hp : isPunct10 c = true
      · rw [step10bGo, if_pos hp]
        exact (ih (some (c, [])) (by
          intro p acc h
          injection h with h'
          injection h' with h1 h2
          subst h1; subst h2
          exact ⟨hp, by simp⟩)).1
      · rw [step10bGo, if_neg hp, q10bGoOK_none_cons, if_neg hp]
        exact (ih none (fun p acc h => nomatch h)).1
    | some pa =>
      cases pa with
      | mk q accq =>
        obtain ⟨hq, haccq⟩ := hst q accq rfl
        have hWS : ∀ (x : Char), isWS x = true →
            (∀ p acc, some (q, accq ++ [x]) = some (p, acc) →
              isPunct10 p = true ∧ ∀ a ∈ acc, isWS a = true) := by
          intro x hx p acc h
          injection h with h'
          injection h' with h1 h2
          subst h1; subst h2
          refine ⟨hq, ?_⟩
          intro a ha
          rcases List.mem_append.mp ha with ha | ha
          · exact haccq a ha
          · simp at ha; subst ha; exact hx
        by_cases hw : isWS c = true
        · rw [step10bGo, if_pos hw]
          exact ⟨(ih (some (q, accq ++ [c])) (hWS c hw)).1,
            fun c2 acc2 _ p acc hp hacc =>
              (ih (some (q, accq ++ [c])) (hWS c hw)).2 q (accq ++ [c]) rfl p acc hp hacc⟩
        · by_cases hl : isLetter10 c = true
          · rw [step10bGo, if_neg hw, if_pos hl]
            have hbody : q10bGoOK (some (q, [' '])) (c :: step10bGo none t) = true := by
              rw [q10bGoOK_some_cons, if_neg hw, if_pos hl]
              simp [(ih none (fun p acc h => nomatch h)).1]
            constructor
            · rw [q10bGoOK_none_cons, if_pos hq,
                show ((' ' :: c :: step10bGo none t : List Char)) =
                  [' '] ++ (c :: step10bGo none t) from rfl,
                q10bGoOK_ws_run [' '] _ q [] (by simp [isWS])]
              simpa using hbody
            · intro c2 acc2 _ p acc hp hacc
              rw [q10bGoOK_some_cons, if_neg (by simp [isPunct10_not_ws q hq]),
                if_neg (by simp [isPunct10_not_letter10 q hq]), if_pos hq,
                show ((' ' :: c :: step10bGo none t : List Char)) =
                  [' '] ++ (c :: step10bGo none t) from rfl,
                q10bGoOK_ws_run [' '] _ q [] (by simp [isWS])]
              simpa using hbody
          · by_cases hp2 : isPunct10 c = true
            · rw [step10bGo, if_neg hw, if_neg hl, if_pos hp2]
              have hinner := ih (some (c, [])) (by
                intro p acc h
                injection h with h'
                injection h' with h1 h2
                subst h1; subst h2
                exact ⟨hp2, by simp⟩)
              have hrest : q10bGoOK (some (q, accq)) (step10bGo (some (c, [])) t) = true :=
                hinner.2 c [] rfl q accq hq haccq
              constructor
              · rw [List.cons_append, q10bGoOK_none_cons, if_pos hq, q10bGoOK_ws_run accq _ q [] haccq]
                simpa using hrest
              · intro c2 acc2 _ p acc hp hacc
                rw [List.cons_append, q10bGoOK_some_cons, if_neg (by simp [isPunct10_not_ws q hq]),
                  if_neg (by simp [isPunct10_not_letter10 q hq]), if_pos hq,
                  q10bGoOK_ws_run accq _ q [] haccq]
                simpa using hrest
            · rw [step10bGo, if_neg hw, if_neg hl, if_neg hp2]
              have hrest : q10bGoOK (some (q, accq)) (c :: step10bGo none t) = true := by
                rw [q10bGoOK_some_cons, if_neg hw, if_neg hl, if_neg hp2]
                exact (ih none (fun p acc h => nomatch h)).1
              constructor
              · rw [List.cons_append, q10bGoOK_none_cons, if_pos hq, q10bGoOK_ws_run accq _ q [] haccq]
                simpa using hrest
              · intro c2 acc2 _ p acc hp hacc
                rw [List.cons_append, q10bGoOK_some_cons, if_neg (by simp [isPunct10_not_ws q hq]),
                  if_neg (by simp [isPunct10_not_letter10 q hq]), if_pos hq,
                  q10bGoOK_ws_run accq _ q [] haccq]
                simpa using hrest

theorem step10b_estab (l : List Char) : q10bGoOK none (step10bPunct l) = true :=
  (step10b_estab_main l none (fun p acc h => nomatch h)).1

theorem isWS_not_word (c : Char) (h : isWS c = true) : isWordChar c = false := by
  cases hw : isWordChar c
  · rfl
  · exfalso
    simp only [isWordChar, Bool.or_eq_true, Bool.and_eq_true, decide_eq_true_eq] at hw
    have hA : 97 ≤ c.val.toNat ∧ c.val.toNat ≤ 122 ∨ 65 ≤ c.val.toNat ∧ c.val.toNat ≤ 90 ∨
        48 ≤ c.val.toNat ∧ c.val.toNat ≤ 57 ∨ c.val.toNat = 95 := by
      rcases hw with ((⟨h1, h2⟩ | ⟨h1, h2⟩) | ⟨h1, h2⟩) | he
      · exact Or.inl ⟨h1, h2⟩
      · exact Or.inr (Or.inl ⟨h1, h2⟩)
      · exact Or.inr (Or.inr (Or.inl ⟨h1, h2⟩))
      · exact Or.inr (Or.inr (Or.inr (by subst he; decide)))
    simp only [isWS, Bool.or_eq_true, Bool.and_eq_true, decide_eq_true_eq] at h
    have hB : c.val.toNat = 32 ∨ c.val.toNat = 9 ∨ c.val.toNat = 10 ∨ c.val.toNat = 13 ∨
        c.val.toNat = 11 ∨ c.val.toNat = 12 ∨ c.val.toNat = 160 ∨ c.val.toNat = 5760 ∨
        8192 ≤ c.val.toNat ∧ c.val.toNat ≤ 8202 ∨ c.val.toNat = 8232 ∨ c.val.toNat = 8233 ∨
        c.val.toNat = 8239 ∨ c.val.toNat = 8287 ∨ c.val.toNat = 12288 ∨ c.val.toNat = 65279 := by
      rcases h with (((((((((((((he | he) | he) | he) | he) | he) | he) | he) | ⟨h1, h2⟩) | he) | he) | he) | he) | he) | he
      · exact Or.inl (by subst he; decide)
      · exact Or.inr (Or.inl (by subst he; decide))
      · exact Or.inr (Or.inr (Or.inl (by subst he; decide)))
      · exact Or.inr (Or.inr (Or.inr (Or.inl (by subst he; decide))))
      · exact Or.inr (Or.inr (Or.inr (Or.inr (Or.inl (by subst he; decide)))))
      · exact Or.inr (Or.inr (Or.inr (Or.inr (Or.inr (Or.inl (by subst he; decide))))))
      · exact Or.inr (Or.inr (Or.inr (Or.inr (Or.inr (Or.inr (Or.inl (by subst he; decide)))))))
      · exact Or.inr (Or.inr (Or.inr (Or.inr (Or.inr (Or.inr (Or.inr (Or.inl (by subst he; decide))))))))
      · exact Or.inr (Or.inr (Or.inr (Or.inr (Or.inr (Or.inr (Or.inr (Or.inr (Or.inl
          ⟨h1, h2⟩))))))))
      · exact Or.inr (Or.inr (Or.inr (Or.inr (Or.inr (Or.inr (Or.inr (Or.inr (Or.inr (Or.inl
          (by subst he; decide))))))))))
      · exact Or.inr (Or.inr (Or.inr (Or.inr (Or.inr (Or.inr (Or.inr (Or.inr (Or.inr (Or.inr
          (Or.inl (by subst he; decide)))))))))))
      · exact Or.inr (Or.inr (Or.inr (Or.inr (Or.inr (Or.inr (Or.inr (Or.inr (Or.inr (Or.inr
          (Or.inr (Or.inl (by subst he; decide))))))))))))
      · exact Or.inr (Or.inr (Or.inr (Or.inr (Or.inr (Or.inr (Or.inr (Or.inr (Or.inr (Or.inr
          (Or.inr (Or.inr (Or.inl (by subst he; decide)))))))))))))
      · exact Or.inr (Or.inr (Or.inr (Or.inr (Or.inr (Or.inr (Or.inr (Or.inr (Or.inr (Or.inr
          (Or.inr (Or.inr (Or.inr (Or.inl (by subst he; decide))))))))))))))
      · exact Or.inr (Or.inr (Or.inr (Or.inr (Or.inr (Or.inr (Or.inr (Or.inr (Or.inr (Or.inr
          (Or.inr (Or.inr (Or.inr (Or.inr (by subst he; decide))))))))))))))
    omega

theorem isPunct10_not_word (c : Char) (h : isPunct10 c = true) : isWordChar c = false := by
  cases hw : isWordChar c
  · rfl
  · exfalso
    simp only [isPunct10, Bool.or_eq_true, decide_eq_true_eq] at h
    rcases h with (((rfl | rfl) | rfl) | rfl) | rfl <;> exact absurd hw (by decide)

theorem isWS_nonword (c : Char) (h : isWS c = true) : prevWord (some c) = false :=
  isWS_not_word c h

theorem isPunct10_nonword (c : Char) (h : isPunct10 c = true) : prevWord (some c) = false :=
  isPunct10_not_word c h

/-- Scanning one character always yields the scanner state for the tail:
a true `saOK` at a cons implies a true `saOK` of the tail with that head
as previous character. -/
theorem saOK_tail_elim (prev : Option Char) (c : Char) (t : List Char)
    (h : saOK prev (c :: t) = true) : saOK (some c) t = true := by
  rw [saOK.eq_def] at h
  revert h
  split
  · rename_i c1 t1 heq
    injection heq with h1 h2
    subst h1; subst h2
    intro h
    split at h
    · cases h
    · exact h
  · rename_i c1 t1 heq
    injection heq with h1 h2
    subst h1; subst h2
    exact id
  · rename_i heq
    cases heq

/-- `saOK` only consults the previous character through its word-ness, so
any two non-word contexts agree. -/
theorem saOK_nonword_congr (p1 p2 : Option Char) (h1 : prevWord p1 = false)
    (h2 : prevWord p2 = false) (l : List Char) (h : saOK p1 l = true) :
    saOK p2 l = true := by
  cases l with
  | nil => rfl
  | cons a t =>
    refine saOK_cons_any p2 a t (saOK_tail_elim p1 a t h) ?_
    intro ha e W hW
    subst ha
    subst hW
    have hrfl : saOK p1 ('s' :: 'ă' :: e :: W) =
        (if (!prevWord p1 && (decide (e = 'î') || decide (e = 'i'))) = true then false
         else saOK (some 's') ('ă' :: e :: W)) := rfl
    rw [hrfl, h1] at h
    by_cases he : (decide (e = 'î') || decide (e = 'i')) = true
    · rw [if_pos (by simp [he])] at h
      cases h
    · rw [h2, eq_false_of_ne_true he]
      rfl

/-- A true `saOK` over an all-whitespace prefix gives a true `saOK` of the
suffix in any non-word context. -/
theorem saOK_ws_scan (acc : List Char) (hacc : ∀ a ∈ acc, isWS a = true) :
    ∀ (p0 : Option Char), prevWord p0 = false → ∀ x, saOK p0 (acc ++ x) = true →
      ∀ p', prevWord p' = false → saOK p' x = true := by
  induction acc with
  | nil =>
    intro p0 hp0 x h p' hp'
    exact saOK_nonword_congr p0 p' hp0 hp' x h
  | cons a acc' ih =>
    intro p0 _ x h p' hp'
    exact ih (fun b hb => hacc b (by simp [hb])) (some a)
      (isWS_nonword a (hacc a (by simp))) x
      (saOK_tail_elim p0 a (acc' ++ x) (by simpa using h)) p' hp'

/-- Conversely, a true `saOK` of the suffix in non-word contexts extends
over an all-whitespace prefix. -/
theorem saOK_ws_scan_intro (acc : List Char) (hacc : ∀ a ∈ acc, isWS a = true) :
    ∀ (prev : Option Char) (y : List Char),
      (acc = [] → saOK prev y = true) →
      (∀ p', prevWord p' = false → saOK p' y = true) →
      saOK prev (acc ++ y) = true := by
  induction acc with
  | nil =>
    intro prev y hnil _
    simpa using hnil rfl
  | cons a acc' ih =>
    intro prev y _ hnw
    show saOK prev (a :: (acc' ++ y)) = true
    refine saOK_cons_any prev a (acc' ++ y) ?_ ?_
    · exact ih (fun b hb => hacc b (by simp [hb])) (some a) y
        (fun _ => hnw (some a) (isWS_nonword a (hacc a (by simp)))) hnw
    · intro has e W _
      exfalso
      have := hacc a (by simp)
      rw [has] at this
      exact absurd this (by decide)

theorem s9aGo_true_cons (l : List Char) : ∃ rest, step9aSpacesGo true l = ' ' :: rest := by
  induction l with
  | nil => exact ⟨[], rfl⟩
  | cons c t ih =>
    by_cases hc : (c = ' ' || c = '\t') = true
    · obtain ⟨r, hr⟩ := ih
      exact ⟨r, by
        rw [show step9aSpacesGo true (c :: t) =
          (if (c = ' ' || c = '\t') = true then step9aSpacesGo true t
           else spFlush true ++ c :: step9aSpacesGo false t) from rfl, if_pos hc, hr]⟩
    · exact ⟨c :: step9aSpacesGo false t, by
        rw [show step9aSpacesGo true (c :: t) =
          (if (c = ' ' || c = '\t') = true then step9aSpacesGo true t
           else spFlush true ++ c :: step9aSpacesGo false t) from rfl, if_neg hc]
        rfl⟩

theorem s9aGo_false_shape (b : Char) (u : List Char) :
    (∃ rest, step9aSpacesGo false (b :: u) = ' ' :: rest ∧ (b = ' ' ∨ b = '\t')) ∨
      (step9aSpacesGo false (b :: u) = b :: step9aSpacesGo false u ∧
        ¬(b = ' ' ∨ b = '\t')) := by
  by_cases hb : (b = ' ' || b = '\t') = true
  · left
    obtain ⟨r, hr⟩ := s9aGo_true_cons u
    exact ⟨r, by
      rw [show step9aSpacesGo false (b :: u) =
        (if (b = ' ' || b = '\t') = true then step9aSpacesGo true u
         else spFlush false ++ b :: step9aSpacesGo false u) from rfl, if_pos hb, hr],
      by simpa using hb⟩
  · right
    refine ⟨?_, by simpa using hb⟩
    rw [show step9aSpacesGo false (b :: u) =
      (if (b = ' ' || b = '\t') = true then step9aSpacesGo true u
       else spFlush false ++ b :: step9aSpacesGo false u) from rfl, if_neg hb]
    rfl

theorem head?_s10aGo (u : List Char) : ∀ acc x, (step10aGo acc u).head? = some x →
    (acc ++ u).head? = some x ∨ isPunct10 x = true := by
  induction u with
  | nil =>
    intro acc x h
    left
    simpa using h
  | cons c t ih =>
    intro acc x h
    by_cases hw : isWS c = true
    · rw [step10aGo, if_pos hw] at h
      rcases ih (acc ++ [c]) x h with h' | h'
      · left
        rw [List.append_assoc] at h'
        simpa using h'
      · right; exact h'
    · by_cases hp : isPunct10 c = true
      · rw [step10aGo, if_neg hw, if_pos hp] at h
        rw [List.head?_cons] at h
        injection h with h
        exact Or.inr (h ▸ hp)
      · rw [step10aGo, if_neg hw, if_neg hp] at h
        left
        cases acc with
        | nil => simpa using h
        | cons a as => simpa using h

theorem s10aGo_eq_nil (u : List Char) : ∀ acc, step10aGo acc u = [] → acc = [] ∧ u = [] := by
  induction u with
  | nil => intro acc h; exact ⟨h, rfl⟩
  | cons c t ih =>
    intro acc h
    by_cases hw : isWS c = true
    · rw [step10aGo, if_pos hw] at h
      obtain ⟨h1, _⟩ := ih (acc ++ [c]) h
      exact absurd h1 (by simp)
    · by_cases hp : isPunct10 c = true
      · rw [step10aGo, if_neg hw, if_pos hp] at h
        cases h
      · rw [step10aGo, if_neg hw, if_neg hp] at h
        rcases List.append_eq_nil.mp h with ⟨_, h2⟩
        cases h2

theorem head?_s10bGo_some (u : List Char) : ∀ (p0 : Char) (acc : List Char),
    (step10bGo (some (p0, acc)) u).head? = some p0 := by
  induction u with
  | nil => intro p0 acc; rfl
  | cons c t ih =>
    intro p0 acc
    by_cases hw : isWS c = true
    · rw [step10bGo, if_pos hw]
      exact ih p0 (acc ++ [c])
    · by_cases hl : isLetter10 c = true
      · rw [step10bGo, if_neg hw, if_pos hl]
        rfl
      · by_cases hp : isPunct10 c = true
        · rw [step10bGo, if_neg hw, if_neg hl, if_pos hp, List.cons_append]
          rfl
        · rw [step10bGo, if_neg hw, if_neg hl, if_neg hp, List.cons_append]
          rfl

theorem head?_s10bGo_none (u : List Char) : (step10bGo none u).head? = u.head? := by
  cases u with
  | nil => rfl
  | cons c t =>
    by_cases hp : isPunct10 c = true
    · rw [step10bGo, if_pos hp, head?_s10bGo_some]
      rfl
    · rw [step10bGo, if_neg hp]
      rfl

/-! Character preservation: each re-spacing stage only copies input
characters and inserts spaces. -/

theorem mem_step5 (l : List Char) (c : Char) : c ∈ step5PunctCap l → c ∈ l ∨ c = ' ' := by
  induction l using step5PunctCap.induct with
  | case1 a b t hc ih =>
    intro h
    rw [show step5PunctCap (a :: b :: t) = a :: ' ' :: b :: step5PunctCap t from by
      rw [step5PunctCap, if_pos hc]] at h
    simp only [List.mem_cons] at h
    rcases h with rfl | rfl | rfl | h
    · left; simp
    · right; rfl
    · left; simp
    · rcases ih h with h' | h'
      · left; simp [h']
      · right; exact h'
  | case2 a b t hc ih =>
    intro h
    rw [show step5PunctCap (a :: b :: t) = a :: step5PunctCap (b :: t) from by
      rw [step5PunctCap, if_neg hc]] at h
    simp only [List.mem_cons] at h
    rcases h with rfl | h
    · left; simp
    · rcases ih h with h' | h'
      · left; simp [h']
      · right; exact h'
  | case3 l hl =>
    intro h
    left
    cases l with
    | nil => exact h
    | cons a t =>
      cases t with
      | nil => exact h
      | cons b r => exact (hl a b r rfl).elim

theorem mem_step6 (l : List Char) (c : Char) : c ∈ step6LowerUpper l → c ∈ l ∨ c = ' ' := by
  induction l using step6LowerUpper.induct with
  | case1 a b t hc ih =>
    intro h
    rw [show step6LowerUpper (a :: b :: t) = a :: ' ' :: b :: step6LowerUpper t from by
      rw [step6LowerUpper, if_pos hc]] at h
    simp only [List.mem_cons] at h
    rcases h with rfl | rfl | rfl | h
    · left; simp
    · right; rfl
    · left; simp
    · rcases ih h with h' | h'
      · left; simp [h']
      · right; exact h'
  | case2 a b t hc ih =>
    intro h
    rw [show step6LowerUpper (a :: b :: t) = a :: step6LowerUpper (b :: t) from by
      rw [step6LowerUpper, if_neg hc]] at h
    simp only [List.mem_cons] at h
    rcases h with rfl | h
    · left; simp
    · rcases ih h with h' | h'
      · left; simp [h']
      · right; exact h'
  | case3 l hl =>
    intro h
    left
    cases l with
    | nil => exact h
    | cons a t =>
      cases t with
      | nil => exact h
      | cons b r => exact (hl a b r rfl).elim

theorem mem_step7b (prev : Option Char) (l : List Char) (c : Char) :
    c ∈ step7bSa prev l → c ∈ l ∨ c = ' ' := by
  induction prev, l using step7bSa.induct with
  | case1 prev d t hc ih =>
    intro h
    rw [show step7bSa prev ('s' :: 'ă' :: d :: t) =
        's' :: 'ă' :: ' ' :: d :: step7bSa (some d) t from by
      show (if (!prevWord prev && (decide (d = 'î') || decide (d = 'i'))) = true then
          's' :: 'ă' :: ' ' :: d :: step7bSa (some d) t
        else 's' :: step7bSa (some 's') ('ă' :: d :: t)) = _
      rw [if_pos hc]] at h
    simp only [List.mem_cons] at h
    rcases h with rfl | rfl | rfl | rfl | h
    · left; simp
    · left; simp
    · right; rfl
    · left; simp
    · rcases ih h with h' | h'
      · left; simp [h']
      · right; exact h'
  | case2 prev d t hc ih =>
    intro h
    rw [show step7bSa prev ('s' :: 'ă' :: d :: t) =
        's' :: step7bSa (some 's') ('ă' :: d :: t) from by
      show (if (!prevWord prev && (decide (d = 'î') || decide (d = 'i'))) = true then
          's' :: 'ă' :: ' ' :: d :: step7bSa (some d) t
        else 's' :: step7bSa (some 's') ('ă' :: d :: t)) = _
      rw [if_neg hc]] at h
    simp only [List.mem_cons] at h
    rcases h with rfl | h
    · left; simp
    · rcases ih h with h' | h'
      · left; exact List.mem_cons_of_mem _ h'
      · right; exact h'
  | case3 prev d t hcond ih =>
    intro h
    rw [show step7bSa prev (d :: t) = d :: step7bSa (some d) t from by
      rw [step7bSa.eq_def]
      split
      · rename_i c1 t1 heq
        injection heq with h1 h2
        subst h1
        exact ((by
          cases t with
          | nil => cases h2
          | cons x r =>
            injection h2 with hx hr
            subst hx
            cases r with
            | nil => cases hr
            | cons y s =>
              injection hr with hy hs
              exact hcond y s rfl (by rw [hy, hs])) : False).elim
      · rename_i c1 t1 heq
        injection heq with h1 h2
        subst h1; subst h2
        rfl
      · rename_i heq
        cases heq] at h
    simp only [List.mem_cons] at h
    rcases h with rfl | h
    · left; simp
    · rcases ih h with h' | h'
      · left; simp [h']
      · right; exact h'
  | case4 prev => exact fun h => Or.inl h

theorem mem_s9aGo (l : List Char) : ∀ (pend : Bool) (c : Char),
    c ∈ step9aSpacesGo pend l → c ∈ l ∨ c = ' ' := by
  induction l with
  | nil =>
    intro pend c h
    cases pend with
    | false => cases h
    | true =>
      right
      simpa [step9aSpacesGo, spFlush] using h
  | cons d t ih =>
    intro pend c h
    by_cases hd : (d = ' ' || d = '\t') = true
    · rw [show step9aSpacesGo pend (d :: t) =
        (if (d = ' ' || d = '\t') = true then step9aSpacesGo true t
         else spFlush pend ++ d :: step9aSpacesGo false t) from rfl, if_pos hd] at h
      rcases ih true c h with h' | h'
      · left; simp [h']
      · right; exact h'
    · rw [show step9aSpacesGo pend (d :: t) =
        (if (d = ' ' || d = '\t') = true then step9aSpacesGo true t
         else spFlush pend ++ d :: step9aSpacesGo false t) from rfl, if_neg hd] at h
      rcases List.mem_append.mp h with h | h
      · right
        cases pend with
        | false => cases h
        | true => simpa [spFlush] using h
      · rcases List.mem_cons.mp h with rfl | h
        · left; simp
        · rcases ih false c h with h' | h'
          · left; simp [h']
          · right; exact h'

theorem mem_s10aGo (l : List Char) : ∀ (acc : List Char) (c : Char),
    c ∈ step10aGo acc l → c ∈ acc ++ l := by
  induction l with
  | nil =>
    intro acc c h
    simpa using h
  | cons d t ih =>
    intro acc c h
    by_cases hw : isWS d = true
    · rw [step10aGo, if_pos hw] at h
      have := ih (acc ++ [d]) c h
      rw [List.append_assoc] at this
      simpa using this
    · by_cases hp : isPunct10 d = true
      · rw [step10aGo, if_neg hw, if_pos hp] at h
        rcases List.mem_cons.mp h with rfl | h
        · simp
        · have := ih [] c h
          simp only [List.nil_append] at this
          simp [this]
      · rw [step10aGo, if_neg hw, if_neg hp] at h
        rcases List.mem_append.mp h with h | h
        · simp [h]
        · rcases List.mem_cons.mp h with rfl | h
          · simp
          · have := ih [] c h
            simp only [List.nil_append] at this
            simp [this]

theorem mem_s10bGo (l : List Char) : ∀ (st : Option (Char × List Char)) (c : Char),
    c ∈ step10bGo st l → c ∈ stPrefix st ++ l ∨ c = ' ' := by
  induction l with
  | nil =>
    intro st c h
    cases st with
    | none => cases h
    | some pa =>
      cases pa with
      | mk p acc =>
        left
        have h' : c ∈ p :: acc := h
        show c ∈ (p :: acc) ++ []
        simpa using h'
  | cons d t ih =>
    intro st c h
    cases st with
    | none =>
      by_cases hp : isPunct10 d = true
      · rw [step10bGo, if_pos hp] at h
        rcases ih (some (d, [])) c h with h' | h'
        · left
          have h'' : c ∈ (d :: []) ++ t := h'
          show c ∈ [] ++ d :: t
          simpa using h''
        · right; exact h'
      · rw [step10bGo, if_neg hp] at h
        rcases List.mem_cons.mp h with rfl | h
        · left
          show c ∈ [] ++ c :: t
          simp
        · rcases ih none c h with h' | h'
          · left
            have h'' : c ∈ t := h'
            show c ∈ [] ++ d :: t
            simp [h'']
          · right; exact h'
    | some pa =>
      cases pa with
      | mk p acc =>
        have hgoal : ∀ x, (x = p ∨ x ∈ acc ∨ x = d ∨ x ∈ t) →
            x ∈ stPrefix (some (p, acc)) ++ d :: t := by
          intro x hx
          show x ∈ (p :: acc) ++ d :: t
          simp only [List.cons_append, List.mem_cons, List.mem_append]
          tauto
        by_cases hw : isWS d = true
        · rw [step10bGo, if_pos hw] at h
          rcases ih (some (p, acc ++ [d])) c h with h' | h'
          · left
            have h'' : c ∈ (p :: (acc ++ [d])) ++ t := h'
            simp only [List.cons_append, List.mem_cons, List.mem_append,
              List.mem_singleton] at h''
            exact hgoal c (by tauto)
          · right; exact h'
        · by_cases hl : isLetter10 d = true
          · rw [step10bGo, if_neg hw, if_pos hl] at h
            simp only [List.mem_cons] at h
            rcases h with rfl | rfl | rfl | h
            · exact Or.inl (hgoal c (Or.inl rfl))
            · right; rfl
            · exact Or.inl (hgoal c (Or.inr (Or.inr (Or.inl rfl))))
            · rcases ih none c h with h' | h'
              · have h'' : c ∈ t := h'
                exact Or.inl (hgoal c (Or.inr (Or.inr (Or.inr h''))))
              · right; exact h'
          · by_cases hp : isPunct10 d = true
            · rw [step10bGo, if_neg hw, if_neg hl, if_pos hp] at h
              rcases List.mem_append.mp h with h | h
              · simp only [List.mem_cons] at h
                exact Or.inl (hgoal c (by tauto))
              · rcases ih (some (d, [])) c h with h' | h'
                · have h'' : c ∈ (d :: []) ++ t := h'
                  simp only [List.singleton_append, List.mem_cons] at h''
                  exact Or.inl (hgoal c (by tauto))
                · right; exact h'
            · rw [step10bGo, if_neg hw, if_neg hl, if_neg hp] at h
              rcases List.mem_append.mp h with h | h
              · simp only [List.mem_cons] at h
                exact Or.inl (hgoal c (by tauto))
              · rcases List.mem_cons.mp h with rfl | h
                · exact Or.inl (hgoal c (Or.inr (Or.inr (Or.inl rfl))))
                · rcases ih none c h with h' | h'
                  · have h'' : c ∈ t := h'
                    exact Or.inl (hgoal c (Or.inr (Or.inr (Or.inr h''))))
                  · right; exact h'

theorem step4_no_nl (l : List Char) : '\n' ∉ step4Newline l := by
  induction l with
  | nil => intro h; cases h
  | cons c t ih =>
    intro hmem
    rw [show step4Newline (c :: t) = (if c = '\n' then ' ' else c) :: step4Newline t from
      rfl] at hmem
    rcases List.mem_cons.mp hmem with h | h
    · by_cases hc : c = '\n'
      · rw [if_pos hc] at h
        exact absurd h (by decide)
      · rw [if_neg hc] at h
        exact hc h.symm
    · exact ih h

/-! Pair-freeness is preserved by the later stages: each stage only
inserts spaces next to safe characters or deletes whitespace ahead of
step-10 punctuation. -/

theorem step6_preserves (p q : Char → Bool) (hsp : p ' ' = false) (hsq : q ' ' = false)
    (l : List Char) (h : pairFree p q l = true) :
    pairFree p q (step6LowerUpper l) = true := by
  induction l using step6LowerUpper.induct with
  | case1 a b t hc ih =>
    rw [show step6LowerUpper (a :: b :: t) = a :: ' ' :: b :: step6LowerUpper t from by
      rw [step6LowerUpper, if_pos hc]]
    have htail : pairFree p q (b :: t) = true := pairFree_tail _ _ _ _ h
    have htt : pairFree p q t = true := pairFree_tail _ _ _ _ htail
    have hb : ∀ x, (step6LowerUpper t).head? = some x → (p b && q x) = false := by
      intro x hx
      rw [head?_step6] at hx
      cases t with
      | nil => cases hx
      | cons y r =>
        rw [List.head?_cons] at hx
        injection hx with hx
        subst hx
        exact pairFree_pair _ _ _ _ _ htail
    refine pairFree_cons_of _ _ _ _ (fun x hx => by
      rw [List.head?_cons] at hx
      injection hx with hx
      subst hx
      simp [hsq]) ?_
    exact pairFree_cons_p _ _ _ _ hsp (pairFree_cons_of _ _ _ _ hb (ih htt))
  | case2 a b t hc ih =>
    rw [show step6LowerUpper (a :: b :: t) = a :: step6LowerUpper (b :: t) from by
      rw [step6LowerUpper, if_neg hc]]
    refine pairFree_cons_of _ _ _ _ ?_ (ih (pairFree_tail _ _ _ _ h))
    intro x hx
    rw [head?_step6, List.head?_cons] at hx
    injection hx with hx
    subst hx
    exact pairFree_pair _ _ _ _ _ h
  | case3 l hl =>
    cases l with
    | nil => exact h
    | cons a t =>
      cases t with
      | nil => exact h
      | cons b r => exact (hl a b r rfl).elim

theorem step7b_preserves (p q : Char → Bool) (hsp : p ' ' = false) (hsq : q ' ' = false)
    (prev : Option Char) (l : List Char) (h : pairFree p q l = true) :
    pairFree p q (step7bSa prev l) = true := by
  induction prev, l using step7bSa.induct with
  | case1 prev d t hc ih =>
    rw [show step7bSa prev ('s' :: 'ă' :: d :: t) =
        's' :: 'ă' :: ' ' :: d :: step7bSa (some d) t from by
      show (if (!prevWord prev && (decide (d = 'î') || decide (d = 'i'))) = true then
          's' :: 'ă' :: ' ' :: d :: step7bSa (some d) t
        else 's' :: step7bSa (some 's') ('ă' :: d :: t)) = _
      rw [if_pos hc]]
    have h2 : pairFree p q ('ă' :: d :: t) = true := pairFree_tail _ _ _ _ h
    have h3 : pairFree p q (d :: t) = true := pairFree_tail _ _ _ _ h2
    have h4 : pairFree p q t = true := pairFree_tail _ _ _ _ h3
    have hd : ∀ x, (step7bSa (some d) t).head? = some x → (p d && q x) = false := by
      intro x hx
      rw [head?_step7b] at hx
      cases t with
      | nil => cases hx
      | cons y r =>
        rw [List.head?_cons] at hx
        injection hx with hx
        subst hx
        exact pairFree_pair _ _ _ _ _ h3
    refine pairFree_cons_of _ _ _ _ (fun x hx => by
      rw [List.head?_cons] at hx
      injection hx with hx
      subst hx
      exact pairFree_pair _ _ _ _ _ h) ?_
    refine pairFree_cons_of _ _ _ _ (fun x hx => by
      rw [List.head?_cons] at hx
      injection hx with hx
      subst hx
      simp [hsq]) ?_
    exact pairFree_cons_p _ _ _ _ hsp (pairFree_cons_of _ _ _ _ hd (ih h4))
  | case2 prev d t hc ih =>
    rw [show step7bSa prev ('s' :: 'ă' :: d :: t) =
        's' :: step7bSa (some 's') ('ă' :: d :: t) from by
      show (if (!prevWord prev && (decide (d = 'î') || decide (d = 'i'))) = true then
          's' :: 'ă' :: ' ' :: d :: step7bSa (some d) t
        else 's' :: step7bSa (some 's') ('ă' :: d :: t)) = _
      rw [if_neg hc]]
    refine pairFree_cons_of _ _ _ _ ?_ (ih (pairFree_tail _ _ _ _ h))
    intro x hx
    rw [head?_step7b, List.head?_cons] at hx
    injection hx with hx
    subst hx
    exact pairFree_pair _ _ _ _ _ h
  | case3 prev d t hcond ih =>
    rw [show step7bSa prev (d :: t) = d :: step7bSa (some d) t from by
      rw [step7bSa.eq_def]
      split
      · rename_i c1 t1 heq
        injection heq with h1 h2
        subst h1
        exact ((by
          cases t with
          | nil => cases h2
          | cons x r =>
            injection h2 with hx hr
            subst hx
            cases r with
            | nil => cases hr
            | cons y s =>
              injection hr with hy hs
              exact hcond y s rfl (by rw [hy, hs])) : False).elim
      · rename_i c1 t1 heq
        injection heq with h1 h2
        subst h1; subst h2
        rfl
      · rename_i heq
        cases heq]
    refine pairFree_cons_of _ _ _ _ ?_ (ih (pairFree_tail _ _ _ _ h))
    intro x hx
    rw [head?_step7b] at hx
    cases t with
    | nil => cases hx
    | cons y r =>
      rw [List.head?_cons] at hx
      injection hx with hx
      subst hx
      exact pairFree_pair _ _ _ _ _ h
  | case4 prev => exact h

theorem s9aGo_preserves (p q : Char → Bool) (hsp : p ' ' = false) (hsq : q ' ' = false)
    (l : List Char) : ∀ pend, pairFree p q l = true →
      pairFree p q (step9aSpacesGo pend l) = true := by
  induction l with
  | nil =>
    intro pend _
    cases pend
    · rfl
    · rfl
  | cons d t ih =>
    intro pend h
    by_cases hd : (d = ' ' || d = '\t') = true
    · rw [show step9aSpacesGo pend (d :: t) =
        (if (d = ' ' || d = '\t') = true then step9aSpacesGo true t
         else spFlush pend ++ d :: step9aSpacesGo false t) from rfl, if_pos hd]
      exact ih true (pairFree_tail _ _ _ _ h)
    · rw [show step9aSpacesGo pend (d :: t) =
        (if (d = ' ' || d = '\t') = true then step9aSpacesGo true t
         else spFlush pend ++ d :: step9aSpacesGo false t) from rfl, if_neg hd]
      have hcore : pairFree p q (d :: step9aSpacesGo false t) = true := by
        refine pairFree_cons_of _ _ _ _ ?_ (ih false (pairFree_tail _ _ _ _ h))
        intro x hx
        cases t with
        | nil => cases hx
        | cons b u =>
          rcases s9aGo_false_shape b u with ⟨r, hr, _⟩ | ⟨hr, _⟩
          · rw [hr, List.head?_cons] at hx
            injection hx with hx
            subst hx
            simp [hsq]
          · rw [hr, List.head?_cons] at hx
            injection hx with hx
            subst hx
            exact pairFree_pair _ _ _ _ _ h
      cases pend
      · exact hcore
      · exact pairFree_cons_p _ _ _ _ hsp hcore

theorem s10aGo_preserves (p q : Char → Bool)
    (hq10 : ∀ b, isPunct10 b = true → q b = false)
    (l : List Char) : ∀ acc, pairFree p q (acc ++ l) = true →
      pairFree p q (step10aGo acc l) = true := by
  induction l with
  | nil =>
    intro acc h
    rw [step10aGo]
    exact pairFree_append_left _ _ _ _ h
  | cons d t ih =>
    intro acc h
    by_cases hw : isWS d = true
    · rw [step10aGo, if_pos hw]
      refine ih (acc ++ [d]) ?_
      rw [List.append_assoc]
      simpa using h
    · have hcore : pairFree p q (d :: step10aGo [] t) = true := by
        have hdt : pairFree p q (d :: t) = true := pairFree_append_right _ _ acc _ h
        refine pairFree_cons_of _ _ _ _ ?_ (ih [] (by
          show pairFree p q ([] ++ t) = true
          simpa using pairFree_tail _ _ _ _ hdt))
        intro x hx
        rcases head?_s10aGo t [] x hx with h' | h'
        · cases t with
          | nil => cases h'
          | cons y r =>
            simp only [List.nil_append, List.head?_cons] at h'
            injection h' with h'
            subst h'
            exact pairFree_pair _ _ _ _ _ hdt
        · simp [hq10 x h']
      by_cases hp : isPunct10 d = true
      · rw [step10aGo, if_neg hw, if_pos hp]
        exact hcore
      · rw [step10aGo, if_neg hw, if_neg hp]
        refine pairFree_glue _ _ _ _ (pairFree_append_left _ _ _ _ h) hcore ?_
        intro a b ha hb
        rw [List.head?_cons] at hb
        injection hb with hb
        subst hb
        exact pairFree_last_pair _ _ acc d t h a ha

theorem s10bGo_preserves (p q : Char → Bool)
    (hpair1 : ∀ c, isPunct10 c = true → (p c && q ' ') = false)
    (hpair2 : ∀ c, isLetter10 c = true → (p ' ' && q c) = false)
    (l : List Char) : ∀ st,
      (∀ p0 acc, st = some (p0, acc) → isPunct10 p0 = true) →
      pairFree p q (stPrefix st ++ l) = true →
      pairFree p q (step10bGo st l) = true := by
  induction l with
  | nil =>
    intro st _ h
    cases st with
    | none => rfl
    | some pa =>
      cases pa with
      | mk p0 acc =>
        have h' : pairFree p q ((p0 :: acc) ++ []) = true := h
        rw [show step10bGo (some (p0, acc)) [] = p0 :: acc from rfl]
        simpa using h'
  | cons d t ih =>
    intro st hst h
    cases st with
    | none =>
      have h' : pairFree p q (d :: t) = true := h
      by_cases hp : isPunct10 d = true
      · rw [step10bGo, if_pos hp]
        refine ih (some (d, [])) ?_ ?_
        · intro p0 acc hE
          injection hE with hE
          injection hE with h1 _
          subst h1
          exact hp
        · show pairFree p q ((d :: []) ++ t) = true
          simpa using h'
      · rw [step10bGo, if_neg hp]
        refine pairFree_cons_of _ _ _ _ ?_ (ih none (fun _ _ hE => nomatch hE) (by
          show pairFree p q ([] ++ t) = true
          simpa using pairFree_tail _ _ _ _ h'))
        intro x hx
        rw [head?_s10bGo_none] at hx
        cases t with
        | nil => cases hx
        | cons y r =>
          rw [List.head?_cons] at hx
          injection hx with hx
          subst hx
          exact pairFree_pair _ _ _ _ _ h'
    | some pa =>
      cases pa with
      | mk p0 acc =>
        have hp0 : isPunct10 p0 = true := hst p0 acc rfl
        have h' : pairFree p q ((p0 :: acc) ++ d :: t) = true := h
        by_cases hw : isWS d = true
        · rw [step10bGo, if_pos hw]
          refine ih (some (p0, acc ++ [d])) ?_ ?_
          · intro p1 acc1 hE
            injection hE with hE
            injection hE with h1 _
            subst h1
            exact hp0
          · show pairFree p q ((p0 :: (acc ++ [d])) ++ t) = true
            have hre : (p0 :: (acc ++ [d])) ++ t = (p0 :: acc) ++ d :: t := by simp
            rw [hre]
            exact h'
        · have hpt : pairFree p q (d :: t) = true :=
            pairFree_append_right _ _ (p0 :: acc) _ h'
          have hinner : pairFree p q (d :: step10bGo none t) = true := by
            refine pairFree_cons_of _ _ _ _ ?_ (ih none (fun _ _ hE => nomatch hE) (by
              show pairFree p q ([] ++ t) = true
              simpa using pairFree_tail _ _ _ _ hpt))
            intro x hx
            rw [head?_s10bGo_none] at hx
            cases t with
            | nil => cases hx
            | cons y r =>
              rw [List.head?_cons] at hx
              injection hx with hx
              subst hx
              exact pairFree_pair _ _ _ _ _ hpt
          by_cases hl : isLetter10 d = true
          · rw [step10bGo, if_neg hw, if_pos hl]
            refine pairFree_cons_of _ _ _ _ (fun x hx => by
              rw [List.head?_cons] at hx
              injection hx with hx
              subst hx
              exact hpair1 p0 hp0) ?_
            refine pairFree_cons_of _ _ _ _ (fun x hx => by
              rw [List.head?_cons] at hx
              injection hx with hx
              subst hx
              exact hpair2 d hl) ?_
            exact hinner
          · by_cases hp : isPunct10 d = true
            · rw [step10bGo, if_neg hw, if_neg hl, if_pos hp]
              refine pairFree_glue _ _ _ _ (pairFree_append_left _ _ _ _ h')
                (ih (some (d, [])) (by
                  intro p1 acc1 hE
                  injection hE with hE
                  injection hE with h1 _
                  subst h1
                  exact hp) (by
                  show pairFree p q ((d :: []) ++ t) = true
                  simpa using hpt)) ?_
              intro a b ha hb
              rw [head?_s10bGo_some] at hb
              injection hb with hb
              subst hb
              exact pairFree_last_pair _ _ (p0 :: acc) d t h' a ha
            · rw [step10bGo, if_neg hw, if_neg hl, if_neg hp]
              refine pairFree_glue _ _ _ _ (pairFree_append_left _ _ _ _ h') hinner ?_
              intro a b ha hb
              rw [List.head?_cons] at hb
              injection hb with hb
              subst hb
              exact pairFree_last_pair _ _ (p0 :: acc) d t h' a ha

/-- Stripping a non-empty all-whitespace prefix from a true `saOK` yields
a true `saOK` of the suffix in every non-word context. -/
theorem saOK_ws_elim_cons (a : Char) (acc' : List Char)
    (hacc : ∀ b ∈ a :: acc', isWS b = true) (prev : Option Char) (x : List Char)
    (h : saOK prev ((a :: acc') ++ x) = true) :
    ∀ p', prevWord p' = false → saOK p' x = true := by
  intro p' hp'
  exact saOK_ws_scan acc' (fun b hb => hacc b (by simp [hb])) (some a)
    (isWS_nonword a (hacc a (by simp))) x
    (saOK_tail_elim prev a (acc' ++ x) (by simpa using h)) p' hp'

/-- Step 9a preserves the absence of `\bsă[îi]` matches: collapsing
space/tab runs to single spaces neither creates the letter window nor
changes the word-status of the character before it. -/
theorem s9aGo_saOK (l : List Char) : ∀ (pend : Bool) (prev : Option Char),
    saOK (if pend then some ' ' else prev) l = true →
    saOK prev (step9aSpacesGo pend l) = true := by
  induction l with
  | nil =>
    intro pend prev _
    cases pend
    · rfl
    · rfl
  | cons c t ih =>
    intro pend prev h
    by_cases hc : (c = ' ' || c = '\t') = true
    · rw [show step9aSpacesGo pend (c :: t) =
        (if (c = ' ' || c = '\t') = true then step9aSpacesGo true t
         else spFlush pend ++ c :: step9aSpacesGo false t) from rfl, if_pos hc]
      refine ih true prev ?_
      have h1 : saOK (some c) t = true := saOK_tail_elim _ c t h
      have hcw : prevWord (some c) = false := by
        rcases (by simpa using hc : c = ' ' ∨ c = '\t') with rfl | rfl <;> decide
      exact saOK_nonword_congr (some c) (some ' ') hcw (by decide) t h1
    · rw [show step9aSpacesGo pend (c :: t) =
        (if (c = ' ' || c = '\t') = true then step9aSpacesGo true t
         else spFlush pend ++ c :: step9aSpacesGo false t) from rfl, if_neg hc]
      have body : ∀ pv, saOK pv (c :: t) = true →
          saOK pv (c :: step9aSpacesGo false t) = true := by
        intro pv hpv
        refine saOK_cons_any pv c _ (ih false (some c) (saOK_tail_elim pv c t hpv)) ?_
        intro hcs e W hXW
        subst hcs
        cases t with
        | nil =>
          exact absurd (show ([] : List Char) = 'ă' :: e :: W from hXW) (by simp)
        | cons b u =>
          rcases s9aGo_false_shape b u with ⟨r, hr, _⟩ | ⟨hr, _⟩
          · rw [hr] at hXW
            injection hXW with h1 _
            exact absurd h1 (by decide)
          · rw [hr] at hXW
            injection hXW with h1 h2
            subst h1
            cases u with
            | nil =>
              exact absurd (show ([] : List Char) = e :: W from h2) (by simp)
            | cons v r2 =>
              rcases s9aGo_false_shape v r2 with ⟨r', hr', _⟩ | ⟨hr', _⟩
              · rw [hr'] at h2
                injection h2 with h3 _
                rw [← h3]
                simp
              · rw [hr'] at h2
                injection h2 with h3 _
                rw [← h3]
                have hrfl : saOK pv ('s' :: 'ă' :: v :: r2) =
                    (if (!prevWord pv && (decide (v = 'î') || decide (v = 'i'))) = true
                     then false else saOK (some 's') ('ă' :: v :: r2)) := rfl
                rw [hrfl] at hpv
                by_cases hcond :
                    (!prevWord pv && (decide (v = 'î') || decide (v = 'i'))) = true
                · rw [if_pos hcond] at hpv
                  cases hpv
                · exact eq_false_of_ne_true hcond
      cases pend
      · exact body prev h
      · refine saOK_cons_any prev ' ' _ (body (some ' ') h) ?_
        intro hs e W hY
        exact absurd hs (by decide)

/-- Step 10a preserves the absence of `\bsă[îi]` matches: it deletes
whitespace only ahead of step-10 punctuation, so every new adjacency it
creates ends in a punctuation character. -/
theorem s10aGo_saOK (l : List Char) : ∀ (acc : List Char) (prev : Option Char),
    (∀ a ∈ acc, isWS a = true) → saOK prev (acc ++ l) = true →
    saOK prev (step10aGo acc l) = true := by
  induction l with
  | nil =>
    intro acc prev _ h
    rw [step10aGo]
    simpa using h
  | cons c t ih =>
    intro acc prev hacc h
    have core : ∀ pv, saOK pv (c :: t) = true →
        saOK pv (c :: step10aGo [] t) = true := by
      intro pv hpv
      refine saOK_cons_any pv c _ (ih [] (some c) (by simp)
        (show saOK (some c) ([] ++ t) = true from saOK_tail_elim pv c t hpv)) ?_
      intro hcs e W hXW
      subst hcs
      cases t with
      | nil =>
        exact absurd (show ([] : List Char) = 'ă' :: e :: W from hXW) (by simp)
      | cons y u =>
        have hy : y = 'ă' := by
          have hh : (step10aGo [] (y :: u)).head? = some 'ă' := by rw [hXW]; rfl
          rcases head?_s10aGo (y :: u) [] 'ă' hh with h' | h'
          · simpa using h'
          · exact absurd h' (by decide)
        subst hy
        rw [step10aGo, if_neg (by decide), if_neg (by decide)] at hXW
        simp only [List.nil_append] at hXW
        injection hXW with _ h2
        cases u with
        | nil =>
          exact absurd (show ([] : List Char) = e :: W from h2) (by simp)
        | cons v r2 =>
          have hE : (step10aGo [] (v :: r2)).head? = some e := by rw [h2]; rfl
          rcases head?_s10aGo (v :: r2) [] e hE with h' | h'
          · simp only [List.nil_append, List.head?_cons] at h'
            injection h' with h'
            subst h'
            have hrfl : saOK pv ('s' :: 'ă' :: v :: r2) =
                (if (!prevWord pv && (decide (v = 'î') || decide (v = 'i'))) = true
                 then false else saOK (some 's') ('ă' :: v :: r2)) := rfl
            rw [hrfl] at hpv
            by_cases hcond :
                (!prevWord pv && (decide (v = 'î') || decide (v = 'i'))) = true
            · rw [if_pos hcond] at hpv
              cases hpv
            · exact eq_false_of_ne_true hcond
          · have he2 : (decide (e = 'î') || decide (e = 'i')) = false := by
              simp only [isPunct10, Bool.or_eq_true, decide_eq_true_eq] at h'
              rcases h' with (((rfl | rfl) | rfl) | rfl) | rfl <;> decide
            rw [he2]
            simp
    by_cases hw : isWS c = true
    · rw [step10aGo, if_pos hw]
      refine ih (acc ++ [c]) prev (fun a ha => ?_) ?_
      · rcases List.mem_append.mp ha with ha | ha
        · exact hacc a ha
        · simp at ha; subst ha; exact hw
      · have hre : (acc ++ [c]) ++ t = acc ++ (c :: t) := by simp
        rw [hre]
        exact h
    · by_cases hp : isPunct10 c = true
      · rw [step10aGo, if_neg hw, if_pos hp]
        have h1 : saOK (some c) t = true := by
          cases acc with
          | nil => exact saOK_tail_elim prev c t (by simpa using h)
          | cons a acc' =>
            exact saOK_tail_elim (some ' ') c t
              (saOK_ws_elim_cons a acc' hacc prev (c :: t) h (some ' ') (by decide))
        refine saOK_cons_any prev c _ (ih [] (some c) (by simp)
          (show saOK (some c) ([] ++ t) = true from h1)) ?_
        intro hs e W hY
        rw [hs] at hp
        exact absurd hp (by decide)
      · rw [step10aGo, if_neg hw, if_neg hp]
        cases acc with
        | nil => exact core prev (by simpa using h)
        | cons a acc' =>
          refine saOK_ws_scan_intro (a :: acc') hacc prev _ (fun hE => nomatch hE) ?_
          intro p' hp'
          exact core p' (saOK_ws_elim_cons a acc' hacc prev (c :: t) h p' hp')

/-- Step 10b preserves the absence of `\bsă[îi]` matches: it only inserts
a space between a punctuation character and a letter. -/
theorem s10bGo_saOK (l : List Char) : ∀ (st : Option (Char × List Char)) (prev : Option Char),
    (∀ p0 acc, st = some (p0, acc) → isPunct10 p0 = true ∧ ∀ a ∈ acc, isWS a = true) →
    saOK prev (stPrefix st ++ l) = true →
    saOK prev (step10bGo st l) = true := by
  induction l with
  | nil =>
    intro st prev _ h
    cases st with
    | none => rfl
    | some pa =>
      cases pa with
      | mk p0 acc =>
        rw [show step10bGo (some (p0, acc)) [] = p0 :: acc from rfl]
        have h' : saOK prev ((p0 :: acc) ++ []) = true := h
        simpa using h'
  | cons c t ih =>
    intro st prev hst h
    have core : ∀ pv, saOK pv (c :: t) = true →
        saOK pv (c :: step10bGo none t) = true := by
      intro pv hpv
      refine saOK_cons_any pv c _ (ih none (some c) (fun _ _ hE => nomatch hE)
        (show saOK (some c) ([] ++ t) = true from saOK_tail_elim pv c t hpv)) ?_
      intro hcs e W hXW
      subst hcs
      cases t with
      | nil =>
        exact absurd (show ([] : List Char) = 'ă' :: e :: W from hXW) (by simp)
      | cons y u =>
        have hy : y = 'ă' := by
          have hh : (step10bGo none (y :: u)).head? = some 'ă' := by rw [hXW]; rfl
          rw [head?_s10bGo_none] at hh
          simpa using hh
        subst hy
        rw [step10bGo, if_neg (by decide)] at hXW
        injection hXW with _ h2
        cases u with
        | nil =>
          exact absurd (show ([] : List Char) = e :: W from h2) (by simp)
        | cons v r2 =>
          have hE : (step10bGo none (v :: r2)).head? = some e := by rw [h2]; rfl
          rw [head?_s10bGo_none] at hE
          have hEv : v = e := by simpa using hE
          rw [← hEv]
          have hrfl : saOK pv ('s' :: 'ă' :: v :: r2) =
              (if (!prevWord pv && (decide (v = 'î') || decide (v = 'i'))) = true
               then false else saOK (some 's') ('ă' :: v :: r2)) := rfl
          rw [hrfl] at hpv
          by_cases hcond :
              (!prevWord pv && (decide (v = 'î') || decide (v = 'i'))) = true
          · rw [if_pos hcond] at hpv
            cases hpv
          · exact eq_false_of_ne_true hcond
    cases st with
    | none =>
      have h' : saOK prev (c :: t) = true := h
      by_cases hp : isPunct10 c = true
      · rw [step10bGo, if_pos hp]
        exact ih (some (c, [])) prev (by
          intro p0 acc hE
          injection hE with hE
          injection hE with h1 h2
          subst h1; subst h2
          exact ⟨hp, by simp⟩) (show saOK prev ((c :: []) ++ t) = true from h')
      · rw [step10bGo, if_neg hp]
        exact core prev h'
    | some pa =>
      cases pa with
      | mk p0 acc =>
        obtain ⟨hp0, hwacc⟩ := hst p0 acc rfl
        have hp0nw : prevWord (some p0) = false := isPunct10_nonword p0 hp0
        have hstrip : saOK (some p0) (acc ++ (c :: t)) = true :=
          saOK_tail_elim prev p0 _ (show saOK prev (p0 :: (acc ++ (c :: t))) = true from h)
        have hall : ∀ p', prevWord p' = false → saOK p' (c :: t) = true :=
          saOK_ws_scan acc hwacc (some p0) hp0nw (c :: t) hstrip
        by_cases hw : isWS c = true
        · rw [step10bGo, if_pos hw]
          refine ih (some (p0, acc ++ [c])) prev (by
            intro p1 acc1 hE
            injection hE with hE
            injection hE with h1 h2
            subst h1; subst h2
            refine ⟨hp0, ?_⟩
            intro a ha
            rcases List.mem_append.mp ha with ha | ha
            · exact hwacc a ha
            · simp at ha; subst ha; exact hw) ?_
          show saOK prev ((p0 :: (acc ++ [c])) ++ t) = true
          have hre : (p0 :: (acc ++ [c])) ++ t = (p0 :: acc) ++ (c :: t) := by simp
          rw [hre]
          exact h
        · by_cases hl : isLetter10 c = true
          · rw [step10bGo, if_neg hw, if_pos hl]
            refine saOK_cons_any prev p0 _ ?_ ?_
            · refine saOK_cons_any (some p0) ' ' _ ?_ ?_
              · exact core (some ' ') (hall (some ' ') (by decide))
              · intro hs e W hY
                exact absurd hs (by decide)
            · intro hs e W hY
              rw [hs] at hp0
              exact absurd hp0 (by decide)
          · by_cases hp : isPunct10 c = true
            · rw [step10bGo, if_neg hw, if_neg hl, if_pos hp]
              have hinv : ∀ p1 acc1, (some (c, ([] : List Char))) = some (p1, acc1) →
                  isPunct10 p1 = true ∧ ∀ a ∈ acc1, isWS a = true := by
                intro p1 acc1 hE
                injection hE with hE
                injection hE with h1 h2
                subst h1; subst h2
                exact ⟨hp, by simp⟩
              have hZ : ∀ p', prevWord p' = false →
                  saOK p' (step10bGo (some (c, [])) t) = true := by
                intro p' hp'
                exact ih (some (c, [])) p' hinv
                  (show saOK p' ((c :: []) ++ t) = true from hall p' hp')
              show saOK prev (p0 :: (acc ++ step10bGo (some (c, [])) t)) = true
              refine saOK_cons_any prev p0 _ ?_ ?_
              · exact saOK_ws_scan_intro acc hwacc (some p0) _
                  (fun _ => hZ (some p0) hp0nw) (fun p' hp' => hZ p' hp')
              · intro hs e W hY
                rw [hs] at hp0
                exact absurd hp0 (by decide)
            · rw [step10bGo, if_neg hw, if_neg hl, if_neg hp]
              show saOK prev (p0 :: (acc ++ (c :: step10bGo none t))) = true
              refine saOK_cons_any prev p0 _ ?_ ?_
              · exact saOK_ws_scan_intro acc hwacc (some p0) _
                  (fun _ => core (some p0) (hall (some p0) hp0nw))
                  (fun p' hp' => core p' (hall p' hp'))
              · intro hs e W hY
                rw [hs] at hp0
                exact absurd hp0 (by decide)

/-- C9: normalization restricted to its non-placeholder stages (steps 2,
4, 5, 6, 7, 9 and 10 of `cleanText`) is idempotent — re-running those
stages on their own output changes nothing. -/
theorem normCore_idempotent (l : List Char) : normCore (normCore l) = normCore l := by
  set y1 : List Char := step4Newline (step2Hyphen l) with hy1
  set y2 : List Char := step5PunctCap y1 with hy2
  set y3 : List Char := step6LowerUpper y2 with hy3
  set y4 : List Char := step7aUl none y3 with hy4
  set y5 : List Char := step7bSa none y4 with hy5
  set y6 : List Char := step9aSpaces y5 with hy6
  set y7 : List Char := step9bBlank y6 with hy7
  set y8 : List Char := step10aPunct y7 with hy8
  set y9 : List Char := step10bPunct y8 with hy9
  have hP6y3 : pairFree isLC isUC y3 = true := by rw [hy3]; exact step6_estab y2
  have h4 : y4 = y3 := by rw [hy4]; exact step7a_id_of_pairFree none y3 hP6y3
  have hN1 : '\n' ∉ y1 := by rw [hy1]; exact step4_no_nl _
  have hN2 : '\n' ∉ y2 := by
    rw [hy2]
    intro hm
    rcases mem_step5 y1 '\n' hm with h' | h'
    · exact hN1 h'
    · exact absurd h' (by decide)
  have hN3 : '\n' ∉ y3 := by
    rw [hy3]
    intro hm
    rcases mem_step6 y2 '\n' hm with h' | h'
    · exact hN2 h'
    · exact absurd h' (by decide)
  have hN4 : '\n' ∉ y4 := by rw [h4]; exact hN3
  have hN5 : '\n' ∉ y5 := by
    rw [hy5]
    intro hm
    rcases mem_step7b none y4 '\n' hm with h' | h'
    · exact hN4 h'
    · exact absurd h' (by decide)
  have hN6 : '\n' ∉ y6 := by
    rw [hy6]
    intro hm
    rcases mem_s9aGo y5 false '\n' hm with h' | h'
    · exact hN5 h'
    · exact absurd h' (by decide)
  have h7 : y7 = y6 := by rw [hy7]; exact step9b_id_of_nonl y6 hN6
  have hN7 : '\n' ∉ y7 := by rw [h7]; exact hN6
  have hN8 : '\n' ∉ y8 := by
    rw [hy8]
    intro hm
    exact hN7 (by simpa using mem_s10aGo y7 [] '\n' hm)
  have hN9 : '\n' ∉ y9 := by
    rw [hy9]
    intro hm
    rcases mem_s10bGo y8 none '\n' hm with h' | h'
    · exact hN8 (by simpa [stPrefix] using h')
    · exact absurd h' (by decide)
  have hP5y2 : pairFree isPunct5 isUC y2 = true := by rw [hy2]; exact step5_estab y1
  have hP5y3 : pairFree isPunct5 isUC y3 = true := by
    rw [hy3]; exact step6_preserves _ _ (by decide) (by decide) y2 hP5y2
  have hP5y4 : pairFree isPunct5 isUC y4 = true := by rw [h4]; exact hP5y3
  have hP5y5 : pairFree isPunct5 isUC y5 = true := by
    rw [hy5]; exact step7b_preserves _ _ (by decide) (by decide) none y4 hP5y4
  have hP5y6 : pairFree isPunct5 isUC y6 = true := by
    rw [hy6]; exact s9aGo_preserves _ _ (by decide) (by decide) y5 false hP5y5
  have hP5y7 : pairFree isPunct5 isUC y7 = true := by rw [h7]; exact hP5y6
  have hP5y8 : pairFree isPunct5 isUC y8 = true := by
    rw [hy8]
    exact s10aGo_preserves _ _ (fun b hb => isPunct10_not_uc b hb) y7 [] hP5y7
  have hP5y9 : pairFree isPunct5 isUC y9 = true := by
    rw [hy9]
    exact s10bGo_preserves _ _
      (fun c _ => by rw [show isUC ' ' = false from by decide, Bool.and_false])
      (fun c _ => by rw [show isPunct5 ' ' = false from by decide, Bool.false_and])
      y8 none (fun _ _ hE => nomatch hE) hP5y8
  have hP6y4 : pairFree isLC isUC y4 = true := by rw [h4]; exact hP6y3
  have hP6y5 : pairFree isLC isUC y5 = true := by
    rw [hy5]; exact step7b_preserves _ _ (by decide) (by decide) none y4 hP6y4
  have hP6y6 : pairFree isLC isUC y6 = true := by
    rw [hy6]; exact s9aGo_preserves _ _ (by decide) (by decide) y5 false hP6y5
  have hP6y7 : pairFree isLC isUC y7 = true := by rw [h7]; exact hP6y6
  have hP6y8 : pairFree isLC isUC y8 = true := by
    rw [hy8]
    exact s10aGo_preserves _ _ (fun b hb => isPunct10_not_uc b hb) y7 [] hP6y7
  have hP6y9 : pairFree isLC isUC y9 = true := by
    rw [hy9]
    exact s10bGo_preserves _ _
      (fun c _ => by rw [show isUC ' ' = false from by decide, Bool.and_false])
      (fun c _ => by rw [show isLC ' ' = false from by decide, Bool.false_and])
      y8 none (fun _ _ hE => nomatch hE) hP6y8
  have hSAy5 : saOK none y5 = true := by rw [hy5]; exact step7b_estab none y4
  have hSAy6 : saOK none y6 = true := by
    rw [hy6]; exact s9aGo_saOK y5 false none hSAy5
  have hSAy7 : saOK none y7 = true := by rw [h7]; exact hSAy6
  have hSAy8 : saOK none y8 = true := by
    rw [hy8]; exact s10aGo_saOK y7 [] none (by simp) hSAy7
  have hSAy9 : saOK none y9 = true := by
    rw [hy9]; exact s10bGo_saOK y8 none none (fun _ _ hE => nomatch hE) hSAy8
  have hT6 : '\t' ∉ y6 := by rw [hy6]; exact step9a_no_tab y5 false
  have hSP6 : pairFree isSpTab isSpTab y6 = true := by
    rw [hy6]; exact step9a_estab y5 false
  have hT7 : '\t' ∉ y7 := by rw [h7]; exact hT6
  have hSP7 : pairFree isSpTab isSpTab y7 = true := by rw [h7]; exact hSP6
  have hT8 : '\t' ∉ y8 := by
    rw [hy8]
    intro hm
    exact hT7 (by simpa using mem_s10aGo y7 [] '\t' hm)
  have hSP8 : pairFree isSpTab isSpTab y8 = true := by
    rw [hy8]
    exact s10aGo_preserves _ _ (fun b hb => isPunct10_not_sptab b hb) y7 [] hSP7
  have hT9 : '\t' ∉ y9 := by
    rw [hy9]
    intro hm
    rcases mem_s10bGo y8 none '\t' hm with h' | h'
    · exact hT8 (by simpa [stPrefix] using h')
    · exact absurd h' (by decide)
  have hSP9 : pairFree isSpTab isSpTab y9 = true := by
    rw [hy9]
    exact s10bGo_preserves _ _
      (fun c hc => by rw [isPunct10_not_sptab c hc, Bool.false_and])
      (fun c hc => by rw [isLetter10_not_sptab c hc, Bool.and_false])
      y8 none (fun _ _ hE => nomatch hE) hSP8
  have hPAy8 : pairFree isWS isPunct10 y8 = true := by
    rw [hy8]; exact step10a_estab y7 [] (by simp)
  have hPAy9 : pairFree isWS isPunct10 y9 = true := by
    rw [hy9]
    exact s10bGo_preserves _ _
      (fun c _ => by rw [show isPunct10 ' ' = false from by decide, Bool.and_false])
      (fun c hc => by rw [isLetter10_not_punct10 c hc, Bool.and_false])
      y8 none (fun _ _ hE => nomatch hE) hPAy8
  have hQ9 : q10bGoOK none y9 = true := by rw [hy9]; exact step10b_estab y8
  have i2 : step2Hyphen y9 = y9 := step2_id_of_nonl y9 hN9
  have i4 : step4Newline y9 = y9 := step4_id_of_nonl y9 hN9
  have i5 : step5PunctCap y9 = y9 := step5_id_of_pairFree y9 hP5y9
  have i6 : step6LowerUpper y9 = y9 := step6_id_of_pairFree y9 hP6y9
  have i7a : step7aUl none y9 = y9 := step7a_id_of_pairFree none y9 hP6y9
  have i7b : step7bSa none y9 = y9 := step7b_id_of_saOK none y9 hSAy9
  have i9a : step9aSpaces y9 = y9 := step9a_id y9 hT9 hSP9
  have i9b : step9bBlank y9 = y9 := step9b_id_of_nonl y9 hN9
  have i10a : step10aPunct y9 = y9 := step10a_id y9 hPAy9
  have i10b : step10bPunct y9 = y9 := by
    have hid := s10bGo_id y9 none hQ9
    simpa [stPrefix, step10bPunct] using hid
  have hyfinal : normCore l = y9 := by
    rw [hy9, hy8, hy7, hy6, hy5, hy4, hy3, hy2, hy1]
    rfl
  rw [hyfinal]
  show step10bPunct (step10aPunct (step9bBlank (step9aSpaces (step7bSa none (step7aUl none
    (step6LowerUpper (step5PunctCap (step4Newline (step2Hyphen y9))))))))) = y9
  rw [i2, i4, i5, i6, i7a, i7b, i9a, i9b, i10a, i10b]

/-! ## Analysis for the placeholder-containment claim: between steps 1
and 11 the text is an interleaving of placeholder tokens and `<`-free
segments. -/

theorem lastOr_cons (p : Option Char) (a : Char) (x : List Char) :
    lastOr p (a :: x) = lastOr (some a) x := by
  cases x with
  | nil => rfl
  | cons b y =>
    show lastOr p (a :: b :: y) = lastOr (some a) (b :: y)
    rw [lastOr, lastOr, List.getLast?_cons_cons]
    cases h : (b :: y).getLast? with
    | none => exact absurd h (by simp)
    | some c => rfl

theorem digitChar_digit (m : Nat) (hm : m < 10) : isDigitC (Nat.digitChar m) = true := by
  interval_cases m <;> decide

theorem toDigitsCore_digits : ∀ (fuel n : Nat) (acc : List Char),
    (∀ c ∈ acc, isDigitC c = true) →
    ∀ c ∈ Nat.toDigitsCore 10 fuel n acc, isDigitC c = true := by
  intro fuel
  induction fuel with
  | zero => intro n acc hacc; exact hacc
  | succ f ih =>
    intro n acc hacc
    rw [Nat.toDigitsCore]
    by_cases hz : n / 10 = 0
    · simp only [hz, if_pos]
      intro c hc
      rcases List.mem_cons.mp hc with rfl | hc
      · exact digitChar_digit _ (Nat.mod_lt _ (by omega))
      · exact hacc c hc
    · rw [if_neg hz]
      refine ih (n / 10) _ ?_
      intro c hc
      rcases List.mem_cons.mp hc with rfl | hc
      · exact digitChar_digit _ (Nat.mod_lt _ (by omega))
      · exact hacc c hc

theorem toDigits_digits (n : Nat) : ∀ c ∈ Nat.toDigits 10 n, isDigitC c = true := by
  intro c hc
  exact toDigitsCore_digits (n + 1) n [] (by simp) c hc

theorem isDigitC_val (c : Char) (h : isDigitC c = true) :
    48 ≤ c.val.toNat ∧ c.val.toNat ≤ 57 := by
  simp only [isDigitC, Bool.and_eq_true, decide_eq_true_eq] at h
  exact ⟨h.1, h.2⟩

theorem digit_not_lc (c : Char) (hd : isDigitC c = true) : isLC c = false := by
  cases hl : isLC c
  · rfl
  · exfalso
    obtain ⟨h1, h2⟩ := isDigitC_val c hd
    simp only [isLC, Bool.or_eq_true, Bool.and_eq_true, decide_eq_true_eq] at hl
    rcases hl with ((((⟨g1, g2⟩ | rfl) | rfl) | rfl) | rfl) | rfl
    · have g1' : 97 ≤ c.val.toNat := g1
      omega
    all_goals exact absurd hd (by decide)

theorem digit_not_ws (c : Char) (hd : isDigitC c = true) : isWS c = false := by
  cases hw : isWS c
  · rfl
  · exfalso
    obtain ⟨h1, h2⟩ := isDigitC_val c hd
    simp only [isWS, Bool.or_eq_true, Bool.and_eq_true, decide_eq_true_eq] at hw
    rcases hw with (((((((((((((he | he) | he) | he) | he) | he) | he) | he) | ⟨g1, g2⟩) | he) | he) | he) | he) | he) | he
    · exact absurd hd (by rw [he]; decide)
    · exact absurd hd (by rw [he]; decide)
    · exact absurd hd (by rw [he]; decide)
    · exact absurd hd (by rw [he]; decide)
    · exact absurd hd (by rw [he]; decide)
    · exact absurd hd (by rw [he]; decide)
    · exact absurd hd (by rw [he]; decide)
    · exact absurd hd (by rw [he]; decide)
    · have g1' : 8192 ≤ c.val.toNat := g1
      omega
    · exact absurd hd (by rw [he]; decide)
    · exact absurd hd (by rw [he]; decide)
    · exact absurd hd (by rw [he]; decide)
    · exact absurd hd (by rw [he]; decide)
    · exact absurd hd (by rw [he]; decide)
    · exact absurd hd (by rw [he]; decide)

theorem digit_not_punct5 (c : Char) (hd : isDigitC c = true) : isPunct5 c = false := by
  cases hp : isPunct5 c
  · rfl
  · exfalso
    simp only [isPunct5, Bool.or_eq_true, decide_eq_true_eq] at hp
    rcases hp with (rfl | rfl) | rfl <;> exact absurd hd (by decide)

theorem digit_not_punct10 (c : Char) (hd : isDigitC c = true) : isPunct10 c = false := by
  cases hp : isPunct10 c
  · rfl
  · exfalso
    simp only [isPunct10, Bool.or_eq_true, decide_eq_true_eq] at hp
    rcases hp with (((rfl | rfl) | rfl) | rfl) | rfl <;> exact absurd hd (by decide)

theorem digit_ne (c : Char) (hd : isDigitC c = true) :
    c ≠ '-' ∧ c ≠ '\n' ∧ c ≠ 'u' ∧ c ≠ 's' ∧ c ≠ '<' ∧ c ≠ ' ' ∧ c ≠ '\t' ∧
      c ≠ 'ă' ∧ c ≠ 'î' ∧ c ≠ 'i' ∧ c ≠ 'l' := by
  refine ⟨?_, ?_, ?_, ?_, ?_, ?_, ?_, ?_, ?_, ?_, ?_⟩ <;>
    (intro heq; rw [heq] at hd; exact absurd hd (by decide))

/-- Every character of a URL placeholder is one of the seven frame
characters or a decimal digit. -/
theorem urlPH_chars (k : Nat) (c : Char) (hc : c ∈ urlPH k) :
    c = '<' ∨ c = '>' ∨ c = 'U' ∨ c = 'R' ∨ c = 'L' ∨ c = '_' ∨ isDigitC c = true := by
  simp only [urlPH, List.append_assoc, List.mem_append] at hc
  rcases hc with hc | hc | hc
  · have hc' : c ∈ ['<', '<', '<', 'U', 'R', 'L', '_'] := hc
    simp only [List.mem_cons, List.not_mem_nil, or_false] at hc'
    tauto
  · exact Or.inr (Or.inr (Or.inr (Or.inr (Or.inr (Or.inr (toDigits_digits k c hc))))))
  · have hc' : c ∈ ['>', '>', '>'] := hc
    simp only [List.mem_cons, List.not_mem_nil, or_false] at hc'
    tauto

theorem urlPH_head (k : Nat) : ∃ r, urlPH k = '<' :: r :=
  ⟨"<<URL_".data ++ Nat.toDigits 10 k ++ ">>>".data, rfl⟩

theorem urlPH_getLast (k : Nat) : (urlPH k).getLast? = some '>' := by
  rw [urlPH, show ("<<<URL_".data ++ Nat.toDigits 10 k ++ ">>>".data : List Char) =
    ("<<<URL_".data ++ Nat.toDigits 10 k ++ ['>', '>']) ++ ['>'] from by simp]
  rw [List.getLast?_append]
  rfl

/-! Split lemmas: each scanner distributes over an append whose right part
starts with a character that stops any in-flight pattern. -/

theorem takeWhile_append_stop (p : Char → Bool) (x m : List Char)
    (hm : ∀ c, m.head? = some c → p c = false) :
    (x ++ m).takeWhile p = x.takeWhile p := by
  induction x with
  | nil =>
    cases m with
    | nil => rfl
    | cons c t => simp [List.takeWhile_cons, hm c rfl]
  | cons c x' ih =>
    simp only [List.cons_append, List.takeWhile_cons]
    cases hp : p c
    · rfl
    · rw [ih]

theorem lastIdxOf_lt (c : Char) (x : List Char) (j : Nat)
    (h : lastIdxOf c x = some j) : j < x.length := by
  induction x generalizing j with
  | nil => cases h
  | cons a t ih =>
    rw [lastIdxOf] at h
    cases hlt : lastIdxOf c t with
    | some i =>
      rw [hlt] at h
      injection h with h
      subst h
      have := ih i hlt
      simp
      omega
    | none =>
      rw [hlt] at h
      by_cases ha : a = c
      · rw [if_pos ha] at h
        injection h with h
        subst h
        simp
      · rw [if_neg ha] at h
        cases h

theorem isWS_ne_hyphen (c : Char) (h : isWS c = true) : c ≠ '-' := by
  intro heq
  rw [heq] at h
  exact absurd h (by decide)

theorem step2_append (x m : List Char) (hm : ∀ c, m.head? = some c → isWS c = false) :
    step2Hyphen (x ++ m) = step2Hyphen x ++ step2Hyphen m := by
  induction x with
  | nil => rfl
  | cons c x' ih =>
    by_cases hc : c = '-'
    · subst hc
      rw [show ('-' :: x') ++ m = '-' :: (x' ++ m) from rfl]
      rw [step2Hyphen, if_pos rfl]
      conv_rhs => rw [step2Hyphen, if_pos rfl]
      rw [takeWhile_append_stop isWS x' m hm]
      cases hli : lastIdxOf '\n' (x'.takeWhile isWS) with
      | none => simp [ih]
      | some j =>
        rw [ih]
        have hj : j < (x'.takeWhile isWS).length := lastIdxOf_lt _ _ _ hli
        have e1 : x'.takeWhile isWS ++ x'.dropWhile isWS = x' :=
          List.takeWhile_append_dropWhile isWS x'
        have e2 : step2Hyphen x' = x'.takeWhile isWS ++ step2Hyphen (x'.dropWhile isWS) := by
          conv_lhs => rw [← e1]
          exact step2Hyphen_append_of_no_hyphen _ _
            (fun d hd => isWS_ne_hyphen d (List.mem_takeWhile_imp hd))
        have hlen : j + 1 ≤ (step2Hyphen x').length := by
          rw [e2, List.length_append]
          omega
        exact List.drop_append_of_le_length hlen
    · simp only [List.cons_append, step2Hyphen, if_neg hc, List.append_eq]
      rw [ih]

theorem step3Go_cons (p : Nat) (c : Char) (t : List Char) :
    step3ParaGo p (c :: t) =
      if c = '\n' then step3ParaGo (p + 1) t else nlFlush p ++ c :: step3ParaGo 0 t := rfl

theorem step3Go_append (x : List Char) : ∀ (p : Nat) (m : List Char),
    (∀ c, m.head? = some c → c ≠ '\n') →
    step3ParaGo p (x ++ m) = step3ParaGo p x ++ step3ParaGo 0 m := by
  induction x with
  | nil =>
    intro p m hm
    cases m with
    | nil => simp [step3ParaGo, nlFlush]
    | cons c t =>
      have hc : c ≠ '\n' := hm c rfl
      show step3ParaGo p (c :: t) = step3ParaGo p [] ++ step3ParaGo 0 (c :: t)
      rw [step3Go_cons, if_neg hc, step3Go_cons, if_neg hc,
        show step3ParaGo p [] = nlFlush p from rfl]
      simp [nlFlush]
  | cons c x' ih =>
    intro p m hm
    by_cases hc : c = '\n'
    · subst hc
      rw [show ('\n' :: x') ++ m = '\n' :: (x' ++ m) from rfl, step3Go_cons, if_pos rfl,
        ih (p + 1) m hm, step3Go_cons, if_pos rfl]
    · rw [show (c :: x') ++ m = c :: (x' ++ m) from rfl, step3Go_cons, if_neg hc, ih 0 m hm,
        step3Go_cons, if_neg hc]
      simp

theorem step3Go_tok (x : List Char) (hx : '\n' ∉ x) (r : List Char) :
    step3ParaGo 0 (x ++ r) = x ++ step3ParaGo 0 r := by
  induction x with
  | nil => rfl
  | cons c x' ih =>
    have hc : c ≠ '\n' := fun h => hx (by simp [h])
    rw [show (c :: x') ++ r = c :: (x' ++ r) from rfl, step3Go_cons, if_neg hc,
      ih (fun h => hx (by simp [h]))]
    simp [nlFlush]

theorem step4_append (x m : List Char) :
    step4Newline (x ++ m) = step4Newline x ++ step4Newline m := by
  induction x with
  | nil => rfl
  | cons c x' ih =>
    show (if c = '\n' then ' ' else c) :: step4Newline (x' ++ m) =
      ((if c = '\n' then ' ' else c) :: step4Newline x') ++ step4Newline m
    rw [List.cons_append, ih]

theorem step5_append (x m : List Char) (hm : ∀ c, m.head? = some c → isUC c = false) :
    step5PunctCap (x ++ m) = step5PunctCap x ++ step5PunctCap m := by
  induction x using step5PunctCap.induct with
  | case1 a b t hc ih =>
    rw [show (a :: b :: t) ++ m = a :: b :: (t ++ m) from rfl]
    rw [show step5PunctCap (a :: b :: (t ++ m)) = a :: ' ' :: b :: step5PunctCap (t ++ m) from by
      rw [step5PunctCap, if_pos hc]]
    rw [ih, show step5PunctCap (a :: b :: t) = a :: ' ' :: b :: step5PunctCap t from by
      rw [step5PunctCap, if_pos hc]]
    rfl
  | case2 a b t hc ih =>
    simp only [List.cons_append] at ih ⊢
    rw [show step5PunctCap (a :: b :: (t ++ m)) = a :: step5PunctCap (b :: (t ++ m)) from by
      rw [step5PunctCap, if_neg hc]]
    rw [ih, show step5PunctCap (a :: b :: t) = a :: step5PunctCap (b :: t) from by
      rw [step5PunctCap, if_neg hc]]
    rw [List.cons_append]
  | case3 l hl =>
    cases l with
    | nil => rfl
    | cons a t =>
      cases t with
      | cons b r => exact (hl a b r rfl).elim
      | nil =>
        cases m with
        | nil => simp [step5PunctCap]
        | cons c t' =>
          have hc : isUC c = false := hm c rfl
          rw [show [a] ++ c :: t' = a :: c :: t' from rfl]
          rw [show step5PunctCap (a :: c :: t') = a :: step5PunctCap (c :: t') from by
            rw [step5PunctCap, if_neg (by simp [hc])]]
          rfl

theorem step5_tok (x : List Char) (hx : ∀ c ∈ x, isPunct5 c = false) (r : List Char) :
    step5PunctCap (x ++ r) = x ++ step5PunctCap r := by
  induction x with
  | nil => rfl
  | cons c x' ih =>
    have hc : isPunct5 c = false := hx c (by simp)
    cases hxy : x' ++ r with
    | nil =>
      rcases List.append_eq_nil.mp hxy with ⟨rfl, rfl⟩
      rfl
    | cons d y =>
      rw [show (c :: x') ++ r = c :: (x' ++ r) from rfl, hxy]
      rw [show step5PunctCap (c :: d :: y) = c :: step5PunctCap (d :: y) from by
        rw [step5PunctCap, if_neg (by simp [hc])]]
      rw [← hxy, ih (fun d' hd' => hx d' (by simp [hd']))]
      rfl

theorem step6_append (x m : List Char) (hm : ∀ c, m.head? = some c → isUC c = false) :
    step6LowerUpper (x ++ m) = step6LowerUpper x ++ step6LowerUpper m := by
  induction x using step6LowerUpper.induct with
  | case1 a b t hc ih =>
    rw [show (a :: b :: t) ++ m = a :: b :: (t ++ m) from rfl]
    rw [show step6LowerUpper (a :: b :: (t ++ m)) = a :: ' ' :: b :: step6LowerUpper (t ++ m)
      from by rw [step6LowerUpper, if_pos hc]]
    rw [ih, show step6LowerUpper (a :: b :: t) = a :: ' ' :: b :: step6LowerUpper t from by
      rw [step6LowerUpper, if_pos hc]]
    rfl
  | case2 a b t hc ih =>
    simp only [List.cons_append] at ih ⊢
    rw [show step6LowerUpper (a :: b :: (t ++ m)) = a :: step6LowerUpper (b :: (t ++ m)) from by
      rw [step6LowerUpper, if_neg hc]]
    rw [ih, show step6LowerUpper (a :: b :: t) = a :: step6LowerUpper (b :: t) from by
      rw [step6LowerUpper, if_neg hc]]
    rw [List.cons_append]
  | case3 l hl =>
    cases l with
    | nil => rfl
    | cons a t =>
      cases t with
      | cons b r => exact (hl a b r rfl).elim
      | nil =>
        cases m with
        | nil => simp [step6LowerUpper]
        | cons c t' =>
          have hc : isUC c = false := hm c rfl
          rw [show [a] ++ c :: t' = a :: c :: t' from rfl]
          rw [show step6LowerUpper (a :: c :: t') = a :: step6LowerUpper (c :: t') from by
            rw [step6LowerUpper, if_neg (by simp [hc])]]
          rfl

theorem step6_tok (x : List Char) (hx : ∀ c ∈ x, isLC c = false) (r : List Char) :
    step6LowerUpper (x ++ r) = x ++ step6LowerUpper r := by
  induction x with
  | nil => rfl
  | cons c x' ih =>
    have hc : isLC c = false := hx c (by simp)
    cases hxy : x' ++ r with
    | nil =>
      rcases List.append_eq_nil.mp hxy with ⟨rfl, rfl⟩
      rfl
    | cons d y =>
      rw [show (c :: x') ++ r = c :: (x' ++ r) from rfl, hxy]
      rw [show step6LowerUpper (c :: d :: y) = c :: step6LowerUpper (d :: y) from by
        rw [step6LowerUpper, if_neg (by simp [hc])]]
      rw [← hxy, ih (fun d' hd' => hx d' (by simp [hd']))]
      rfl

theorem step7a_cons_eq (p : Option Char) (c : Char) (t : List Char)
    (hne : c = 'u' → ∀ d r, t = 'l' :: d :: r → False) :
    step7aUl p (c :: t) = c :: step7aUl (some c) t := by
  rw [step7aUl.eq_def]
  split
  · rename_i c1 t1 heq
    injection heq with h1 h2
    exact (hne h1 c1 t1 h2).elim
  · rename_i c1 t1 heq
    injection heq with h1 h2
    subst h1; subst h2
    rfl
  · rename_i heq
    cases heq

theorem step7a_window (p : Option Char) (d : Char) (t : List Char) :
    step7aUl p ('u' :: 'l' :: d :: t) =
      if (!prevWord p && isUC d) = true then 'u' :: 'l' :: ' ' :: d :: step7aUl (some d) t
      else 'u' :: step7aUl (some 'u') ('l' :: d :: t) := rfl

theorem step7a_append (prev : Option Char) (x : List Char) : ∀ (m : List Char),
    (∀ c, m.head? = some c → isUC c = false ∧ c ≠ 'l' ∧ c ≠ 'u') →
    step7aUl prev (x ++ m) = step7aUl prev x ++ step7aUl (lastOr prev x) m := by
  induction prev, x using step7aUl.induct with
  | case1 prev d t hcond ih =>
    intro m hm
    rw [show ('u' :: 'l' :: d :: t) ++ m = 'u' :: 'l' :: d :: (t ++ m) from rfl,
      step7a_window, if_pos hcond, ih m hm, step7a_window, if_pos hcond]
    simp only [lastOr_cons, List.cons_append]
  | case2 prev d t hcond ih =>
    intro m hm
    rw [show ('u' :: 'l' :: d :: t) ++ m = 'u' :: 'l' :: d :: (t ++ m) from rfl,
      step7a_window, if_neg hcond,
      show ('l' :: d :: (t ++ m) : List Char) = ('l' :: d :: t) ++ m from rfl, ih m hm,
      step7a_window, if_neg hcond]
    simp only [lastOr_cons, List.cons_append]
  | case3 prev c t hcond ih =>
    intro m hm
    by_cases hcu : c = 'u'
    · subst hcu
      cases t with
      | nil =>
        cases m with
        | nil =>
          have hz : step7aUl (lastOr prev ['u']) [] = [] := rfl
          simp [hz]
        | cons m0 mt =>
          have hm0 := hm m0 rfl
          rw [show (['u'] : List Char) ++ m0 :: mt = 'u' :: m0 :: mt from rfl,
            step7a_cons_eq prev 'u' (m0 :: mt) (fun _ d r h => by
              injection h with h1 _
              exact hm0.2.1 h1)]
          rfl
      | cons e t' =>
        by_cases hel : e = 'l'
        · subst hel
          cases t' with
          | nil =>
            cases m with
            | nil =>
              rw [List.append_nil, show step7aUl (lastOr prev ['u', 'l']) [] = [] from rfl,
                List.append_nil]
            | cons m0 mt =>
              have hm0 := hm m0 rfl
              rw [show (['u', 'l'] : List Char) ++ m0 :: mt = 'u' :: 'l' :: m0 :: mt from rfl,
                step7a_window, if_neg (by simp [hm0.1]),
                step7a_cons_eq (some 'u') 'l' (m0 :: mt) (fun h => absurd h (by decide))]
              rfl
          | cons d r => exact (hcond d r rfl rfl).elim
        · have hne2 : ('u' : Char) = 'u' → ∀ d r, (e :: t') ++ m = 'l' :: d :: r → False := by
            intro _ d r h
            rw [List.cons_append] at h
            injection h with h1 _
            exact hel h1
          rw [show ('u' :: e :: t') ++ m = 'u' :: ((e :: t') ++ m) from rfl,
            step7a_cons_eq prev 'u' ((e :: t') ++ m) hne2, ih m hm,
            step7a_cons_eq prev 'u' (e :: t') (fun _ d r h => by
              injection h with h1 _
              exact hel h1)]
          simp only [lastOr_cons, List.cons_append]
    · have hne2 : c = 'u' → ∀ d r, t ++ m = 'l' :: d :: r → False := fun hc => absurd hc hcu
      rw [show (c :: t) ++ m = c :: (t ++ m) from rfl,
        step7a_cons_eq prev c (t ++ m) hne2, ih m hm,
        step7a_cons_eq prev c t (fun hc => absurd hc hcu), lastOr_cons]
      simp only [List.cons_append]
  | case4 prev =>
    intro m hm
    rfl

theorem step7a_tok (x : List Char) (hx : ∀ c ∈ x, c ≠ 'u') :
    ∀ (p : Option Char) (r : List Char),
      step7aUl p (x ++ r) = x ++ step7aUl (lastOr p x) r := by
  induction x with
  | nil => intro p r; rfl
  | cons c x' ih =>
    intro p r
    have hc : c ≠ 'u' := hx c (by simp)
    rw [show (c :: x') ++ r = c :: (x' ++ r) from rfl,
      step7a_cons_eq p c (x' ++ r) (fun h => absurd h hc),
      ih (fun d hd => hx d (by simp [hd])) (some c) r, lastOr_cons]
    rfl

theorem step7a_nonword_congr (p1 p2 : Option Char) (h1 : prevWord p1 = false)
    (h2 : prevWord p2 = false) (l : List Char) : step7aUl p1 l = step7aUl p2 l := by
  cases l with
  | nil => rfl
  | cons c t =>
    by_cases hshape : c = 'u' ∧ ∃ d r, t = 'l' :: d :: r
    · obtain ⟨rfl, d, r, rfl⟩ := hshape
      rw [step7a_window, step7a_window, h1, h2]
    · have hne : c = 'u' → ∀ d r, t = 'l' :: d :: r → False :=
        fun hc d r ht => hshape ⟨hc, d, r, ht⟩
      rw [step7a_cons_eq p1 c t hne, step7a_cons_eq p2 c t hne]

theorem step7b_cons_eq (p : Option Char) (c : Char) (t : List Char)
    (hne : c = 's' → ∀ d r, t = 'ă' :: d :: r → False) :
    step7bSa p (c :: t) = c :: step7bSa (some c) t := by
  rw [step7bSa.eq_def]
  split
  · rename_i c1 t1 heq
    injection heq with h1 h2
    exact (hne h1 c1 t1 h2).elim
  · rename_i c1 t1 heq
    injection heq with h1 h2
    subst h1; subst h2
    rfl
  · rename_i heq
    cases heq

theorem step7b_window (p : Option Char) (d : Char) (t : List Char) :
    step7bSa p ('s' :: 'ă' :: d :: t) =
      if (!prevWord p && (decide (d = 'î') || decide (d = 'i'))) = true then
        's' :: 'ă' :: ' ' :: d :: step7bSa (some d) t
      else 's' :: step7bSa (some 's') ('ă' :: d :: t) := rfl

theorem step7b_append (prev : Option Char) (x : List Char) : ∀ (m : List Char),
    (∀ c, m.head? = some c → c ≠ 'ă' ∧ c ≠ 'î' ∧ c ≠ 'i') →
    step7bSa prev (x ++ m) = step7bSa prev x ++ step7bSa (lastOr prev x) m := by
  induction prev, x using step7bSa.induct with
  | case1 prev d t hcond ih =>
    intro m hm
    rw [show ('s' :: 'ă' :: d :: t) ++ m = 's' :: 'ă' :: d :: (t ++ m) from rfl,
      step7b_window, if_pos hcond, ih m hm, step7b_window, if_pos hcond]
    simp only [lastOr_cons, List.cons_append]
  | case2 prev d t hcond ih =>
    intro m hm
    rw [show ('s' :: 'ă' :: d :: t) ++ m = 's' :: 'ă' :: d :: (t ++ m) from rfl,
      step7b_window, if_neg hcond,
      show ('ă' :: d :: (t ++ m) : List Char) = ('ă' :: d :: t) ++ m from rfl, ih m hm,
      step7b_window, if_neg hcond]
    simp only [lastOr_cons, List.cons_append]
  | case3 prev c t hcond ih =>
    intro m hm
    by_cases hcs : c = 's'
    · subst hcs
      cases t with
      | nil =>
        cases m with
        | nil =>
          have hz : step7bSa (lastOr prev ['s']) [] = [] := rfl
          simp [hz]
        | cons m0 mt =>
          have hm0 := hm m0 rfl
          rw [show (['s'] : List Char) ++ m0 :: mt = 's' :: m0 :: mt from rfl,
            step7b_cons_eq prev 's' (m0 :: mt) (fun _ d r h => by
              injection h with h1 _
              exact hm0.1 h1)]
          rfl
      | cons e t' =>
        by_cases hea : e = 'ă'
        · subst hea
          cases t' with
          | nil =>
            cases m with
            | nil =>
              rw [List.append_nil, show step7bSa (lastOr prev ['s', 'ă']) [] = [] from rfl,
                List.append_nil]
            | cons m0 mt =>
              have hm0 := hm m0 rfl
              rw [show (['s', 'ă'] : List Char) ++ m0 :: mt = 's' :: 'ă' :: m0 :: mt from rfl,
                step7b_window, if_neg (by
                  simp only [Bool.and_eq_true, Bool.or_eq_true, decide_eq_true_eq, not_and]
                  intro _
                  rintro (h | h)
                  · exact hm0.2.1 h
                  · exact hm0.2.2 h),
                step7b_cons_eq (some 's') 'ă' (m0 :: mt) (fun h => absurd h (by decide))]
              rfl
          | cons d r => exact (hcond d r rfl rfl).elim
        · have hne2 : ('s' : Char) = 's' → ∀ d r, (e :: t') ++ m = 'ă' :: d :: r → False := by
            intro _ d r h
            rw [List.cons_append] at h
            injection h with h1 _
            exact hea h1
          rw [show ('s' :: e :: t') ++ m = 's' :: ((e :: t') ++ m) from rfl,
            step7b_cons_eq prev 's' ((e :: t') ++ m) hne2, ih m hm,
            step7b_cons_eq prev 's' (e :: t') (fun _ d r h => by
              injection h with h1 _
              exact hea h1)]
          simp only [lastOr_cons, List.cons_append]
    · have hne2 : c = 's' → ∀ d r, t ++ m = 'ă' :: d :: r → False := fun hc => absurd hc hcs
      rw [show (c :: t) ++ m = c :: (t ++ m) from rfl,
        step7b_cons_eq prev c (t ++ m) hne2, ih m hm,
        step7b_cons_eq prev c t (fun hc => absurd hc hcs), lastOr_cons]
      simp only [List.cons_append]
  | case4 prev =>
    intro m hm
    rfl

theorem step7b_tok (x : List Char) (hx : ∀ c ∈ x, c ≠ 's') :
    ∀ (p : Option Char) (r : List Char),
      step7bSa p (x ++ r) = x ++ step7bSa (lastOr p x) r := by
  induction x with
  | nil => intro p r; rfl
  | cons c x' ih =>
    intro p r
    have hc : c ≠ 's' := hx c (by simp)
    rw [show (c :: x') ++ r = c :: (x' ++ r) from rfl,
      step7b_cons_eq p c (x' ++ r) (fun h => absurd h hc),
      ih (fun d hd => hx d (by simp [hd])) (some c) r, lastOr_cons]
    rfl

theorem step7b_nonword_congr (p1 p2 : Option Char) (h1 : prevWord p1 = false)
    (h2 : prevWord p2 = false) (l : List Char) : step7bSa p1 l = step7bSa p2 l := by
  cases l with
  | nil => rfl
  | cons c t =>
    by_cases hshape : c = 's' ∧ ∃ d r, t = 'ă' :: d :: r
    · obtain ⟨rfl, d, r, rfl⟩ := hshape
      rw [step7b_window, step7b_window, h1, h2]
    · have hne : c = 's' → ∀ d r, t = 'ă' :: d :: r → False :=
        fun hc d r ht => hshape ⟨hc, d, r, ht⟩
      rw [step7b_cons_eq p1 c t hne, step7b_cons_eq p2 c t hne]

theorem paraPH_expand :
    paraPH = ['<', '<', '<', '_', '_', 'P', 'A', 'R', 'A', '_', '_', '>', '>', '>'] := rfl

theorem step8_cons_noPara (c : Char) (t : List Char)
    (h : paraPH.isPrefixOf (c :: t) = false) :
    step8RestorePara (c :: t) = c :: step8RestorePara t := by
  rw [step8RestorePara.eq_def]
  split
  · rename_i a1 a2 a3 a4 a5 a6 a7 a8 a9 a10 a11 a12 a13 a14 t' heq
    injection heq with h1 h2
    subst h1
    subst h2
    by_cases hg : (c = '<' && a2 = '<' && a3 = '<' && a4 = '_' && a5 = '_' && a6 = 'P' &&
        a7 = 'A' && a8 = 'R' && a9 = 'A' && a10 = '_' && a11 = '_' && a12 = '>' && a13 = '>' &&
        a14 = '>') = true
    · exfalso
      simp only [Bool.and_eq_true, decide_eq_true_eq] at hg
      obtain ⟨⟨⟨⟨⟨⟨⟨⟨⟨⟨⟨⟨⟨hg1, hg2⟩, hg3⟩, hg4⟩, hg5⟩, hg6⟩, hg7⟩, hg8⟩, hg9⟩, hg10⟩, hg11⟩, hg12⟩, hg13⟩, hg14⟩ := hg
      subst hg1
      subst hg2
      subst hg3
      subst hg4
      subst hg5
      subst hg6
      subst hg7
      subst hg8
      subst hg9
      subst hg10
      subst hg11
      subst hg12
      subst hg13
      subst hg14
      have hpre : paraPH.isPrefixOf
          ('<' :: '<' :: '<' :: '_' :: '_' :: 'P' :: 'A' :: 'R' :: 'A' :: '_' :: '_' ::
            '>' :: '>' :: '>' :: t') = true := by
        rw [paraPH_expand]
        simp [List.isPrefixOf]
      rw [hpre] at h
      exact Bool.noConfusion h
    · rw [if_neg hg]
  · rename_i c1 t1 heq
    injection heq with h1 h2
    subst h1
    subst h2
    rfl
  · rename_i heq
    cases heq

theorem step8_cons_ne (c : Char) (t : List Char) (hc : c ≠ '<') :
    step8RestorePara (c :: t) = c :: step8RestorePara t := by
  refine step8_cons_noPara c t ?_
  cases hb : paraPH.isPrefixOf (c :: t)
  · rfl
  · exfalso
    rw [paraPH_expand] at hb
    simp only [List.isPrefixOf, Bool.and_eq_true, beq_iff_eq] at hb
    exact hc hb.1.symm

theorem step8_seg (w : List Char) (hw : '<' ∉ w) : ∀ (m : List Char),
    step8RestorePara (w ++ m) = w ++ step8RestorePara m := by
  induction w with
  | nil => intro m; rfl
  | cons c w' ih =>
    intro m
    rw [show (c :: w') ++ m = c :: (w' ++ m) from rfl,
      step8_cons_ne c (w' ++ m) (fun h => hw (by simp [h])),
      ih (fun h => hw (by simp [h])) m]
    rfl

theorem step8_para (m : List Char) :
    step8RestorePara (paraPH ++ m) = '\n' :: '\n' :: step8RestorePara m := rfl

theorem step8_url (k : Nat) (m : List Char) :
    step8RestorePara (urlPH k ++ m) = urlPH k ++ step8RestorePara m := by
  have hd : '<' ∉ Nat.toDigits 10 k ++ ('>' :: '>' :: '>' :: []) := by
    intro hmem
    rcases List.mem_append.mp hmem with hmem | hmem
    · exact (digit_ne '<' (toDigits_digits k '<' hmem)).2.2.2.2.1 rfl
    · simp at hmem
  have h1 : urlPH k ++ m =
      '<' :: '<' :: '<' :: 'U' :: 'R' :: 'L' :: '_' ::
        ((Nat.toDigits 10 k ++ ('>' :: '>' :: '>' :: [])) ++ m) := by
    simp [urlPH]
  rw [h1]
  rw [step8_cons_noPara _ _ (by rfl), step8_cons_noPara _ _ (by rfl),
    step8_cons_noPara _ _ (by rfl), step8_cons_ne _ _ (by decide),
    step8_cons_ne _ _ (by decide), step8_cons_ne _ _ (by decide),
    step8_cons_ne _ _ (by decide), step8_seg _ hd m]
  simp [urlPH]

theorem s9aGo_cons (pend : Bool) (c : Char) (t : List Char) :
    step9aSpacesGo pend (c :: t) =
      if (c = ' ' || c = '\t') = true then step9aSpacesGo true t
      else spFlush pend ++ c :: step9aSpacesGo false t := rfl

theorem s9aGo_append (x : List Char) : ∀ (pend : Bool) (m : List Char),
    (∀ c, m.head? = some c → (c = ' ' || c = '\t') = false) →
    step9aSpacesGo pend (x ++ m) = step9aSpacesGo pend x ++ step9aSpacesGo false m := by
  induction x with
  | nil =>
    intro pend m hm
    cases m with
    | nil => cases pend <;> simp [step9aSpacesGo, spFlush]
    | cons c t =>
      have hc := hm c rfl
      rw [show ([] : List Char) ++ c :: t = c :: t from rfl, s9aGo_cons, if_neg (by simp [hc]),
        show step9aSpacesGo pend [] = spFlush pend from rfl, s9aGo_cons,
        if_neg (by simp [hc])]
      simp [spFlush]
  | cons c x' ih =>
    intro pend m hm
    by_cases hc : (c = ' ' || c = '\t') = true
    · rw [show (c :: x') ++ m = c :: (x' ++ m) from rfl, s9aGo_cons, if_pos hc,
        ih true m hm, s9aGo_cons, if_pos hc]
    · rw [show (c :: x') ++ m = c :: (x' ++ m) from rfl, s9aGo_cons, if_neg hc,
        ih false m hm, s9aGo_cons, if_neg hc]
      simp

theorem s9aGo_tok (x : List Char) (hx : ∀ c ∈ x, (c = ' ' || c = '\t') = false)
    (r : List Char) : step9aSpacesGo false (x ++ r) = x ++ step9aSpacesGo false r := by
  induction x with
  | nil => rfl
  | cons c x' ih =>
    rw [show (c :: x') ++ r = c :: (x' ++ r) from rfl, s9aGo_cons,
      if_neg (by simp [hx c (by simp)]), ih (fun d hd => hx d (by simp [hd]))]
    rfl

theorem s9bGo_cons (run : List Char) (c : Char) (t : List Char) :
    step9bBlankGo run (c :: t) =
      if isWS c = true then step9bBlankGo (run ++ [c]) t
      else wsRunFlush run ++ c :: step9bBlankGo [] t := rfl

theorem s9bGo_append (x : List Char) : ∀ (run m : List Char),
    (∀ c, m.head? = some c → isWS c = false) →
    step9bBlankGo run (x ++ m) = step9bBlankGo run x ++ step9bBlankGo [] m := by
  induction x with
  | nil =>
    intro run m hm
    cases m with
    | nil => simp [step9bBlankGo, wsRunFlush]
    | cons c t =>
      have hc := hm c rfl
      rw [show ([] : List Char) ++ c :: t = c :: t from rfl, s9bGo_cons, if_neg (by simp [hc]),
        show step9bBlankGo run [] = wsRunFlush run from rfl, s9bGo_cons,
        if_neg (by simp [hc])]
      simp [wsRunFlush]
  | cons c x' ih =>
    intro run m hm
    by_cases hc : isWS c = true
    · rw [show (c :: x') ++ m = c :: (x' ++ m) from rfl, s9bGo_cons, if_pos hc,
        ih (run ++ [c]) m hm, s9bGo_cons, if_pos hc]
    · rw [show (c :: x') ++ m = c :: (x' ++ m) from rfl, s9bGo_cons, if_neg hc,
        ih [] m hm, s9bGo_cons, if_neg hc]
      simp

theorem s9bGo_tok (x : List Char) (hx : ∀ c ∈ x, isWS c = false) (r : List Char) :
    step9bBlankGo [] (x ++ r) = x ++ step9bBlankGo [] r := by
  induction x with
  | nil => rfl
  | cons c x' ih =>
    rw [show (c :: x') ++ r = c :: (x' ++ r) from rfl, s9bGo_cons,
      if_neg (by simp [hx c (by simp)]), ih (fun d hd => hx d (by simp [hd]))]
    rfl

theorem s10aGo_append (x : List Char) : ∀ (acc m : List Char),
    (∀ c, m.head? = some c → isWS c = false ∧ isPunct10 c = false) →
    step10aGo acc (x ++ m) = step10aGo acc x ++ step10aGo [] m := by
  induction x with
  | nil =>
    intro acc m hm
    cases m with
    | nil => simp [step10aGo]
    | cons c t =>
      obtain ⟨hw, hp⟩ := hm c rfl
      have hL : step10aGo acc (c :: t) = acc ++ c :: step10aGo [] t := by
        rw [step10aGo, if_neg (by simp [hw]), if_neg (by simp [hp])]
      have hR : step10aGo [] (c :: t) = c :: step10aGo [] t := by
        rw [step10aGo, if_neg (by simp [hw]), if_neg (by simp [hp])]
        rfl
      rw [show ([] : List Char) ++ c :: t = c :: t from rfl, hL,
        show step10aGo acc [] = acc from rfl, hR]
  | cons c x' ih =>
    intro acc m hm
    by_cases hw : isWS c = true
    · rw [show (c :: x') ++ m = c :: (x' ++ m) from rfl, step10aGo, if_pos hw,
        ih (acc ++ [c]) m hm]
      conv_rhs => rw [step10aGo, if_pos hw]
    · by_cases hp : isPunct10 c = true
      · rw [show (c :: x') ++ m = c :: (x' ++ m) from rfl, step10aGo, if_neg hw, if_pos hp,
          ih [] m hm]
        conv_rhs => rw [step10aGo, if_neg hw, if_pos hp]
        rfl
      · rw [show (c :: x') ++ m = c :: (x' ++ m) from rfl, step10aGo, if_neg hw, if_neg hp,
          ih [] m hm]
        conv_rhs => rw [step10aGo, if_neg hw, if_neg hp]
        simp

theorem s10aGo_tok (x : List Char) (hx : ∀ c ∈ x, isWS c = false ∧ isPunct10 c = false)
    (r : List Char) : step10aGo [] (x ++ r) = x ++ step10aGo [] r := by
  induction x with
  | nil => rfl
  | cons c x' ih =>
    obtain ⟨hw, hp⟩ := hx c (by simp)
    rw [show (c :: x') ++ r = c :: (x' ++ r) from rfl, step10aGo, if_neg (by simp [hw]),
      if_neg (by simp [hp]), ih (fun d hd => hx d (by simp [hd]))]
    rfl

theorem s10bGo_append (x : List Char) : ∀ (st : Option (Char × List Char)) (m : List Char),
    (∀ c, m.head? = some c → isWS c = false ∧ isLetter10 c = false ∧ isPunct10 c = false) →
    step10bGo st (x ++ m) = step10bGo st x ++ step10bGo none m := by
  induction x with
  | nil =>
    intro st m hm
    cases st with
    | none =>
      cases m with
      | nil => rfl
      | cons c t =>
        obtain ⟨hw, hl, hp⟩ := hm c rfl
        rw [show ([] : List Char) ++ c :: t = c :: t from rfl]
        conv_rhs => rw [show step10bGo none [] = ([] : List Char) from rfl]
        rfl
    | some pa =>
      cases pa with
      | mk p acc =>
        cases m with
        | nil => simp [step10bGo]
        | cons c t =>
          obtain ⟨hw, hl, hp⟩ := hm c rfl
          have hL : step10bGo (some (p, acc)) (c :: t) = p :: acc ++ c :: step10bGo none t := by
            rw [step10bGo, if_neg (by simp [hw]), if_neg (by simp [hl]), if_neg (by simp [hp])]
          have hR : step10bGo none (c :: t) = c :: step10bGo none t := by
            rw [step10bGo, if_neg (by simp [hp])]
          rw [show ([] : List Char) ++ c :: t = c :: t from rfl, hL,
            show step10bGo (some (p, acc)) [] = p :: acc from rfl, hR]
  | cons c x' ih =>
    intro st m hm
    cases st with
    | none =>
      by_cases hp : isPunct10 c = true
      · rw [show (c :: x') ++ m = c :: (x' ++ m) from rfl, step10bGo, if_pos hp,
          ih (some (c, [])) m hm]
        conv_rhs => rw [step10bGo, if_pos hp]
      · rw [show (c :: x') ++ m = c :: (x' ++ m) from rfl, step10bGo, if_neg hp,
          ih none m hm]
        conv_rhs => rw [step10bGo, if_neg hp]
        rfl
    | some pa =>
      cases pa with
      | mk p acc =>
        by_cases hw : isWS c = true
        · rw [show (c :: x') ++ m = c :: (x' ++ m) from rfl, step10bGo, if_pos hw,
            ih (some (p, acc ++ [c])) m hm]
          conv_rhs => rw [step10bGo, if_pos hw]
        · by_cases hl : isLetter10 c = true
          · rw [show (c :: x') ++ m = c :: (x' ++ m) from rfl, step10bGo, if_neg hw,
              if_pos hl, ih none m hm]
            conv_rhs => rw [step10bGo, if_neg hw, if_pos hl]
            rfl
          · by_cases hp : isPunct10 c = true
            · rw [show (c :: x') ++ m = c :: (x' ++ m) from rfl, step10bGo, if_neg hw,
                if_neg hl, if_pos hp, ih (some (c, [])) m hm]
              conv_rhs => rw [step10bGo, if_neg hw, if_neg hl, if_pos hp]
              simp
            · rw [show (c :: x') ++ m = c :: (x' ++ m) from rfl, step10bGo, if_neg hw,
                if_neg hl, if_neg hp, ih none m hm]
              conv_rhs => rw [step10bGo, if_neg hw, if_neg hl, if_neg hp]
              simp

theorem s10bGo_tok (x : List Char) (hx : ∀ c ∈ x, isPunct10 c = false) (r : List Char) :
    step10bGo none (x ++ r) = x ++ step10bGo none r := by
  induction x with
  | nil => rfl
  | cons c x' ih =>
    rw [show (c :: x') ++ r = c :: (x' ++ r) from rfl, step10bGo,
      if_neg (by simp [hx c (by simp)]), ih (fun d hd => hx d (by simp [hd]))]
    rfl


/-! ## W5: per-step preservation of the placeholder/segment interleaving -/

theorem mtok_chars (o : Option Nat) (c : Char) (hc : c ∈ mtok o) :
    c = '<' ∨ c = '>' ∨ c = 'U' ∨ c = 'R' ∨ c = 'L' ∨ c = 'P' ∨ c = 'A' ∨ c = '_' ∨
      isDigitC c = true := by
  cases o with
  | none =>
    have hc' : c ∈ ['<', '<', '<', '_', '_', 'P', 'A', 'R', 'A', '_', '_', '>', '>', '>'] := by
      simpa [mtok, paraPH_expand] using hc
    simp only [List.mem_cons, List.not_mem_nil, or_false] at hc'
    tauto
  | some n =>
    rcases urlPH_chars n c hc with h | h | h | h | h | h | h <;> tauto

/-- Every token character is inert for every intermediate cleaning step. -/
theorem mtok_cond (o : Option Nat) (c : Char) (hc : c ∈ mtok o) :
    c ≠ '-' ∧ c ≠ '\n' ∧ isPunct5 c = false ∧ isLC c = false ∧ c ≠ 'u' ∧ c ≠ 's' ∧
      (c = ' ' || c = '\t') = false ∧ isWS c = false ∧ isPunct10 c = false := by
  rcases mtok_chars o c hc with h | h | h | h | h | h | h | h | h
  · subst h; refine ⟨by decide, by decide, by decide, by decide, by decide, by decide,
      by decide, by decide, by decide⟩
  · subst h; refine ⟨by decide, by decide, by decide, by decide, by decide, by decide,
      by decide, by decide, by decide⟩
  · subst h; refine ⟨by decide, by decide, by decide, by decide, by decide, by decide,
      by decide, by decide, by decide⟩
  · subst h; refine ⟨by decide, by decide, by decide, by decide, by decide, by decide,
      by decide, by decide, by decide⟩
  · subst h; refine ⟨by decide, by decide, by decide, by decide, by decide, by decide,
      by decide, by decide, by decide⟩
  · subst h; refine ⟨by decide, by decide, by decide, by decide, by decide, by decide,
      by decide, by decide, by decide⟩
  · subst h; refine ⟨by decide, by decide, by decide, by decide, by decide, by decide,
      by decide, by decide, by decide⟩
  · subst h; refine ⟨by decide, by decide, by decide, by decide, by decide, by decide,
      by decide, by decide, by decide⟩
  · obtain ⟨d1, d2, d3, d4, d5, d6, d7, _, _, _, _⟩ := digit_ne c h
    exact ⟨d1, d2, digit_not_punct5 c h, digit_not_lc c h, d3, d4,
      by simp [d6, d7], digit_not_ws c h, digit_not_punct10 c h⟩

theorem mtok_head (o : Option Nat) : ∃ r, mtok o = '<' :: r := by
  cases o with
  | none => exact ⟨['<', '<', '_', '_', 'P', 'A', 'R', 'A', '_', '_', '>', '>', '>'], rfl⟩
  | some n => exact urlPH_head n

theorem mtok_append_head (o : Option Nat) (r : List Char) :
    (mtok o ++ r).head? = some '<' := by
  obtain ⟨q, hq⟩ := mtok_head o
  rw [hq]
  rfl

theorem mtok_lastOr (p : Option Char) (o : Option Nat) : lastOr p (mtok o) = some '>' := by
  cases o with
  | none => rfl
  | some n =>
    show lastOr p (urlPH n) = some '>'
    unfold lastOr
    rw [urlPH_getLast]

theorem mweave_absorb (x b : List Char) (ps : List (Option Nat × List Char)) :
    x ++ mweave b ps = mweave (x ++ b) ps := by
  cases ps with
  | nil => rfl
  | cons p ps =>
    obtain ⟨o, s⟩ := p
    simp [mweave, List.append_assoc]

theorem mweave_append (qs : List (Option Nat × List Char)) :
    ∀ (a : List Char) (o : Option Nat) (b : List Char)
      (ps : List (Option Nat × List Char)),
    mweave a qs ++ (mtok o ++ mweave b ps) = mweave a (qs ++ (o, b) :: ps) := by
  induction qs with
  | nil =>
    intro a o b ps
    show a ++ (mtok o ++ mweave b ps) = a ++ mtok o ++ mweave b ps
    rw [List.append_assoc]
  | cons q qs ih =>
    intro a o b ps
    obtain ⟨o1, s1⟩ := q
    show a ++ mtok o1 ++ mweave s1 qs ++ (mtok o ++ mweave b ps) =
      a ++ mtok o1 ++ mweave s1 (qs ++ (o, b) :: ps)
    rw [List.append_assoc (a ++ mtok o1), ih s1 o b ps]

theorem mem_of_mem_takeWhile (p : Char → Bool) (l : List Char) (c : Char)
    (h : c ∈ l.takeWhile p) : c ∈ l :=
  List.Sublist.mem h (List.takeWhile_sublist p)

theorem mem_step2 (l : List Char) (c : Char) : c ∈ step2Hyphen l → c ∈ l := by
  induction l with
  | nil => intro h; simp [step2Hyphen] at h
  | cons d t ih =>
    intro h
    by_cases hd : d = '-'
    · subst hd
      cases hli : lastIdxOf '\n' (t.takeWhile isWS) with
      | some j =>
        rw [step2Hyphen, if_pos rfl, hli] at h
        exact List.mem_cons_of_mem _ (ih (List.mem_of_mem_drop h))
      | none =>
        rw [step2Hyphen, if_pos rfl, hli] at h
        rcases List.mem_cons.mp h with rfl | h
        · exact List.mem_cons_self _ _
        · exact List.mem_cons_of_mem _ (ih h)
    · rw [step2Hyphen, if_neg hd] at h
      rcases List.mem_cons.mp h with rfl | h
      · exact List.mem_cons_self _ _
      · exact List.mem_cons_of_mem _ (ih h)

theorem mem_step4 (l : List Char) (c : Char) : c ∈ step4Newline l → c ∈ l ∨ c = ' ' := by
  induction l with
  | nil => intro h; simp [step4Newline] at h
  | cons d t ih =>
    intro h
    rw [step4Newline] at h
    rcases List.mem_cons.mp h with rfl | h
    · by_cases hd : d = '\n'
      · right; rw [if_pos hd]
      · left; rw [if_neg hd]; exact List.mem_cons_self _ _
    · rcases ih h with h' | h'
      · exact Or.inl (List.mem_cons_of_mem _ h')
      · exact Or.inr h'

theorem step4_id_of_no_nl (x : List Char) (hx : '\n' ∉ x) : step4Newline x = x := by
  induction x with
  | nil => rfl
  | cons c t ih =>
    rw [step4Newline, if_neg (fun h => hx (by simp [h])), ih (fun h => hx (by simp [h]))]

theorem step4_tok (x : List Char) (hx : '\n' ∉ x) (r : List Char) :
    step4Newline (x ++ r) = x ++ step4Newline r := by
  rw [step4_append, step4_id_of_no_nl x hx]

theorem mem_step7a (prev : Option Char) (l : List Char) (c : Char) :
    c ∈ step7aUl prev l → c ∈ l ∨ c = ' ' := by
  induction prev, l using step7aUl.induct with
  | case1 prev d t hc ih =>
    intro h
    rw [step7a_window, if_pos hc] at h
    simp only [List.mem_cons] at h
    rcases h with rfl | rfl | rfl | rfl | h
    · left; simp
    · left; simp
    · right; rfl
    · left; simp
    · rcases ih h with h' | h'
      · left; simp [h']
      · right; exact h'
  | case2 prev d t hc ih =>
    intro h
    rw [step7a_window, if_neg hc] at h
    simp only [List.mem_cons] at h
    rcases h with rfl | h
    · left; simp
    · rcases ih h with h' | h'
      · left; exact List.mem_cons_of_mem _ h'
      · right; exact h'
  | case3 prev d t hcond ih =>
    intro h
    rw [step7a_cons_eq prev d t (fun h1 y s h2 => hcond y s h1 h2)] at h
    rcases List.mem_cons.mp h with rfl | h
    · left; exact List.mem_cons_self _ _
    · rcases ih h with h' | h'
      · left; exact List.mem_cons_of_mem _ h'
      · right; exact h'
  | case4 prev => exact fun h => Or.inl h

theorem mem_afterLast (x : Char) (l : List Char) (c : Char) :
    c ∈ afterLast x l → c ∈ l := by
  intro h
  unfold afterLast at h
  rw [List.mem_reverse] at h
  exact List.mem_reverse.mp (mem_of_mem_takeWhile _ _ _ h)

theorem mem_wsRunFlush (run : List Char) (c : Char) :
    c ∈ wsRunFlush run → c ∈ run ∨ c = '\n' := by
  intro h
  unfold wsRunFlush at h
  by_cases h2 : 2 ≤ run.count '\n'
  · rw [if_pos h2] at h
    rcases List.mem_append.mp h with h | h
    · exact Or.inl (mem_of_mem_takeWhile _ _ _ h)
    · rcases List.mem_cons.mp h with rfl | h
      · exact Or.inr rfl
      · rcases List.mem_cons.mp h with rfl | h
        · exact Or.inr rfl
        · exact Or.inl (mem_afterLast '\n' run c h)
  · rw [if_neg h2] at h
    exact Or.inl h

theorem mem_s9bGo (l : List Char) : ∀ (run : List Char) (c : Char),
    c ∈ step9bBlankGo run l → c ∈ run ++ l ∨ c = '\n' := by
  induction l with
  | nil =>
    intro run c h
    rcases mem_wsRunFlush run c h with h' | h'
    · exact Or.inl (by simpa using h')
    · exact Or.inr h'
  | cons d t ih =>
    intro run c h
    by_cases hd : isWS d = true
    · rw [s9bGo_cons, if_pos hd] at h
      rcases ih (run ++ [d]) c h with h' | h'
      · left
        simp only [List.mem_append, List.mem_cons] at h' ⊢
        tauto
      · exact Or.inr h'
    · rw [s9bGo_cons, if_neg hd] at h
      rcases List.mem_append.mp h with h' | h'
      · rcases mem_wsRunFlush run c h' with h'' | h''
        · left; simp only [List.mem_append]; tauto
        · exact Or.inr h''
      · rcases List.mem_cons.mp h' with rfl | h'
        · left; simp
        · rcases ih [] c h' with h'' | h''
          · left
            simp only [List.nil_append] at h''
            simp only [List.mem_append, List.mem_cons]
            tauto
          · exact Or.inr h''

/-- Step 2 acts on each piece of the interleaving separately. -/
theorem mweave_step2 (ps : List (Option Nat × List Char)) : ∀ s0 : List Char,
    step2Hyphen (mweave s0 ps) =
      mweave (step2Hyphen s0) (ps.map (fun p => (p.1, step2Hyphen p.2))) := by
  induction ps with
  | nil => intro s0; rfl
  | cons p ps ih =>
    intro s0
    obtain ⟨o, w⟩ := p
    show step2Hyphen (s0 ++ mtok o ++ mweave w ps) =
      step2Hyphen s0 ++ mtok o ++ mweave (step2Hyphen w) (ps.map (fun p => (p.1, step2Hyphen p.2)))
    rw [List.append_assoc,
      step2_append s0 (mtok o ++ mweave w ps) (fun c hc => by
        rw [mtok_append_head] at hc
        injection hc with hc
        subst hc
        decide),
      step2Hyphen_append_of_no_hyphen (mtok o) (mweave w ps)
        (fun c hcm => (mtok_cond o c hcm).1),
      ih w, List.append_assoc]

/-- Step 4 acts on each piece of the interleaving separately. -/
theorem mweave_step4 (ps : List (Option Nat × List Char)) : ∀ s0 : List Char,
    step4Newline (mweave s0 ps) =
      mweave (step4Newline s0) (ps.map (fun p => (p.1, step4Newline p.2))) := by
  induction ps with
  | nil => intro s0; rfl
  | cons p ps ih =>
    intro s0
    obtain ⟨o, w⟩ := p
    show step4Newline (s0 ++ mtok o ++ mweave w ps) =
      step4Newline s0 ++ mtok o ++ mweave (step4Newline w) (ps.map (fun p => (p.1, step4Newline p.2)))
    rw [List.append_assoc, step4_append s0 (mtok o ++ mweave w ps),
      step4_tok (mtok o) (fun hmem => (mtok_cond o '\n' hmem).2.1 rfl) (mweave w ps),
      ih w, List.append_assoc]

/-- Step 5 acts on each piece of the interleaving separately. -/
theorem mweave_step5 (ps : List (Option Nat × List Char)) : ∀ s0 : List Char,
    step5PunctCap (mweave s0 ps) =
      mweave (step5PunctCap s0) (ps.map (fun p => (p.1, step5PunctCap p.2))) := by
  induction ps with
  | nil => intro s0; rfl
  | cons p ps ih =>
    intro s0
    obtain ⟨o, w⟩ := p
    show step5PunctCap (s0 ++ mtok o ++ mweave w ps) =
      step5PunctCap s0 ++ mtok o ++
        mweave (step5PunctCap w) (ps.map (fun p => (p.1, step5PunctCap p.2)))
    rw [List.append_assoc,
      step5_append s0 (mtok o ++ mweave w ps) (fun c hc => by
        rw [mtok_append_head] at hc
        injection hc with hc
        subst hc
        decide),
      step5_tok (mtok o) (fun c hcm => (mtok_cond o c hcm).2.2.1) (mweave w ps),
      ih w, List.append_assoc]

/-- Step 6 acts on each piece of the interleaving separately. -/
theorem mweave_step6 (ps : List (Option Nat × List Char)) : ∀ s0 : List Char,
    step6LowerUpper (mweave s0 ps) =
      mweave (step6LowerUpper s0) (ps.map (fun p => (p.1, step6LowerUpper p.2))) := by
  induction ps with
  | nil => intro s0; rfl
  | cons p ps ih =>
    intro s0
    obtain ⟨o, w⟩ := p
    show step6LowerUpper (s0 ++ mtok o ++ mweave w ps) =
      step6LowerUpper s0 ++ mtok o ++
        mweave (step6LowerUpper w) (ps.map (fun p => (p.1, step6LowerUpper p.2)))
    rw [List.append_assoc,
      step6_append s0 (mtok o ++ mweave w ps) (fun c hc => by
        rw [mtok_append_head] at hc
        injection hc with hc
        subst hc
        decide),
      step6_tok (mtok o) (fun c hcm => (mtok_cond o c hcm).2.2.2.1) (mweave w ps),
      ih w, List.append_assoc]

/-- Step 7's first replace acts on each piece separately; after a token the
previous-character context is the token's closing bracket. -/
theorem mweave_step7a (ps : List (Option Nat × List Char)) :
    ∀ (prev : Option Char) (s0 : List Char),
    step7aUl prev (mweave s0 ps) =
      mweave (step7aUl prev s0) (ps.map (fun p => (p.1, step7aUl (some '>') p.2))) := by
  induction ps with
  | nil => intro prev s0; rfl
  | cons p ps ih =>
    intro prev s0
    obtain ⟨o, w⟩ := p
    show step7aUl prev (s0 ++ mtok o ++ mweave w ps) =
      step7aUl prev s0 ++ mtok o ++
        mweave (step7aUl (some '>') w) (ps.map (fun p => (p.1, step7aUl (some '>') p.2)))
    rw [List.append_assoc,
      step7a_append prev s0 (mtok o ++ mweave w ps) (fun c hc => by
        rw [mtok_append_head] at hc
        injection hc with hc
        subst hc
        exact ⟨by decide, by decide, by decide⟩),
      step7a_tok (mtok o) (fun c hcm => (mtok_cond o c hcm).2.2.2.2.1)
        (lastOr prev s0) (mweave w ps),
      mtok_lastOr, ih (some '>') w, List.append_assoc]

/-- Step 7's second replace acts on each piece separately. -/
theorem mweave_step7b (ps : List (Option Nat × List Char)) :
    ∀ (prev : Option Char) (s0 : List Char),
    step7bSa prev (mweave s0 ps) =
      mweave (step7bSa prev s0) (ps.map (fun p => (p.1, step7bSa (some '>') p.2))) := by
  induction ps with
  | nil => intro prev s0; rfl
  | cons p ps ih =>
    intro prev s0
    obtain ⟨o, w⟩ := p
    show step7bSa prev (s0 ++ mtok o ++ mweave w ps) =
      step7bSa prev s0 ++ mtok o ++
        mweave (step7bSa (some '>') w) (ps.map (fun p => (p.1, step7bSa (some '>') p.2)))
    rw [List.append_assoc,
      step7b_append prev s0 (mtok o ++ mweave w ps) (fun c hc => by
        rw [mtok_append_head] at hc
        injection hc with hc
        subst hc
        exact ⟨by decide, by decide, by decide⟩),
      step7b_tok (mtok o) (fun c hcm => (mtok_cond o c hcm).2.2.2.2.2.1)
        (lastOr prev s0) (mweave w ps),
      mtok_lastOr, ih (some '>') w, List.append_assoc]

/-- Step 9's first replace acts on each piece separately. -/
theorem mweave_s9a (ps : List (Option Nat × List Char)) :
    ∀ (pend : Bool) (s0 : List Char),
    step9aSpacesGo pend (mweave s0 ps) =
      mweave (step9aSpacesGo pend s0) (ps.map (fun p => (p.1, step9aSpacesGo false p.2))) := by
  induction ps with
  | nil => intro pend s0; rfl
  | cons p ps ih =>
    intro pend s0
    obtain ⟨o, w⟩ := p
    show step9aSpacesGo pend (s0 ++ mtok o ++ mweave w ps) =
      step9aSpacesGo pend s0 ++ mtok o ++
        mweave (step9aSpacesGo false w) (ps.map (fun p => (p.1, step9aSpacesGo false p.2)))
    rw [List.append_assoc,
      s9aGo_append s0 pend (mtok o ++ mweave w ps) (fun c hc => by
        rw [mtok_append_head] at hc
        injection hc with hc
        subst hc
        decide),
      s9aGo_tok (mtok o) (fun c hcm => (mtok_cond o c hcm).2.2.2.2.2.2.1) (mweave w ps),
      ih false w, List.append_assoc]

/-- Step 9's second replace acts on each piece separately. -/
theorem mweave_s9b (ps : List (Option Nat × List Char)) :
    ∀ (run : List Char) (s0 : List Char),
    step9bBlankGo run (mweave s0 ps) =
      mweave (step9bBlankGo run s0) (ps.map (fun p => (p.1, step9bBlankGo [] p.2))) := by
  induction ps with
  | nil => intro run s0; rfl
  | cons p ps ih =>
    intro run s0
    obtain ⟨o, w⟩ := p
    show step9bBlankGo run (s0 ++ mtok o ++ mweave w ps) =
      step9bBlankGo run s0 ++ mtok o ++
        mweave (step9bBlankGo [] w) (ps.map (fun p => (p.1, step9bBlankGo [] p.2)))
    rw [List.append_assoc,
      s9bGo_append s0 run (mtok o ++ mweave w ps) (fun c hc => by
        rw [mtok_append_head] at hc
        injection hc with hc
        subst hc
        decide),
      s9bGo_tok (mtok o) (fun c hcm => (mtok_cond o c hcm).2.2.2.2.2.2.2.1) (mweave w ps),
      ih [] w, List.append_assoc]

/-- Step 10's first replace acts on each piece separately. -/
theorem mweave_s10a (ps : List (Option Nat × List Char)) :
    ∀ (acc : List Char) (s0 : List Char),
    step10aGo acc (mweave s0 ps) =
      mweave (step10aGo acc s0) (ps.map (fun p => (p.1, step10aGo [] p.2))) := by
  induction ps with
  | nil => intro acc s0; rfl
  | cons p ps ih =>
    intro acc s0
    obtain ⟨o, w⟩ := p
    show step10aGo acc (s0 ++ mtok o ++ mweave w ps) =
      step10aGo acc s0 ++ mtok o ++
        mweave (step10aGo [] w) (ps.map (fun p => (p.1, step10aGo [] p.2)))
    rw [List.append_assoc,
      s10aGo_append s0 acc (mtok o ++ mweave w ps) (fun c hc => by
        rw [mtok_append_head] at hc
        injection hc with hc
        subst hc
        exact ⟨by decide, by decide⟩),
      s10aGo_tok (mtok o) (fun c hcm =>
        ⟨(mtok_cond o c hcm).2.2.2.2.2.2.2.1, (mtok_cond o c hcm).2.2.2.2.2.2.2.2⟩)
        (mweave w ps),
      ih [] w, List.append_assoc]

/-- Step 10's second replace acts on each piece separately. -/
theorem mweave_s10b (ps : List (Option Nat × List Char)) :
    ∀ (st : Option (Char × List Char)) (s0 : List Char),
    step10bGo st (mweave s0 ps) =
      mweave (step10bGo st s0) (ps.map (fun p => (p.1, step10bGo none p.2))) := by
  induction ps with
  | nil => intro st s0; rfl
  | cons p ps ih =>
    intro st s0
    obtain ⟨o, w⟩ := p
    show step10bGo st (s0 ++ mtok o ++ mweave w ps) =
      step10bGo st s0 ++ mtok o ++
        mweave (step10bGo none w) (ps.map (fun p => (p.1, step10bGo none p.2)))
    rw [List.append_assoc,
      s10bGo_append s0 st (mtok o ++ mweave w ps) (fun c hc => by
        rw [mtok_append_head] at hc
        injection hc with hc
        subst hc
        exact ⟨by decide, by decide, by decide⟩),
      s10bGo_tok (mtok o) (fun c hcm => (mtok_cond o c hcm).2.2.2.2.2.2.2.2) (mweave w ps),
      ih none w, List.append_assoc]

/-! ## Stage bookkeeping: `<`-freeness of per-piece outputs and token lists -/

theorem fst_map_seg (f : List Char → List Char) (ps : List (Option Nat × List Char)) :
    (ps.map (fun q => (q.1, f q.2))).map Prod.fst = ps.map Prod.fst := by
  induction ps with
  | nil => rfl
  | cons p ps ih => simp [ih]

theorem filterMap_fst_map_seg (f : List Char → List Char)
    (ps : List (Option Nat × List Char)) :
    (ps.map (fun q => (q.1, f q.2))).filterMap Prod.fst = ps.filterMap Prod.fst := by
  induction ps with
  | nil => rfl
  | cons p ps ih =>
    obtain ⟨o, w⟩ := p
    cases o <;> simp [List.filterMap_cons, ih]

theorem filterMap_fst_none (qs : List (Option Nat × List Char))
    (h : ∀ q ∈ qs, q.1 = none) : qs.filterMap Prod.fst = [] := by
  induction qs with
  | nil => rfl
  | cons q qs ih =>
    have h1 : q.1 = none := h q (by simp)
    simp [List.filterMap_cons, h1, ih (fun p hp => h p (by simp [hp]))]

theorem map_fst_of_no_none (ps : List (Option Nat × List Char))
    (h : ∀ p ∈ ps, p.1 ≠ none) : ps.map Prod.fst = (ps.filterMap Prod.fst).map some := by
  induction ps with
  | nil => rfl
  | cons p ps ih =>
    obtain ⟨o, w⟩ := p
    cases o with
    | none => exact absurd rfl (h (none, w) (by simp))
    | some n => simp [List.filterMap_cons, ih (fun q hq => h q (by simp [hq]))]

theorem filterMap_of_map_some (qs : List (Option Nat × List Char)) :
    ∀ ns : List Nat, qs.map Prod.fst = ns.map some → qs.filterMap Prod.fst = ns := by
  induction qs with
  | nil =>
    intro ns h
    cases ns with
    | nil => rfl
    | cons n ns => simp at h
  | cons q qs ih =>
    intro ns h
    cases ns with
    | nil => simp at h
    | cons n ns =>
      simp only [List.map_cons] at h
      injection h with h1 h2
      simp [List.filterMap_cons, h1, ih ns h2]

theorem segs_map (f : List Char → List Char) (hf : ∀ x, '<' ∉ x → '<' ∉ f x)
    (ps : List (Option Nat × List Char)) (hps : ∀ p ∈ ps, '<' ∉ p.2) :
    ∀ p ∈ ps.map (fun q => (q.1, f q.2)), '<' ∉ p.2 := by
  intro p hp
  obtain ⟨q, hq, rfl⟩ := List.mem_map.mp hp
  exact hf q.2 (hps q hq)

theorem no_lt_step2 (x : List Char) (h : '<' ∉ x) : '<' ∉ step2Hyphen x :=
  fun hm => h (mem_step2 x '<' hm)

theorem no_lt_step4 (x : List Char) (h : '<' ∉ x) : '<' ∉ step4Newline x :=
  fun hm => (mem_step4 x '<' hm).elim (fun hx => h hx) (fun he => absurd he (by decide))

theorem no_lt_step5 (x : List Char) (h : '<' ∉ x) : '<' ∉ step5PunctCap x :=
  fun hm => (mem_step5 x '<' hm).elim (fun hx => h hx) (fun he => absurd he (by decide))

theorem no_lt_step6 (x : List Char) (h : '<' ∉ x) : '<' ∉ step6LowerUpper x :=
  fun hm => (mem_step6 x '<' hm).elim (fun hx => h hx) (fun he => absurd he (by decide))

theorem no_lt_step7a (prev : Option Char) (x : List Char) (h : '<' ∉ x) :
    '<' ∉ step7aUl prev x :=
  fun hm => (mem_step7a prev x '<' hm).elim (fun hx => h hx) (fun he => absurd he (by decide))

theorem no_lt_step7b (prev : Option Char) (x : List Char) (h : '<' ∉ x) :
    '<' ∉ step7bSa prev x :=
  fun hm => (mem_step7b prev x '<' hm).elim (fun hx => h hx) (fun he => absurd he (by decide))

theorem no_lt_s9a (pend : Bool) (x : List Char) (h : '<' ∉ x) :
    '<' ∉ step9aSpacesGo pend x :=
  fun hm => (mem_s9aGo x pend '<' hm).elim (fun hx => h hx) (fun he => absurd he (by decide))

theorem no_lt_s9b (x : List Char) (h : '<' ∉ x) : '<' ∉ step9bBlankGo [] x :=
  fun hm => (mem_s9bGo x [] '<' hm).elim (fun hx => h (by simpa using hx))
    (fun he => absurd he (by decide))

theorem no_lt_s10a (x : List Char) (h : '<' ∉ x) : '<' ∉ step10aGo [] x :=
  fun hm => h (by simpa using mem_s10aGo x [] '<' hm)

theorem no_lt_s10b (x : List Char) (h : '<' ∉ x) : '<' ∉ step10bGo none x :=
  fun hm => (mem_s10bGo x none '<' hm).elim (fun hx => h (by simpa [stPrefix] using hx))
    (fun he => absurd he (by decide))

/-! ## Steps 3 and 8 on the interleaving: paragraph tokens are created
inside segments and later eliminated -/

/-- Step 3 on one `<`-free piece yields an interleaving of paragraph
tokens and `<`-free pieces. -/
theorem step3_seg (s : List Char) : ∀ (_ : '<' ∉ s) (p : Nat),
    ∃ a qs, step3ParaGo p s = mweave a qs ∧ '<' ∉ a ∧
      ∀ q ∈ qs, q.1 = none ∧ '<' ∉ q.2 := by
  induction s with
  | nil =>
    intro _ p
    match p with
    | 0 => exact ⟨[], [], rfl, by simp, by simp⟩
    | 1 => exact ⟨['\n'], [], rfl, by decide, by simp⟩
    | n + 2 =>
      refine ⟨[], [(none, [])], rfl, by simp, ?_⟩
      intro q hq
      simp only [List.mem_cons, List.not_mem_nil, or_false] at hq
      subst hq
      exact ⟨rfl, by simp⟩
  | cons c t ih =>
    intro hs p
    by_cases hc : c = '\n'
    · subst hc
      rw [step3Go_cons, if_pos rfl]
      exact ih (fun h => hs (List.mem_cons_of_mem _ h)) (p + 1)
    · rw [step3Go_cons, if_neg hc]
      obtain ⟨a, qs, he, ha, hqs⟩ := ih (fun h => hs (List.mem_cons_of_mem _ h)) 0
      rw [he]
      have hcne : c ≠ '<' := fun h => hs (by simp [h])
      match p with
      | 0 =>
        refine ⟨c :: a, qs, ?_, ?_, hqs⟩
        · exact mweave_absorb [c] a qs
        · intro h
          rcases List.mem_cons.mp h with h | h
          · exact hcne h.symm
          · exact ha h
      | 1 =>
        refine ⟨'\n' :: c :: a, qs, ?_, ?_, hqs⟩
        · exact mweave_absorb ['\n', c] a qs
        · intro h
          rcases List.mem_cons.mp h with h | h
          · exact absurd h (by decide)
          · rcases List.mem_cons.mp h with h | h
            · exact hcne h.symm
            · exact ha h
      | n + 2 =>
        refine ⟨[], (none, c :: a) :: qs, ?_, by simp, ?_⟩
        · show paraPH ++ c :: mweave a qs = mweave [] ((none, c :: a) :: qs)
          have habs : mweave (c :: a) qs = [c] ++ mweave a qs :=
            (mweave_absorb [c] a qs).symm
          rw [show mweave [] ((none, c :: a) :: qs) =
            [] ++ mtok none ++ mweave (c :: a) qs from rfl,
            show ((mtok none : List Char) = paraPH) from rfl, habs]
          simp
        · intro q hq
          rcases List.mem_cons.mp hq with rfl | hq
          · refine ⟨rfl, ?_⟩
            intro h
            rcases List.mem_cons.mp h with h | h
            · exact hcne h.symm
            · exact ha h
          · exact hqs q hq

/-- Step 3 on the interleaving: tokens pass through and each piece is
re-decomposed, preserving the URL-token sequence. -/
theorem mweave_step3 (ps : List (Option Nat × List Char)) : ∀ s0 : List Char,
    '<' ∉ s0 → (∀ p ∈ ps, '<' ∉ p.2) →
    ∃ s0' ps', step3Para (mweave s0 ps) = mweave s0' ps' ∧ '<' ∉ s0' ∧
      (∀ p ∈ ps', '<' ∉ p.2) ∧ ps'.filterMap Prod.fst = ps.filterMap Prod.fst := by
  induction ps with
  | nil =>
    intro s0 h0 _
    obtain ⟨a, qs, he, ha, hqs⟩ := step3_seg s0 h0 0
    exact ⟨a, qs, he, ha, fun q hq => (hqs q hq).2,
      by rw [filterMap_fst_none qs (fun q hq => (hqs q hq).1)]; rfl⟩
  | cons p ps ih =>
    intro s0 h0 hps
    obtain ⟨o, w⟩ := p
    show ∃ s0' ps', step3ParaGo 0 (mweave s0 ((o, w) :: ps)) = mweave s0' ps' ∧ _
    rw [show mweave s0 ((o, w) :: ps) = s0 ++ (mtok o ++ mweave w ps) from by
      simp [mweave, List.append_assoc]]
    rw [step3Go_append s0 0 (mtok o ++ mweave w ps) (fun c hc => by
        rw [mtok_append_head] at hc
        injection hc with hc
        subst hc
        decide),
      step3Go_tok (mtok o) (fun hm => (mtok_cond o '\n' hm).2.1 rfl) (mweave w ps)]
    obtain ⟨a, qs, he, ha, hqs⟩ := step3_seg s0 h0 0
    obtain ⟨s0', ps', he', h0', hps', hfm⟩ :=
      ih w (hps (o, w) (by simp)) (fun q hq => hps q (by simp [hq]))
    rw [he, show step3ParaGo 0 (mweave w ps) = mweave s0' ps' from he']
    refine ⟨a, qs ++ (o, s0') :: ps', mweave_append qs a o s0' ps', ha, ?_, ?_⟩
    · intro q hq
      rcases List.mem_append.mp hq with hq | hq
      · exact (hqs q hq).2
      · rcases List.mem_cons.mp hq with rfl | hq
        · exact h0'
        · exact hps' q hq
    · have hnil : qs.filterMap Prod.fst = [] :=
        filterMap_fst_none qs (fun q hq => (hqs q hq).1)
      cases o with
      | none => simp [List.filterMap_append, List.filterMap_cons, hnil, hfm]
      | some n => simp [List.filterMap_append, List.filterMap_cons, hnil, hfm]

/-- Step 8 on the interleaving: paragraph tokens become blank lines inside
the segments, URL tokens pass through; afterwards only URL tokens remain. -/
theorem mweave_step8 (ps : List (Option Nat × List Char)) : ∀ s0 : List Char,
    '<' ∉ s0 → (∀ p ∈ ps, '<' ∉ p.2) →
    ∃ s0' ps', step8RestorePara (mweave s0 ps) = mweave s0' ps' ∧ '<' ∉ s0' ∧
      (∀ p ∈ ps', '<' ∉ p.2) ∧ ps'.filterMap Prod.fst = ps.filterMap Prod.fst ∧
      ∀ p ∈ ps', p.1 ≠ none := by
  induction ps with
  | nil =>
    intro s0 h0 _
    refine ⟨s0, [], ?_, h0, by simp, by simp, by simp⟩
    show step8RestorePara s0 = s0
    have h8 := step8_seg s0 h0 []
    rw [show step8RestorePara ([] : List Char) = [] from rfl] at h8
    simpa using h8
  | cons p ps ih =>
    intro s0 h0 hps
    obtain ⟨o, w⟩ := p
    obtain ⟨s0', ps', he, h0', hps', hfm, hnone⟩ :=
      ih w (hps (o, w) (by simp)) (fun q hq => hps q (by simp [hq]))
    rw [show mweave s0 ((o, w) :: ps) = s0 ++ (mtok o ++ mweave w ps) from by
        simp [mweave, List.append_assoc],
      step8_seg s0 h0 (mtok o ++ mweave w ps)]
    cases o with
    | none =>
      rw [show (mtok none ++ mweave w ps : List Char) = paraPH ++ mweave w ps from rfl,
        step8_para (mweave w ps), he]
      refine ⟨s0 ++ '\n' :: '\n' :: s0', ps', ?_, ?_, hps', ?_, hnone⟩
      · show s0 ++ ('\n' :: '\n' :: mweave s0' ps') = _
        rw [show ('\n' :: '\n' :: mweave s0' ps' : List Char) =
            ['\n', '\n'] ++ mweave s0' ps' from rfl,
          mweave_absorb ['\n', '\n'] s0' ps', mweave_absorb s0 (['\n', '\n'] ++ s0') ps']
        rfl
      · intro h
        rcases List.mem_append.mp h with h | h
        · exact h0 h
        · rcases List.mem_cons.mp h with h | h
          · exact absurd h (by decide)
          · rcases List.mem_cons.mp h with h | h
            · exact absurd h (by decide)
            · exact h0' h
      · simp [List.filterMap_cons, hfm]
    | some n =>
      rw [show (mtok (some n) ++ mweave w ps : List Char) = urlPH n ++ mweave w ps from rfl,
        step8_url n (mweave w ps), he]
      refine ⟨s0, (some n, s0') :: ps', ?_, h0, ?_, ?_, ?_⟩
      · show s0 ++ (urlPH n ++ mweave s0' ps') = s0 ++ mtok (some n) ++ mweave s0' ps'
        rw [List.append_assoc]
        rfl
      · intro q hq
        rcases List.mem_cons.mp hq with rfl | hq
        · exact h0'
        · exact hps' q hq
      · simp [List.filterMap_cons, hfm]
      · intro q hq
        rcases List.mem_cons.mp hq with rfl | hq
        · simp
        · exact hnone q hq

/-! ## The stage invariant through steps 2–10 -/

theorem goodW_step2 (t : List Char) (ns : List Nat) (h : goodW t ns) :
    goodW (step2Hyphen t) ns := by
  obtain ⟨s0, ps, rfl, h0, hps, hfm⟩ := h
  exact ⟨step2Hyphen s0, ps.map (fun q => (q.1, step2Hyphen q.2)), mweave_step2 ps s0,
    no_lt_step2 s0 h0, segs_map _ no_lt_step2 ps hps,
    by rw [filterMap_fst_map_seg]; exact hfm⟩

theorem goodW_step3 (t : List Char) (ns : List Nat) (h : goodW t ns) :
    goodW (step3Para t) ns := by
  obtain ⟨s0, ps, rfl, h0, hps, hfm⟩ := h
  obtain ⟨a, qs, he, ha, hqs, hq⟩ := mweave_step3 ps s0 h0 hps
  exact ⟨a, qs, he, ha, hqs, by rw [hq, hfm]⟩

theorem goodW_step4 (t : List Char) (ns : List Nat) (h : goodW t ns) :
    goodW (step4Newline t) ns := by
  obtain ⟨s0, ps, rfl, h0, hps, hfm⟩ := h
  exact ⟨step4Newline s0, ps.map (fun q => (q.1, step4Newline q.2)), mweave_step4 ps s0,
    no_lt_step4 s0 h0, segs_map _ no_lt_step4 ps hps,
    by rw [filterMap_fst_map_seg]; exact hfm⟩

theorem goodW_step5 (t : List Char) (ns : List Nat) (h : goodW t ns) :
    goodW (step5PunctCap t) ns := by
  obtain ⟨s0, ps, rfl, h0, hps, hfm⟩ := h
  exact ⟨step5PunctCap s0, ps.map (fun q => (q.1, step5PunctCap q.2)), mweave_step5 ps s0,
    no_lt_step5 s0 h0, segs_map _ no_lt_step5 ps hps,
    by rw [filterMap_fst_map_seg]; exact hfm⟩

theorem goodW_step6 (t : List Char) (ns : List Nat) (h : goodW t ns) :
    goodW (step6LowerUpper t) ns := by
  obtain ⟨s0, ps, rfl, h0, hps, hfm⟩ := h
  exact ⟨step6LowerUpper s0, ps.map (fun q => (q.1, step6LowerUpper q.2)), mweave_step6 ps s0,
    no_lt_step6 s0 h0, segs_map _ no_lt_step6 ps hps,
    by rw [filterMap_fst_map_seg]; exact hfm⟩

theorem goodW_step7a (prev : Option Char) (t : List Char) (ns : List Nat)
    (h : goodW t ns) : goodW (step7aUl prev t) ns := by
  obtain ⟨s0, ps, rfl, h0, hps, hfm⟩ := h
  exact ⟨step7aUl prev s0, ps.map (fun q => (q.1, step7aUl (some '>') q.2)),
    mweave_step7a ps prev s0, no_lt_step7a prev s0 h0,
    segs_map _ (no_lt_step7a (some '>')) ps hps,
    by rw [filterMap_fst_map_seg]; exact hfm⟩

theorem goodW_step7b (prev : Option Char) (t : List Char) (ns : List Nat)
    (h : goodW t ns) : goodW (step7bSa prev t) ns := by
  obtain ⟨s0, ps, rfl, h0, hps, hfm⟩ := h
  exact ⟨step7bSa prev s0, ps.map (fun q => (q.1, step7bSa (some '>') q.2)),
    mweave_step7b ps prev s0, no_lt_step7b prev s0 h0,
    segs_map _ (no_lt_step7b (some '>')) ps hps,
    by rw [filterMap_fst_map_seg]; exact hfm⟩

theorem goodW_step8 (t : List Char) (ns : List Nat) (h : goodW t ns) :
    goodU (step8RestorePara t) ns := by
  obtain ⟨s0, ps, rfl, h0, hps, hfm⟩ := h
  obtain ⟨s', ps', he, h0', hps', hfm', hnone⟩ := mweave_step8 ps s0 h0 hps
  exact ⟨s', ps', he, h0', hps',
    by rw [map_fst_of_no_none ps' hnone, hfm', hfm]⟩

theorem goodU_s9a (t : List Char) (ns : List Nat) (h : goodU t ns) :
    goodU (step9aSpacesGo false t) ns := by
  obtain ⟨s0, ps, rfl, h0, hps, hmap⟩ := h
  exact ⟨step9aSpacesGo false s0, ps.map (fun q => (q.1, step9aSpacesGo false q.2)),
    mweave_s9a ps false s0, no_lt_s9a false s0 h0, segs_map _ (no_lt_s9a false) ps hps,
    by rw [fst_map_seg]; exact hmap⟩

theorem goodU_s9b (t : List Char) (ns : List Nat) (h : goodU t ns) :
    goodU (step9bBlankGo [] t) ns := by
  obtain ⟨s0, ps, rfl, h0, hps, hmap⟩ := h
  exact ⟨step9bBlankGo [] s0, ps.map (fun q => (q.1, step9bBlankGo [] q.2)),
    mweave_s9b ps [] s0, no_lt_s9b s0 h0, segs_map _ no_lt_s9b ps hps,
    by rw [fst_map_seg]; exact hmap⟩

theorem goodU_s10a (t : List Char) (ns : List Nat) (h : goodU t ns) :
    goodU (step10aGo [] t) ns := by
  obtain ⟨s0, ps, rfl, h0, hps, hmap⟩ := h
  exact ⟨step10aGo [] s0, ps.map (fun q => (q.1, step10aGo [] q.2)),
    mweave_s10a ps [] s0, no_lt_s10a s0 h0, segs_map _ no_lt_s10a ps hps,
    by rw [fst_map_seg]; exact hmap⟩

theorem goodU_s10b (t : List Char) (ns : List Nat) (h : goodU t ns) :
    goodU (step10bGo none t) ns := by
  obtain ⟨s0, ps, rfl, h0, hps, hmap⟩ := h
  exact ⟨step10bGo none s0, ps.map (fun q => (q.1, step10bGo none q.2)),
    mweave_s10b ps none s0, no_lt_s10b s0 h0, segs_map _ no_lt_s10b ps hps,
    by rw [fst_map_seg]; exact hmap⟩

theorem goodU_to_goodW (t : List Char) (ns : List Nat) (h : goodU t ns) : goodW t ns := by
  obtain ⟨s0, ps, rfl, h0, hps, hmap⟩ := h
  exact ⟨s0, ps, rfl, h0, hps, filterMap_of_map_some ps ns hmap⟩

/-- Steps 2–10 map the step-1 interleaving to a URL-token interleaving
with the same token numbers. -/
theorem midSteps_good (t : List Char) (ns : List Nat) (h : goodW t ns) :
    goodU (midSteps t) ns :=
  goodU_s10b _ ns (goodU_s10a _ ns (goodU_s9b _ ns (goodU_s9a _ ns (goodW_step8 _ ns
    (goodW_step7b none _ ns (goodW_step7a none _ ns (goodW_step6 _ ns (goodW_step5 _ ns
      (goodW_step4 _ ns (goodW_step3 _ ns (goodW_step2 t ns h)))))))))))

/-! ## Step 1 produces the interleaving; step 11 eliminates it -/

/-- A URL match consumes a prefix of the input. -/
theorem matchURL_append (l m rest : List Char) (h : matchURL l = some (m, rest)) :
    m ++ rest = l := by
  unfold matchURL at h
  by_cases h8 : "https://".data.isPrefixOf l = true
  · rw [if_pos h8] at h
    by_cases hb : (l.drop 8).takeWhile isURLBody = []
    · rw [if_pos hb] at h
      cases h
    · rw [if_neg hb] at h
      injection h with h
      injection h with h1 h2
      obtain ⟨t, ht⟩ := List.isPrefixOf_iff_prefix.mp h8
      subst ht
      have hd : ("https://".data ++ t).drop 8 = t := List.drop_left "https://".data t
      rw [hd] at h1 h2
      rw [← h1, ← h2, List.append_assoc, List.takeWhile_append_dropWhile]
  · rw [if_neg h8] at h
    by_cases h7 : "http://".data.isPrefixOf l = true
    · rw [if_pos h7] at h
      by_cases hb : (l.drop 7).takeWhile isURLBody = []
      · rw [if_pos hb] at h
        cases h
      · rw [if_neg hb] at h
        injection h with h
        injection h with h1 h2
        obtain ⟨t, ht⟩ := List.isPrefixOf_iff_prefix.mp h7
        subst ht
        have hd : ("http://".data ++ t).drop 7 = t := List.drop_left "http://".data t
        rw [hd] at h1 h2
        rw [← h1, ← h2, List.append_assoc, List.takeWhile_append_dropWhile]
    · rw [if_neg h7] at h
      cases h

/-- An e-mail match consumes a prefix of the input. -/
theorem matchEmail_append (prev : Option Char) (l m rest : List Char)
    (h : matchEmail prev l = some (m, rest)) : m ++ rest = l := by
  unfold matchEmail at h
  split at h
  · cases h
  · split at h
    · cases h
    · split at h
      · dsimp only at h
        split at h
        · injection h with h
          injection h with h1 h2
          rw [← h1, ← h2]
          exact List.take_append_drop _ l
        · cases h
      · cases h

/-- Step 1 on a `<`- and `$`-free input: the output text is an
interleaving of URL placeholders numbered from `cnt` with `<`-free
segments, and the recorded substrings are `<`- and `$`-free, one per
placeholder. -/
theorem s1Go_mweave (fuel : Nat) : ∀ (cnt : Nat) (prev : Option Char) (l : List Char),
    '<' ∉ l → '$' ∉ l →
    ∃ s0 qs, (s1Go fuel cnt prev l).1 = mweave s0 qs ∧ '<' ∉ s0 ∧
      (∀ q ∈ qs, '<' ∉ q.2) ∧
      qs.map Prod.fst = (List.range' cnt qs.length).map some ∧
      (s1Go fuel cnt prev l).2.length = qs.length ∧
      (∀ u ∈ (s1Go fuel cnt prev l).2, '<' ∉ u ∧ '$' ∉ u) := by
  induction fuel with
  | zero =>
    intro cnt prev l h1 _
    refine ⟨l, [], rfl, h1, ?_, rfl, rfl, ?_⟩
    · intro q hq
      cases hq
    · intro u hu
      have hu' : u ∈ ([] : List (List Char)) := hu
      cases hu'
  | succ fuel ih =>
    intro cnt prev l h1 h2
    cases l with
    | nil =>
      refine ⟨[], [], rfl, ?_, ?_, rfl, rfl, ?_⟩
      · exact List.not_mem_nil '<'
      · intro q hq
        cases hq
      · intro u hu
        have hu' : u ∈ ([] : List (List Char)) := hu
        cases hu'
    | cons ch t =>
      cases hmu : matchURL (ch :: t) with
      | some pr =>
        obtain ⟨m, rest⟩ := pr
        have hmr : m ++ rest = ch :: t := matchURL_append _ _ _ hmu
        have hrest1 : '<' ∉ rest := fun h =>
          h1 (by rw [← hmr]; exact List.mem_append.mpr (Or.inr h))
        have hrest2 : '$' ∉ rest := fun h =>
          h2 (by rw [← hmr]; exact List.mem_append.mpr (Or.inr h))
        have hm1 : '<' ∉ m := fun h =>
          h1 (by rw [← hmr]; exact List.mem_append.mpr (Or.inl h))
        have hm2 : '$' ∉ m := fun h =>
          h2 (by rw [← hmr]; exact List.mem_append.mpr (Or.inl h))
        obtain ⟨s0, qs, he, h0, hqs, hmap, hlen, hus⟩ :=
          ih (cnt + 1) m.getLast? rest hrest1 hrest2
        have hred : s1Go (fuel + 1) cnt prev (ch :: t) =
            (urlPH cnt ++ (s1Go fuel (cnt + 1) m.getLast? rest).1,
             m :: (s1Go fuel (cnt + 1) m.getLast? rest).2) := by
          simp only [s1Go, hmu]
        rw [hred]
        refine ⟨[], (some cnt, s0) :: qs, ?_, by simp, ?_, ?_, ?_, ?_⟩
        · show urlPH cnt ++ (s1Go fuel (cnt + 1) m.getLast? rest).1 =
            mweave [] ((some cnt, s0) :: qs)
          rw [he]
          show urlPH cnt ++ mweave s0 qs = [] ++ mtok (some cnt) ++ mweave s0 qs
          simp [mtok]
        · intro q hq
          rcases List.mem_cons.mp hq with rfl | hq
          · exact h0
          · exact hqs q hq
        · show some cnt :: qs.map Prod.fst = _
          rw [hmap]
          simp [List.range'_succ]
        · show ((s1Go fuel (cnt + 1) m.getLast? rest).2.length + 1) = _
          simp [hlen]
        · intro u hu
          rcases List.mem_cons.mp hu with rfl | hu
          · exact ⟨hm1, hm2⟩
          · exact hus u hu
      | none =>
        cases hme : matchEmail prev (ch :: t) with
        | some pr =>
          obtain ⟨m, rest⟩ := pr
          have hmr : m ++ rest = ch :: t := matchEmail_append _ _ _ _ hme
          have hrest1 : '<' ∉ rest := fun h =>
            h1 (by rw [← hmr]; exact List.mem_append.mpr (Or.inr h))
          have hrest2 : '$' ∉ rest := fun h =>
            h2 (by rw [← hmr]; exact List.mem_append.mpr (Or.inr h))
          have hm1 : '<' ∉ m := fun h =>
            h1 (by rw [← hmr]; exact List.mem_append.mpr (Or.inl h))
          have hm2 : '$' ∉ m := fun h =>
            h2 (by rw [← hmr]; exact List.mem_append.mpr (Or.inl h))
          obtain ⟨s0, qs, he, h0, hqs, hmap, hlen, hus⟩ :=
            ih (cnt + 1) m.getLast? rest hrest1 hrest2
          have hred : s1Go (fuel + 1) cnt prev (ch :: t) =
              (urlPH cnt ++ (s1Go fuel (cnt + 1) m.getLast? rest).1,
               m :: (s1Go fuel (cnt + 1) m.getLast? rest).2) := by
            simp only [s1Go, hmu, hme]
          rw [hred]
          refine ⟨[], (some cnt, s0) :: qs, ?_, by simp, ?_, ?_, ?_, ?_⟩
          · show urlPH cnt ++ (s1Go fuel (cnt + 1) m.getLast? rest).1 =
              mweave [] ((some cnt, s0) :: qs)
            rw [he]
            show urlPH cnt ++ mweave s0 qs = [] ++ mtok (some cnt) ++ mweave s0 qs
            simp [mtok]
          · intro q hq
            rcases List.mem_cons.mp hq with rfl | hq
            · exact h0
            · exact hqs q hq
          · show some cnt :: qs.map Prod.fst = _
            rw [hmap]
            simp [List.range'_succ]
          · show ((s1Go fuel (cnt + 1) m.getLast? rest).2.length + 1) = _
            simp [hlen]
          · intro u hu
            rcases List.mem_cons.mp hu with rfl | hu
            · exact ⟨hm1, hm2⟩
            · exact hus u hu
        | none =>
          have ht1 : '<' ∉ t := fun h => h1 (List.mem_cons_of_mem _ h)
          have ht2 : '$' ∉ t := fun h => h2 (List.mem_cons_of_mem _ h)
          obtain ⟨s0, qs, he, h0, hqs, hmap, hlen, hus⟩ := ih cnt (some ch) t ht1 ht2
          have hred : s1Go (fuel + 1) cnt prev (ch :: t) =
              (ch :: (s1Go fuel cnt (some ch) t).1, (s1Go fuel cnt (some ch) t).2) := by
            simp only [s1Go, hmu, hme]
          rw [hred]
          refine ⟨ch :: s0, qs, ?_, ?_, hqs, hmap, hlen, hus⟩
          · show ch :: (s1Go fuel cnt (some ch) t).1 = mweave (ch :: s0) qs
            rw [he]
            exact mweave_absorb [ch] s0 qs
          · intro h
            rcases List.mem_cons.mp h with h | h
            · exact h1 (by rw [h]; exact List.mem_cons_self _ _)
            · exact h0 h

/-- No occurrence of a placeholder can begin inside a `<`-free prefix. -/
theorem no_early_match (s0 : List Char) (h0 : '<' ∉ s0) (r : List Char) (k : Nat)
    (j : Nat) (hj : j < s0.length) :
    ¬ (urlPH k).isPrefixOf ((s0 ++ r).drop j) = true := by
  intro hpre
  have hdrop : (s0 ++ r).drop j = s0.drop j ++ r :=
    List.drop_append_of_le_length (le_of_lt hj)
  cases hdj : s0.drop j with
  | nil =>
    have := congrArg List.length hdj
    simp [List.length_drop] at this
    omega
  | cons d ds =>
    have hd : d ∈ s0 := by
      have hmem : d ∈ s0.drop j := by
        rw [hdj]
        exact List.mem_cons_self _ _
      exact List.mem_of_mem_drop hmem
    have hdne : d ≠ '<' := fun he => h0 (he ▸ hd)
    obtain ⟨q, hq⟩ := urlPH_head k
    rw [hdrop, hdj, hq] at hpre
    rw [show (('<' :: q).isPrefixOf ((d :: ds) ++ r)) =
      (('<' : Char) == d && q.isPrefixOf (ds ++ r)) from rfl] at hpre
    rw [Bool.and_eq_true] at hpre
    have hb := hpre.1
    rw [beq_iff_eq] at hb
    exact hdne hb.symm

/-- Step 11 on a URL-token interleaving with matching recorded texts:
every placeholder is removed and no `<` remains. -/
theorem restore_no_lt (us : List (List Char)) : ∀ (k : Nat) (t : List Char),
    goodU t (List.range' k us.length) → (∀ u ∈ us, '<' ∉ u ∧ '$' ∉ u) →
    '<' ∉ step11Restore k us t := by
  induction us with
  | nil =>
    intro k t hg _
    obtain ⟨s0, ps, rfl, h0, _, hmap⟩ := hg
    cases ps with
    | nil => exact h0
    | cons p ps => simp [List.range'] at hmap
  | cons u us ihs =>
    intro k t hg hus
    obtain ⟨s0, ps, rfl, h0, hps, hmap⟩ := hg
    cases ps with
    | nil => simp [List.range'_succ] at hmap
    | cons p ps' =>
      obtain ⟨o, w⟩ := p
      have hmap' : o :: ps'.map Prod.fst =
          some k :: (List.range' (k + 1) us.length).map some := by
        simpa [List.range'_succ] using hmap
      injection hmap' with ho hmap''
      subst ho
      show '<' ∉ step11Restore (k + 1) us
        (replaceFirstJS (urlPH k) u (s0 ++ urlPH k ++ mweave w ps'))
      have hrd : u.all (fun c => c ≠ '$') = true := by
        rw [List.all_eq_true]
        intro c hc
        have : c ≠ '$' := fun he => (hus u (List.mem_cons_self _ _)).2 (he ▸ hc)
        simpa using this
      have hrepl : replaceFirstJS (urlPH k) u (s0 ++ urlPH k ++ mweave w ps') =
          s0 ++ u ++ mweave w ps' := by
        apply replaceFirstJS_spec (urlPH k) u s0 (mweave w ps') hrd
        apply firstOcc_ge _ _ s0.length
        intro j hj
        have hX : s0 ++ urlPH k ++ mweave w ps' = s0 ++ (urlPH k ++ mweave w ps') :=
          List.append_assoc _ _ _
        rw [hX]
        exact no_early_match s0 h0 (urlPH k ++ mweave w ps') k j hj
      rw [hrepl, List.append_assoc s0 u (mweave w ps'),
        show (u ++ mweave w ps' : List Char) = mweave (u ++ w) ps' from
          mweave_absorb u w ps',
        mweave_absorb s0 (u ++ w) ps']
      apply ihs (k + 1) (mweave (s0 ++ (u ++ w)) ps')
        ⟨s0 ++ (u ++ w), ps', rfl, ?_, ?_, hmap''⟩
        (fun v hv => hus v (List.mem_cons_of_mem _ hv))
      · intro h
        rcases List.mem_append.mp h with h | h
        · exact h0 h
        · rcases List.mem_append.mp h with h | h
          · exact (hus u (List.mem_cons_self _ _)).1 h
          · exact hps (some k, w) (List.mem_cons_self _ _) h
      · exact fun q hq => hps q (List.mem_cons_of_mem _ hq)

/-- `trim` only removes characters. -/
theorem mem_trimJS (l : List Char) (c : Char) : c ∈ trimJS l → c ∈ l := by
  intro h
  unfold trimJS at h
  rw [List.mem_reverse] at h
  have h2 : c ∈ (l.dropWhile isWS).reverse :=
    List.Sublist.mem h (List.dropWhile_sublist _)
  rw [List.mem_reverse] at h2
  exact List.Sublist.mem h2 (List.dropWhile_sublist _)

/-- The normalizer's output is `<`-free for every `<`- and `$`-free input:
no placeholder can appear in it. -/
theorem cleanText_no_lt (l : List Char) (h1 : '<' ∉ l) (h2 : '$' ∉ l) :
    '<' ∉ cleanText l := by
  intro hmem
  have hmem' : '<' ∈ step11Restore 0 (step1Protect l).2 (midSteps (step1Protect l).1) :=
    mem_trimJS _ _ hmem
  obtain ⟨s0, qs, he, h0, hqs, hmap, hlen, hus⟩ := s1Go_mweave l.length 0 none l h1 h2
  have he1 : (step1Protect l).1 = mweave s0 qs := he
  have hlen1 : (step1Protect l).2.length = qs.length := hlen
  have hus1 : ∀ u ∈ (step1Protect l).2, '<' ∉ u ∧ '$' ∉ u := hus
  have hW : goodW (step1Protect l).1 (List.range' 0 qs.length) := by
    rw [he1]
    exact goodU_to_goodW _ _ ⟨s0, qs, rfl, h0, hqs, hmap⟩
  have hU : goodU (midSteps (step1Protect l).1)
      (List.range' 0 (step1Protect l).2.length) := by
    rw [hlen1]
    exact midSteps_good _ _ hW
  exact restore_no_lt (step1Protect l).2 0 _ hU hus1 hmem'

/-- C2, counterexample: the original claim fails — placeholders can
survive into the final output.  For the input `http://x/$&` step 1
records the URL and substitutes `<<<URL_0>>>`, but step 11's
`text.replace(placeholder, originalUrl)` feeds the URL through
JavaScript's `GetSubstitution`, whose `$&` escape expands to the matched
text, i.e. to the placeholder itself: the output is
`http://x/<<<URL_0>>>`, which contains the URL placeholder pattern. -/
theorem placeholder_survives_dollar_url :
    ∃ p s, cleanText "http://x/$&".data = p ++ urlPH 0 ++ s :=
  ⟨"http://x/".data, [], by rfl⟩

/-- C2 (amended): for every input free of the placeholder frame character
`<` and of the replacement-escape character `$`, the normalized output
contains no occurrence of any URL placeholder `<<<URL_n>>>` and no
occurrence of the paragraph placeholder `<<<__PARA__>>>`: every
placeholder introduced in the protection and paragraph-marking stages is
restored before the pipeline completes. -/
theorem cleanText_placeholder_free (l : List Char) (h1 : '<' ∉ l) (h2 : '$' ∉ l) :
    (∀ n, ¬ ∃ p s, cleanText l = p ++ urlPH n ++ s) ∧
      ¬ ∃ p s, cleanText l = p ++ paraPH ++ s := by
  have hlt := cleanText_no_lt l h1 h2
  constructor
  · intro n hex
    obtain ⟨p, s, hin⟩ := hex
    apply hlt
    rw [hin]
    refine List.mem_append.mpr (Or.inl (List.mem_append.mpr (Or.inr ?_)))
    obtain ⟨r, hr⟩ := urlPH_head n
    rw [hr]
    exact List.mem_cons_self _ _
  · intro hex
    obtain ⟨p, s, hin⟩ := hex
    apply hlt
    rw [hin]
    refine List.mem_append.mpr (Or.inl (List.mem_append.mpr (Or.inr ?_)))
    rw [paraPH_expand]
    exact List.mem_cons_self _ _

/-- Witness for `cleanText_placeholder_free` at a concrete `<`- and
`$`-free input. -/
theorem cleanText_placeholder_free_witness :
    ('<' ∉ "hello world".data ∧ '$' ∉ "hello world".data) ∧
      ¬ ∃ p s, cleanText "hello world".data = p ++ paraPH ++ s :=
  ⟨⟨by decide, by decide⟩,
    (cleanText_placeholder_free "hello world".data (by decide) (by decide)).2⟩

/-! ## Paragraph runs through stages 3, 4 and 8, in general position -/

/-- Stage 3 absorbs a newline run into its pending counter. -/
theorem step3_run_consume : ∀ (j p : Nat) (y : List Char),
    step3ParaGo p (List.replicate j '\n' ++ y) = step3ParaGo (p + j) y := by
  intro j
  induction j with
  | zero => intro p y; rfl
  | succ j ih =>
    intro p y
    rw [List.replicate_succ, show ('\n' :: List.replicate j '\n') ++ y =
      '\n' :: (List.replicate j '\n' ++ y) from rfl, step3Go_cons, if_pos rfl, ih (p + 1) y,
      show p + 1 + j = p + (j + 1) from by omega]

/-- A pending run of `k+2` newlines flushes to one placeholder when the
next character is not a newline (or the input ends). -/
theorem step3_run_tail (k : Nat) (y : List Char) (hy : y.head? ≠ some '\n') :
    step3ParaGo (k + 2) y = paraPH ++ step3ParaGo 0 y := by
  cases y with
  | nil =>
    show nlFlush (k + 2) = paraPH ++ nlFlush 0
    rw [show nlFlush 0 = ([] : List Char) from rfl, List.append_nil]
    rfl
  | cons c t =>
    have hc : c ≠ '\n' := fun h => hy (by rw [h]; rfl)
    rw [step3Go_cons, if_neg hc, step3Go_cons, if_neg hc,
      show nlFlush (k + 2) = paraPH from rfl, show nlFlush 0 = ([] : List Char) from rfl]
    simp

/-- Stage 3 turns a maximal interior newline run of length at least two
into exactly one paragraph placeholder. -/
theorem step3_boundary (x : List Char) : ∀ (p k : Nat) (y : List Char),
    (x = [] → p = 0) → x.getLast? ≠ some '\n' → y.head? ≠ some '\n' →
    step3ParaGo p (x ++ List.replicate (k + 2) '\n' ++ y) =
      step3ParaGo p x ++ paraPH ++ step3ParaGo 0 y := by
  induction x with
  | nil =>
    intro p k y hp _ hy
    rw [hp rfl]
    rw [show (([] : List Char) ++ List.replicate (k + 2) '\n' ++ y) =
      List.replicate (k + 2) '\n' ++ y from by simp, step3_run_consume (k + 2) 0 y,
      show 0 + (k + 2) = k + 2 from by omega, step3_run_tail k y hy,
      show step3ParaGo 0 ([] : List Char) = [] from rfl]
    rfl
  | cons a x' ih =>
    intro p k y hp hxl hy
    cases hx' : x' with
    | nil =>
      subst hx'
      have ha : a ≠ '\n' := by
        intro h
        apply hxl
        rw [h]
        rfl
      rw [show (([a] : List Char) ++ List.replicate (k + 2) '\n' ++ y) =
        a :: (List.replicate (k + 2) '\n' ++ y) from by simp, step3Go_cons, if_neg ha,
        step3_run_consume (k + 2) 0 y, show 0 + (k + 2) = k + 2 from by omega,
        step3_run_tail k y hy,
        show step3ParaGo p [a] = nlFlush p ++ a :: nlFlush 0 from by
          rw [step3Go_cons, if_neg ha]
          rfl]
      rw [show nlFlush 0 = ([] : List Char) from rfl]
      simp
    | cons b x'' =>
      subst hx'
      have hxl' : (b :: x'').getLast? ≠ some '\n' := by
        intro h
        exact hxl (by rw [List.getLast?_cons_cons]; exact h)
      by_cases ha : a = '\n'
      · subst ha
        rw [show (('\n' :: b :: x'') ++ List.replicate (k + 2) '\n' ++ y) =
          '\n' :: ((b :: x'') ++ List.replicate (k + 2) '\n' ++ y) from by simp,
          step3Go_cons, if_pos rfl, ih (p + 1) k y (by intro h; cases h) hxl' hy,
          show step3ParaGo p ('\n' :: b :: x'') = step3ParaGo (p + 1) (b :: x'') from by
            rw [step3Go_cons, if_pos rfl]]
      · rw [show ((a :: b :: x'') ++ List.replicate (k + 2) '\n' ++ y) =
          a :: ((b :: x'') ++ List.replicate (k + 2) '\n' ++ y) from by simp,
          step3Go_cons, if_neg ha, ih 0 k y (by intro h; cases h) hxl' hy,
          show step3ParaGo p (a :: b :: x'') =
            nlFlush p ++ a :: step3ParaGo 0 (b :: x'') from by
            rw [step3Go_cons, if_neg ha]]
        simp [List.append_assoc]

/-- Stage 8 turns a paragraph placeholder into a double line break wherever
it stands, regardless of the surrounding text. -/
theorem step8_para_anywhere (A : List Char) : ∀ B : List Char,
    ∃ A' B', step8RestorePara (A ++ paraPH ++ B) = A' ++ '\n' :: '\n' :: B' := by
  induction A with
  | nil =>
    intro B
    exact ⟨[], step8RestorePara B, by
      rw [show (([] : List Char) ++ paraPH ++ B) = paraPH ++ B from by simp, step8_para]
      rfl⟩
  | cons c A₂ ih =>
    intro B
    by_cases hp : paraPH.isPrefixOf ((c :: A₂) ++ paraPH ++ B) = true
    · obtain ⟨t, ht⟩ := List.isPrefixOf_iff_prefix.mp hp
      rw [← ht, step8_para]
      exact ⟨[], step8RestorePara t, rfl⟩
    · rw [Bool.not_eq_true] at hp
      obtain ⟨A', B', heq⟩ := ih B
      rw [show ((c :: A₂) ++ paraPH ++ B) = c :: (A₂ ++ paraPH ++ B) from by simp,
        step8_cons_noPara c _ (by simpa using hp), heq]
      exact ⟨c :: A', B', rfl⟩

/-- C7, counterexample: the paragraph-preservation guarantee does not hold
for every input containing a run of two or more newlines.  Stage 2's
hyphenation repair (global regex: hyphen, optional whitespace, newline)
can consume the entire run before it is
marked (`"A-\n\nB"` normalizes to `"AB"`: one merged paragraph in the
assembled output), and the stage-10 punctuation respacing or the final
trim can delete a restored boundary (`"A\n\n,b"` gives `"A, b"`,
`"A\n\n"` gives `"A"`). -/
theorem paragraph_run_not_always_preserved :
    cleanText "A-\n\nB".data = "AB".data ∧
    cleanText "A\n\n,b".data = "A, b".data ∧
    cleanText "A\n\n".data = "A".data ∧
    pdfToMarkdown "doc.pdf".data (.ok (onePageDoc "A-\n\nB".data)) =
      .ok "# doc\n\n*Converted from PDF: doc.pdf*\n\nAB\n".data :=
  ⟨by decide, by decide, by decide, rfl⟩

/-- C7 (amended): for every maximal interior run of two or more newlines
reaching the paragraph-marking stage, that stage converts the run to a
single paragraph placeholder — before the newline-collapsing stage, which
leaves the placeholder intact — and the paragraph-restoration stage turns
every placeholder back into a double line break whatever surrounds it; in
particular `"A\n\nB"` produces two distinct paragraphs in the assembled
output. -/
theorem paragraph_run_marked_and_restored (x y A B : List Char) (k : Nat)
    (hx : x.getLast? ≠ some '\n') (hy : y.head? ≠ some '\n') :
    step3Para (x ++ List.replicate (k + 2) '\n' ++ y) =
      step3Para x ++ paraPH ++ step3Para y ∧
    step4Newline (A ++ paraPH ++ B) = step4Newline A ++ paraPH ++ step4Newline B ∧
    (∃ A' B', step8RestorePara (A ++ paraPH ++ B) = A' ++ '\n' :: '\n' :: B') ∧
    pdfToMarkdown "doc.pdf".data (.ok (onePageDoc "A\n\nB".data)) =
      .ok "# doc\n\n*Converted from PDF: doc.pdf*\n\nA\n\nB\n".data := by
  refine ⟨step3_boundary x 0 k y (fun _ => rfl) hx hy, ?_, step8_para_anywhere A B, rfl⟩
  rw [List.append_assoc, step4_append A (paraPH ++ B), step4_tok paraPH (by decide) B,
    ← List.append_assoc]

/-- Witness for `paragraph_run_marked_and_restored` at the spec's
example. -/
theorem paragraph_run_marked_and_restored_witness :
    ("A".data.getLast? ≠ some '\n' ∧ "B".data.head? ≠ some '\n') ∧
      step3Para ("A".data ++ List.replicate 2 '\n' ++ "B".data) =
        step3Para "A".data ++ paraPH ++ step3Para "B".data :=
  ⟨⟨by decide, by decide⟩,
    (paragraph_run_marked_and_restored "A".data "B".data [] [] 0
      (by decide) (by decide)).1⟩

/-! ## Every protected span survives to the output byte-identically -/

theorem drop_takeWhile_length (p : Char → Bool) (l : List Char) :
    l.drop (l.takeWhile p).length = l.dropWhile p := by
  induction l with
  | nil => rfl
  | cons a t ih =>
    by_cases pa : p a = true
    · simp [List.takeWhile_cons, List.dropWhile_cons, pa, ih]
    · simp [List.takeWhile_cons, List.dropWhile_cons, pa]

theorem localC_not_ws (c : Char) (hd : isLocalC c = true) : isWS c = false := by
  cases hw : isWS c
  · rfl
  · exfalso
    have hv : c.val.toNat ≤ 122 := by
      simp only [isLocalC, Bool.or_eq_true, Bool.and_eq_true, decide_eq_true_eq] at hd
      rcases hd with ((((((⟨_, h2⟩ | ⟨_, h2⟩) | ⟨_, h2⟩) | rfl) | rfl) | rfl) | rfl) | rfl
      · exact h2
      · have h2' : c.val.toNat ≤ 90 := h2
        omega
      · have h2' : c.val.toNat ≤ 57 := h2
        omega
      · decide
      · decide
      · decide
      · decide
      · decide
    simp only [isWS, Bool.or_eq_true, Bool.and_eq_true, decide_eq_true_eq] at hw
    rcases hw with (((((((((((((he | he) | he) | he) | he) | he) | he) | he) |
      ⟨g1, _⟩) | he) | he) | he) | he) | he) | he
    · exact absurd hd (by rw [he]; decide)
    · exact absurd hd (by rw [he]; decide)
    · exact absurd hd (by rw [he]; decide)
    · exact absurd hd (by rw [he]; decide)
    · exact absurd hd (by rw [he]; decide)
    · exact absurd hd (by rw [he]; decide)
    · exact absurd hd (by rw [he]; decide)
    · exact absurd hd (by rw [he]; decide)
    · have g1' : 8192 ≤ c.val.toNat := g1
      omega
    · exact absurd hd (by rw [he]; decide)
    · exact absurd hd (by rw [he]; decide)
    · exact absurd hd (by rw [he]; decide)
    · exact absurd hd (by rw [he]; decide)
    · exact absurd hd (by rw [he]; decide)
    · exact absurd hd (by rw [he]; decide)

theorem domainC_not_ws (c : Char) (hd : isDomainC c = true) : isWS c = false := by
  cases hw : isWS c
  · rfl
  · exfalso
    have hv : c.val.toNat ≤ 122 := by
      simp only [isDomainC, Bool.or_eq_true, Bool.and_eq_true, decide_eq_true_eq] at hd
      rcases hd with (((⟨_, h2⟩ | ⟨_, h2⟩) | ⟨_, h2⟩) | rfl) | rfl
      · exact h2
      · have h2' : c.val.toNat ≤ 90 := h2
        omega
      · have h2' : c.val.toNat ≤ 57 := h2
        omega
      · decide
      · decide
    simp only [isWS, Bool.or_eq_true, Bool.and_eq_true, decide_eq_true_eq] at hw
    rcases hw with (((((((((((((he | he) | he) | he) | he) | he) | he) | he) |
      ⟨g1, _⟩) | he) | he) | he) | he) | he) | he
    · exact absurd hd (by rw [he]; decide)
    · exact absurd hd (by rw [he]; decide)
    · exact absurd hd (by rw [he]; decide)
    · exact absurd hd (by rw [he]; decide)
    · exact absurd hd (by rw [he]; decide)
    · exact absurd hd (by rw [he]; decide)
    · exact absurd hd (by rw [he]; decide)
    · exact absurd hd (by rw [he]; decide)
    · have g1' : 8192 ≤ c.val.toNat := g1
      omega
    · exact absurd hd (by rw [he]; decide)
    · exact absurd hd (by rw [he]; decide)
    · exact absurd hd (by rw [he]; decide)
    · exact absurd hd (by rw [he]; decide)
    · exact absurd hd (by rw [he]; decide)
    · exact absurd hd (by rw [he]; decide)

/-- A URL match is a nonempty all-non-whitespace span. -/
theorem matchURL_span (l m rest : List Char) (h : matchURL l = some (m, rest)) :
    m ≠ [] ∧ ∀ c ∈ m, isWS c = false := by
  unfold matchURL at h
  by_cases h8 : "https://".data.isPrefixOf l = true
  · rw [if_pos h8] at h
    by_cases hb : (l.drop 8).takeWhile isURLBody = []
    · rw [if_pos hb] at h
      cases h
    · rw [if_neg hb] at h
      injection h with h
      injection h with h1 h2
      subst h1
      refine ⟨by simp, ?_⟩
      intro c hc
      rcases List.mem_append.mp hc with hc | hc
      · have hc' : c ∈ ['h', 't', 't', 'p', 's', ':', '/', '/'] := hc
        simp only [List.mem_cons, List.not_mem_nil, or_false] at hc'
        rcases hc' with rfl | rfl | rfl | rfl | rfl | rfl | rfl | rfl <;> decide
      · have hbody := List.mem_takeWhile_imp hc
        simp only [isURLBody, Bool.and_eq_true, Bool.not_eq_true'] at hbody
        exact hbody.1
  · rw [if_neg h8] at h
    by_cases h7 : "http://".data.isPrefixOf l = true
    · rw [if_pos h7] at h
      by_cases hb : (l.drop 7).takeWhile isURLBody = []
      · rw [if_pos hb] at h
        cases h
      · rw [if_neg hb] at h
        injection h with h
        injection h with h1 h2
        subst h1
        refine ⟨by simp, ?_⟩
        intro c hc
        rcases List.mem_append.mp hc with hc | hc
        · have hc' : c ∈ ['h', 't', 't', 'p', ':', '/', '/'] := hc
          simp only [List.mem_cons, List.not_mem_nil, or_false] at hc'
          rcases hc' with rfl | rfl | rfl | rfl | rfl | rfl | rfl <;> decide
        · have hbody := List.mem_takeWhile_imp hc
          simp only [isURLBody, Bool.and_eq_true, Bool.not_eq_true'] at hbody
          exact hbody.1
    · rw [if_neg h7] at h
      cases h

/-- Every split produced by `allSplits` reassembles to the input. -/
theorem allSplits_spec (l : List Char) : ∀ p ∈ allSplits l, p.1 ++ p.2 = l := by
  induction l with
  | nil =>
    intro p hp
    simp only [allSplits, List.mem_cons, List.not_mem_nil, or_false] at hp
    subst hp
    rfl
  | cons c t ih =>
    intro p hp
    simp only [allSplits, List.mem_cons] at hp
    rcases hp with rfl | hp
    · rfl
    · obtain ⟨q, hq, rfl⟩ := List.mem_map.mp hp
      show (c :: q.1) ++ q.2 = c :: t
      rw [List.cons_append, ih q hq]

theorem head?_filterMap_mem (f : List Char × List Char → Option Nat)
    (l : List (List Char × List Char)) (b : Nat)
    (h : (l.filterMap f).head? = some b) : ∃ a ∈ l, f a = some b := by
  cases hl : l.filterMap f with
  | nil =>
    rw [hl] at h
    cases h
  | cons x xs =>
    rw [hl] at h
    injection h with h
    subst h
    have hx : x ∈ l.filterMap f := by
      rw [hl]
      exact List.mem_cons_self _ _
    exact List.mem_filterMap.mp hx

/-- The domain search consumes at most the domain-class run. -/
theorem findDomain_le (D : List Char) (afterD : Option Char) (n : Nat)
    (h : findDomain D afterD = some n) : n ≤ D.length := by
  unfold findDomain at h
  obtain ⟨p, hp, hfp⟩ := head?_filterMap_mem _ _ _ h
  have hsplit : p.1 ++ p.2 = D := allSplits_spec D p (List.mem_reverse.mp hp)
  have hD : p.1.length + p.2.length = D.length := by
    rw [← hsplit, List.length_append]
  split at hfp
  · rename_i s heq
    split at hfp
    · cases hfp
    · dsimp only at hfp
      split at hfp
      · injection hfp with hfp
        have hlen : (s.takeWhile isAsciiLetter).length ≤ s.length :=
          List.Sublist.length_le (List.takeWhile_sublist _)
        rw [heq] at hD
        simp only [List.length_cons] at hD
        omega
      · cases hfp
  · cases hfp

/-- An e-mail match is a nonempty all-non-whitespace span. -/
theorem matchEmail_span (prev : Option Char) (l m rest : List Char)
    (h : matchEmail prev l = some (m, rest)) : m ≠ [] ∧ ∀ c ∈ m, isWS c = false := by
  unfold matchEmail at h
  split at h
  · cases h
  · split at h
    · cases h
    · split at h
      · rename_i rest' heq2
        dsimp only at h
        split at h
        · rename_i consumed heq3
          injection h with h
          injection h with h1 h2
          subst h1
          rw [drop_takeWhile_length isLocalC l] at heq2
          have hl : l = l.takeWhile isLocalC ++ '@' :: rest' := by
            have happ := List.takeWhile_append_dropWhile isLocalC l
            rw [heq2] at happ
            exact happ.symm
          have hm : l.take ((l.takeWhile isLocalC).length + 1 + consumed) =
              l.takeWhile isLocalC ++ '@' :: rest'.take consumed := by
            have e1 := congrArg
              (List.take ((l.takeWhile isLocalC).length + (consumed + 1))) hl
            rw [List.take_append, List.take_succ_cons] at e1
            rw [show (l.takeWhile isLocalC).length + 1 + consumed =
              (l.takeWhile isLocalC).length + (consumed + 1) from by omega]
            exact e1
          rw [hm]
          refine ⟨by simp, ?_⟩
          intro c hc
          rcases List.mem_append.mp hc with hc | hc
          · exact localC_not_ws c (List.mem_takeWhile_imp hc)
          · rcases List.mem_cons.mp hc with rfl | hc
            · decide
            · have hcon : consumed ≤ (rest'.takeWhile isDomainC).length :=
                findDomain_le _ _ _ heq3
              have htk : rest'.take consumed =
                  (rest'.takeWhile isDomainC).take consumed := by
                conv_lhs => rw [← List.takeWhile_append_dropWhile isDomainC rest']
                rw [List.take_append_of_le_length hcon]
              rw [htk] at hc
              have hc2 : c ∈ rest'.takeWhile isDomainC :=
                List.Sublist.mem hc (List.take_sublist _ _)
              exact domainC_not_ws c (List.mem_takeWhile_imp hc2)
        · cases h
      · cases h

/-- Every substring recorded by step 1 is a nonempty all-non-whitespace
span. -/
theorem s1Go_spans (fuel : Nat) : ∀ (cnt : Nat) (prev : Option Char) (l : List Char),
    ∀ u ∈ (s1Go fuel cnt prev l).2, u ≠ [] ∧ ∀ c ∈ u, isWS c = false := by
  induction fuel with
  | zero =>
    intro cnt prev l u hu
    have hu' : u ∈ ([] : List (List Char)) := hu
    cases hu'
  | succ fuel ih =>
    intro cnt prev l u hu
    cases l with
    | nil =>
      have hu' : u ∈ ([] : List (List Char)) := hu
      cases hu'
    | cons ch t =>
      cases hmu : matchURL (ch :: t) with
      | some pr =>
        obtain ⟨m, rest⟩ := pr
        have hred : (s1Go (fuel + 1) cnt prev (ch :: t)).2 =
            m :: (s1Go fuel (cnt + 1) m.getLast? rest).2 := by
          simp only [s1Go, hmu]
        rw [hred] at hu
        rcases List.mem_cons.mp hu with rfl | hu
        · exact matchURL_span _ _ _ hmu
        · exact ih (cnt + 1) m.getLast? rest u hu
      | none =>
        cases hme : matchEmail prev (ch :: t) with
        | some pr =>
          obtain ⟨m, rest⟩ := pr
          have hred : (s1Go (fuel + 1) cnt prev (ch :: t)).2 =
              m :: (s1Go fuel (cnt + 1) m.getLast? rest).2 := by
            simp only [s1Go, hmu, hme]
          rw [hred] at hu
          rcases List.mem_cons.mp hu with rfl | hu
          · exact matchEmail_span _ _ _ _ hme
          · exact ih (cnt + 1) m.getLast? rest u hu
        | none =>
          have hred : (s1Go (fuel + 1) cnt prev (ch :: t)).2 =
              (s1Go fuel cnt (some ch) t).2 := by
            simp only [s1Go, hmu, hme]
          rw [hred] at hu
          exact ih cnt (some ch) t u hu

theorem spanWeave_absorb (x b : List Char) (qs : List (List Char × List Char)) :
    x ++ spanWeave b qs = spanWeave (x ++ b) qs := by
  cases qs with
  | nil => rfl
  | cons q qs =>
    obtain ⟨u, w⟩ := q
    simp [spanWeave, List.append_assoc]

/-- Step 11 on a URL-token interleaving: each placeholder is replaced by
its recorded span, verbatim and in order. -/
theorem restore_spans (us : List (List Char)) : ∀ (k : Nat) (s0 : List Char)
    (ps : List (Option Nat × List Char)),
    ps.map Prod.fst = (List.range' k us.length).map some →
    '<' ∉ s0 → (∀ p ∈ ps, '<' ∉ p.2) → (∀ u ∈ us, '<' ∉ u ∧ '$' ∉ u) →
    ∃ qs, qs.map Prod.fst = us ∧
      step11Restore k us (mweave s0 ps) = spanWeave s0 qs := by
  induction us with
  | nil =>
    intro k s0 ps hmap _ _ _
    cases ps with
    | nil => exact ⟨[], rfl, rfl⟩
    | cons p ps => simp [List.range'] at hmap
  | cons u us ihs =>
    intro k s0 ps hmap h0 hps hus
    cases ps with
    | nil => simp [List.range'_succ] at hmap
    | cons p ps' =>
      obtain ⟨o, w⟩ := p
      have hmap' : o :: ps'.map Prod.fst =
          some k :: (List.range' (k + 1) us.length).map some := by
        simpa [List.range'_succ] using hmap
      injection hmap' with ho hmap''
      subst ho
      have hrd : u.all (fun c => c ≠ '$') = true := by
        rw [List.all_eq_true]
        intro c hc
        have hne : c ≠ '$' := fun he => (hus u (List.mem_cons_self _ _)).2 (he ▸ hc)
        simpa using hne
      have hrepl : replaceFirstJS (urlPH k) u (s0 ++ urlPH k ++ mweave w ps') =
          s0 ++ u ++ mweave w ps' := by
        apply replaceFirstJS_spec (urlPH k) u s0 (mweave w ps') hrd
        apply firstOcc_ge _ _ s0.length
        intro j hj
        have hX : s0 ++ urlPH k ++ mweave w ps' = s0 ++ (urlPH k ++ mweave w ps') :=
          List.append_assoc _ _ _
        rw [hX]
        exact no_early_match s0 h0 (urlPH k ++ mweave w ps') k j hj
      have hstep : step11Restore k (u :: us) (mweave s0 ((some k, w) :: ps')) =
          step11Restore (k + 1) us (mweave (s0 ++ (u ++ w)) ps') := by
        show step11Restore (k + 1) us
          (replaceFirstJS (urlPH k) u (s0 ++ urlPH k ++ mweave w ps')) = _
        rw [hrepl, List.append_assoc s0 u (mweave w ps'),
          show (u ++ mweave w ps' : List Char) = mweave (u ++ w) ps' from
            mweave_absorb u w ps', mweave_absorb s0 (u ++ w) ps']
      obtain ⟨qs', hqmap, heq⟩ := ihs (k + 1) (s0 ++ (u ++ w)) ps' hmap''
        (by
          intro h
          rcases List.mem_append.mp h with h | h
          · exact h0 h
          · rcases List.mem_append.mp h with h | h
            · exact (hus u (List.mem_cons_self _ _)).1 h
            · exact hps (some k, w) (List.mem_cons_self _ _) h)
        (fun q hq => hps q (List.mem_cons_of_mem _ hq))
        (fun v hv => hus v (List.mem_cons_of_mem _ hv))
      refine ⟨(u, w) :: qs', by simp [hqmap], ?_⟩
      rw [hstep, heq, ← spanWeave_absorb s0 (u ++ w) qs', ← spanWeave_absorb u w qs']
      show s0 ++ (u ++ spanWeave w qs') = s0 ++ u ++ spanWeave w qs'
      rw [List.append_assoc]

/-! ## The final trim keeps the restored spans intact -/

theorem dropWhile_append_head (p : Char → Bool) (A M : List Char)
    (hM : ∀ c, M.head? = some c → p c = false) :
    (A ++ M).dropWhile p = A.dropWhile p ++ M := by
  induction A with
  | nil =>
    cases M with
    | nil => rfl
    | cons c t => simp [List.dropWhile_cons, hM c rfl]
  | cons a A' ih =>
    by_cases pa : p a = true
    · simp [List.dropWhile_cons, pa, ih]
    · simp [List.dropWhile_cons, pa]

/-- Trimming from the right does not cross a nonempty non-whitespace
anchor. -/
theorem rtrim_anchor (X u w : List Char) (hne : u ≠ [])
    (hnws : ∀ c ∈ u, isWS c = false) :
    ((X ++ u ++ w).reverse.dropWhile isWS).reverse =
      X ++ u ++ (w.reverse.dropWhile isWS).reverse := by
  have hhead : ∀ c, (u.reverse ++ X.reverse).head? = some c → isWS c = false := by
    intro c hc
    cases hur : u.reverse with
    | nil => exact absurd (by simpa using congrArg List.reverse hur) hne
    | cons d r =>
      rw [hur] at hc
      injection hc with hc
      subst hc
      refine hnws d ?_
      have hd : d ∈ u.reverse := by
        rw [hur]
        exact List.mem_cons_self _ _
      exact List.mem_reverse.mp hd
  rw [List.reverse_append, List.reverse_append, List.append_assoc,
    dropWhile_append_head isWS w.reverse (u.reverse ++ X.reverse) hhead,
    List.reverse_append, List.reverse_append, List.reverse_reverse, List.reverse_reverse]
  simp [List.append_assoc]

/-- Trimming from the left distributes to the first segment. -/
theorem ltrim_spanWeave (s0 : List Char) (qs : List (List Char × List Char))
    (hq : ∀ q ∈ qs, q.1 ≠ [] ∧ ∀ c ∈ q.1, isWS c = false) :
    (spanWeave s0 qs).dropWhile isWS = spanWeave (s0.dropWhile isWS) qs := by
  cases qs with
  | nil => rfl
  | cons q qs'
  =>
    obtain ⟨u, w⟩ := q
    obtain ⟨hne, hnws⟩ := hq (u, w) (List.mem_cons_self _ _)
    cases hu : u with
    | nil => exact absurd hu hne
    | cons c0 u' =>
      subst hu
      rw [show spanWeave s0 ((c0 :: u', w) :: qs') =
          s0 ++ ((c0 :: u') ++ spanWeave w qs') from by simp [spanWeave, List.append_assoc],
        dropWhile_append_head isWS s0 _ (fun c hc => by
          injection hc with hc
          subst hc
          exact hnws c0 (List.mem_cons_self _ _)),
        show spanWeave (s0.dropWhile isWS) ((c0 :: u', w) :: qs') =
          s0.dropWhile isWS ++ ((c0 :: u') ++ spanWeave w qs') from by
          simp [spanWeave, List.append_assoc]]

/-- Trimming from the right preserves the span structure. -/
theorem rtrim_spanWeave (qs : List (List Char × List Char)) : ∀ (s0 : List Char),
    (∀ q ∈ qs, q.1 ≠ [] ∧ ∀ c ∈ q.1, isWS c = false) →
    ∃ s0' qs', ((spanWeave s0 qs).reverse.dropWhile isWS).reverse = spanWeave s0' qs' ∧
      qs'.map Prod.fst = qs.map Prod.fst := by
  induction qs with
  | nil =>
    intro s0 _
    exact ⟨(s0.reverse.dropWhile isWS).reverse, [], rfl, rfl⟩
  | cons q qs' ih =>
    obtain ⟨u, w⟩ := q
    intro s0 hq
    obtain ⟨s0'', qs2, heq, hfst⟩ :=
      ih w (fun q' hq' => hq q' (List.mem_cons_of_mem _ hq'))
    obtain ⟨hne, hnws⟩ := hq (u, w) (List.mem_cons_self _ _)
    refine ⟨s0, (u, s0'') :: qs2, ?_, by simp [hfst]⟩
    rw [show spanWeave s0 ((u, w) :: qs') = s0 ++ u ++ spanWeave w qs' from rfl,
      rtrim_anchor s0 u (spanWeave w qs') hne hnws, heq]
    rfl

/-- `trim` preserves the span structure. -/
theorem trimJS_spanWeave (s0 : List Char) (qs : List (List Char × List Char))
    (hq : ∀ q ∈ qs, q.1 ≠ [] ∧ ∀ c ∈ q.1, isWS c = false) :
    ∃ s0' qs', trimJS (spanWeave s0 qs) = spanWeave s0' qs' ∧
      qs'.map Prod.fst = qs.map Prod.fst := by
  unfold trimJS
  rw [ltrim_spanWeave s0 qs hq]
  exact rtrim_spanWeave qs (s0.dropWhile isWS) hq

/-- C3 (amended): for every input free of the placeholder frame character
`<` and of the replacement-escape character `$`, every substring protected
in stage 1 — `http` and `https` URL-like substrings and e-mail-like
substrings alike — is byte-identical after normalization: the output is
exactly the protected spans, in their original order and unaltered,
interleaved with the normalized segments; in particular
`https://Example.COM/Path` embedded in running text survives unchanged. -/
theorem all_protected_spans_byte_identical (l : List Char)
    (h1 : '<' ∉ l) (h2 : '$' ∉ l) :
    ∃ s0 qs, cleanText l = spanWeave s0 qs ∧
      qs.map Prod.fst = (step1Protect l).2 := by
  obtain ⟨s0, ws, he, h0, hws, hmap, hlen, hus⟩ := s1Go_mweave l.length 0 none l h1 h2
  have he1 : (step1Protect l).1 = mweave s0 ws := he
  have hlen1 : (step1Protect l).2.length = ws.length := hlen
  have hus1 : ∀ u ∈ (step1Protect l).2, '<' ∉ u ∧ '$' ∉ u := hus
  have hW : goodW (step1Protect l).1 (List.range' 0 ws.length) := by
    rw [he1]
    exact goodU_to_goodW _ _ ⟨s0, ws, rfl, h0, hws, hmap⟩
  have hU : goodU (midSteps (step1Protect l).1)
      (List.range' 0 (step1Protect l).2.length) := by
    rw [hlen1]
    exact midSteps_good _ _ hW
  obtain ⟨s0', ps', hmeq, h0', hps', hmap'⟩ := hU
  obtain ⟨qs, hqmap, hreq⟩ :=
    restore_spans (step1Protect l).2 0 s0' ps' hmap' h0' hps' hus1
  have hspans : ∀ q ∈ qs, q.1 ≠ [] ∧ ∀ c ∈ q.1, isWS c = false := by
    intro q hq'
    have hq1 : q.1 ∈ qs.map Prod.fst := List.mem_map.mpr ⟨q, hq', rfl⟩
    rw [hqmap] at hq1
    exact s1Go_spans l.length 0 none l q.1 hq1
  obtain ⟨S0, QS, htrim, hfst⟩ := trimJS_spanWeave s0' qs hspans
  refine ⟨S0, QS, ?_, by rw [hfst, hqmap]⟩
  show trimJS (step11Restore 0 (step1Protect l).2 (midSteps (step1Protect l).1)) = _
  rw [hmeq, hreq, htrim]

/-- Witness for `all_protected_spans_byte_identical` at an input holding
the spec's example URL and an e-mail address. -/
theorem all_protected_spans_byte_identical_witness :
    ('<' ∉ "Visit https://Example.COM/Path today or mail a.b@c.de now".data ∧
      '$' ∉ "Visit https://Example.COM/Path today or mail a.b@c.de now".data) ∧
    (step1Protect "Visit https://Example.COM/Path today or mail a.b@c.de now".data).2 =
      ["https://Example.COM/Path".data, "a.b@c.de".data] ∧
    ∃ s0 qs, cleanText "Visit https://Example.COM/Path today or mail a.b@c.de now".data =
        spanWeave s0 qs ∧
      qs.map Prod.fst =
        (step1Protect "Visit https://Example.COM/Path today or mail a.b@c.de now".data).2 :=
  ⟨⟨by decide, by decide⟩, by decide,
    all_protected_spans_byte_identical
      "Visit https://Example.COM/Path today or mail a.b@c.de now".data
      (by decide) (by decide)⟩

end PdfConverter
